import Mathlib

/-!
Shallow embedding of `Orange/data/table.py` (the `Table` class of an early
Orange3 revision) and proofs about it.

Modelling conventions:
* Machine floats are modelled as `ℚ` plus an explicit `nan` constructor;
  IEEE comparison semantics (every ordered comparison with `nan` is false,
  `!=` with `nan` is true) are embedded explicitly.
* Python values stored in the containers are modelled by `Obj`
  (a float, `nan`, a string, or `None`).
* numpy 2-d arrays are `Arr`: a list of rows together with the column count
  (needed for zero-row arrays) and an ownership flag modelling
  `arr.base is None` (true = the array owns its storage, false = it is a
  view into another array's storage).  In-place `ndarray.resize` fails on an
  array that does not own its data; that is the failure mode the flag models.
* The weight container `_W` is either a 1-d vector (weighted table) or a
  2-d `(n, 0)` array (unweighted), exactly as in the source.
* Fallible Python code returns `Except PyErr`; code that mutates `self` and
  can raise mid-way returns `Table × Option PyErr`, the first component
  being the state of the object when the call returns or raises.
-/

/-- Propositional equality of `Except` results is decidable when it is on
both constructors' payloads (used to evaluate embedded calls on concrete
inputs). -/
instance {ε α : Type} [DecidableEq ε] [DecidableEq α] :
    DecidableEq (Except ε α) := fun a b =>
  match a, b with
  | .error e, .error f =>
    decidable_of_iff (e = f) ⟨fun h => by rw [h], fun h => by injection h⟩
  | .ok x, .ok y =>
    decidable_of_iff (x = y) ⟨fun h => by rw [h], fun h => by injection h⟩
  | .error _, .ok _ => isFalse (fun hc => by injection hc)
  | .ok _, .error _ => isFalse (fun hc => by injection hc)

namespace Orange

/-- Python exception classes that the embedded code can raise. -/
inductive PyErr where
  | valueError
  | indexError
  | typeError
  | attributeError
deriving DecidableEq, Repr

/-- A Python value stored in a table cell: a float (`ℚ`), the float `nan`
(Orange's missing-value sentinel `Unknown`), a string, or `None`. -/
inductive Obj where
  | num (q : ℚ)
  | nan
  | str (s : String)
  | pynone
deriving DecidableEq, Repr

/-- `isinstance(v, Real)`: floats, including `nan`, are `Real`. -/
def Obj.isReal : Obj → Bool
  | .num _ => true
  | .nan => true
  | _ => false

/-- Python `==` / elementwise numpy `==` on stored values: `nan` is equal to
nothing (itself included), values of different types are unequal. -/
def objEq : Obj → Obj → Bool
  | .num a, .num b => a = b
  | .str a, .str b => a = b
  | .pynone, .pynone => true
  | _, _ => false

/-- Python `<` on stored values: numeric comparisons involving `nan` are
false; comparing a string with a number raises `TypeError`. -/
def objLt : Obj → Obj → Except PyErr Bool
  | .num a, .num b => .ok (decide (a < b))
  | .num _, .nan => .ok false
  | .nan, .num _ => .ok false
  | .nan, .nan => .ok false
  | .str a, .str b => .ok (decide (a < b))
  | _, _ => .error .typeError

/-- Python `<=` with IEEE `nan` semantics. -/
def objLe : Obj → Obj → Except PyErr Bool
  | .num a, .num b => .ok (decide (a ≤ b))
  | .num _, .nan => .ok false
  | .nan, .num _ => .ok false
  | .nan, .nan => .ok false
  | .str a, .str b => .ok (decide (a ≤ b))
  | _, _ => .error .typeError

/-- Python `>` with IEEE `nan` semantics. -/
def objGt (a b : Obj) : Except PyErr Bool := objLt b a

/-- Python `>=` with IEEE `nan` semantics. -/
def objGe (a b : Obj) : Except PyErr Bool := objLe b a

/-- `str(v)` as used by `np.array(col, dtype=str)`: the textual rendering of
numbers is abstracted (no claim inspects it); it only needs to be a fixed
deterministic function of the value. -/
def pyStr : Obj → String
  | .num q => toString q
  | .nan => "nan"
  | .str s => s
  | .pynone => "None"

/-- A numpy 2-d array: rows of cells, the column count (`shape[1]`, needed
when there are no rows), and whether the array owns its storage
(`base is None`). -/
structure Arr where
  data : List (List Obj)
  ncols : Nat
  owned : Bool
deriving DecidableEq, Repr

namespace Arr

/-- `shape[0]`. -/
def nrows (a : Arr) : Nat := a.data.length

/-- Every row has exactly `ncols` cells. -/
def wfb (a : Arr) : Bool := a.data.all (fun r => r.length = a.ncols)

/-- Cell read `a[i, j]` (callers establish the bounds). -/
def cell (a : Arr) (i j : Nat) : Obj := (a.data.getD i []).getD j (.num 0)

/-- Column read `a[:, j]`. -/
def col (a : Arr) (j : Nat) : List Obj := a.data.map (fun r => r.getD j (.num 0))

/-- The data relayout performed by a successful in-place
`a.resize(n, a.shape[1])`: in row-major order growing appends zero-filled
rows and shrinking truncates. -/
def resizeRaw (a : Arr) (n : Nat) : Arr :=
  { a with data :=
      (a.data ++ List.replicate (n - a.data.length) (List.replicate a.ncols (Obj.num 0))).take n }

/-- In-place `a.resize(n, a.shape[1])`: numpy refuses to resize an array
that does not own its data. -/
def resize (a : Arr) (n : Nat) : Except PyErr Arr :=
  if a.owned then .ok (a.resizeRaw n) else .error .valueError

end Arr

/-- The weight container `_W`: either a 1-d vector of length `n`
(weighted) or a 2-d array of shape `(n, 0)` (unweighted). -/
inductive Weights where
  | vec (owned : Bool) (data : List ℚ)
  | mat0 (owned : Bool) (n : Nat)
deriving DecidableEq, Repr

namespace Weights

/-- `shape[0]`. -/
def nrows : Weights → Nat
  | .vec _ d => d.length
  | .mat0 _ n => n

/-- `shape[-1]`: the length for a 1-d vector, `0` for a `(n, 0)` array. -/
def shapeLast : Weights → Nat
  | .vec _ d => d.length
  | .mat0 _ _ => 0

/-- `base is None`. -/
def owned : Weights → Bool
  | .vec o _ => o
  | .mat0 o _ => o

/-- Data relayout of a successful in-place resize (1-d vectors are
zero-padded or truncated; a `(n, 0)` array just changes its row count). -/
def resizeRaw : Weights → Nat → Weights
  | .vec o d, n => .vec o ((d ++ List.replicate (n - d.length) 0).take n)
  | .mat0 o _, n => .mat0 o n

/-- In-place resize, refusing to act on a view. -/
def resize (w : Weights) (n : Nat) : Except PyErr Weights :=
  if w.owned then .ok (w.resizeRaw n) else .error .valueError

end Weights

/-- What a variable encodes.  Modelled from the spec: the schema system is
an external collaborator (`Orange.data.variable` is not part of the
reviewed source); per the spec each variable carries a value-encoding
contract and is continuous, discrete (with a list of value names), or
string-valued. -/
inductive VarKind where
  | continuous
  | discrete (values : List String)
  | stringVar
deriving DecidableEq, Repr

/-- Modelled from the spec: a schema variable — a name plus its
value-encoding contract. -/
structure Var where
  name : String
  kind : VarKind
deriving DecidableEq, Repr

/-- Modelled from the spec: `Variable.to_val` — turn an external value into
the internal numeric or object code.  A string is looked up among a
discrete variable's value names (lookup failure fails the call), is not a
valid code for a continuous variable (type contract violation), and passes
through for a string variable; values already encoded pass through. -/
def Var.to_val (v : Var) (x : Obj) : Except PyErr Obj :=
  match x with
  | .str s =>
    match v.kind with
    | .discrete values =>
      let i := values.indexOf s
      if i < values.length then .ok (.num i) else .error .valueError
    | .continuous => .error .valueError
    | .stringVar => .ok (.str s)
  | x => .ok x

def Var.isDiscrete (v : Var) : Bool :=
  match v.kind with
  | .discrete _ => true
  | _ => false

/-- Modelled from the spec: a `Domain` — the ordered partition of variables
into attributes, class variables and metas (`Orange.data.domain` is not
part of the reviewed source), plus the `anonymous` marker. -/
structure Domain where
  attributes : List Var
  class_vars : List Var
  metas : List Var
  anonymous : Bool
deriving DecidableEq, Repr

/-- A fallback variable for the (unreachable when well-formed) out-of-range
branch of `Domain.byIndex`. -/
def defaultVar : Var := ⟨"", .continuous⟩

/-- Modelled from the spec: `domain[i]` — a non-negative signed column
address indexes attributes then class variables, a negative one indexes
the metas via `-1 - i`. -/
def Domain.byIndex (d : Domain) (i : Int) : Var :=
  if 0 ≤ i then (d.attributes ++ d.class_vars).getD i.toNat defaultVar
  else d.metas.getD (-1 - i).toNat defaultVar

/-- The `Table`: the schema handle plus the four co-indexed containers. -/
structure Table where
  domain : Domain
  X : Arr
  Y : Arr
  metas : Arr
  W : Weights
deriving DecidableEq, Repr

namespace Table

/-- `len(self)` = `self._X.shape[0]`. -/
def len (t : Table) : Nat := t.X.nrows

/-- The row-count invariant: all four containers have the same number of
rows. -/
def rowsEqualb (t : Table) : Bool :=
  t.Y.nrows = t.X.nrows && t.metas.nrows = t.X.nrows && t.W.nrows = t.X.nrows

/-- Structural well-formedness: the row-count invariant plus rectangular
containers whose widths match the schema. -/
def wfb (t : Table) : Bool :=
  t.rowsEqualb && t.X.wfb && t.Y.wfb && t.metas.wfb &&
    t.X.ncols = t.domain.attributes.length &&
    t.Y.ncols = t.domain.class_vars.length &&
    t.metas.ncols = t.domain.metas.length

/-- `Table.new_from_domain`: zero-filled feature/target containers, a
weight vector of ones or a zero-width weight container, and a metadata
container of missing values. -/
def new_from_domain (d : Domain) (n_rows : Nat) (weights : Bool) : Table :=
  { domain := d
    X := ⟨List.replicate n_rows (List.replicate d.attributes.length (.num 0)),
          d.attributes.length, true⟩
    Y := ⟨List.replicate n_rows (List.replicate d.class_vars.length (.num 0)),
          d.class_vars.length, true⟩
    metas := ⟨List.replicate n_rows (List.replicate d.metas.length .pynone),
          d.metas.length, true⟩
    W := if weights then .vec true (List.replicate n_rows 1) else .mat0 true n_rows }

/-- `Table.new_from_numpy` (all arrays supplied): column counts must match
the schema and all arrays must share the same row count, otherwise
construction fails with `ValueError` and no table is produced. -/
def new_from_numpy (d : Domain) (X Y metas : Arr) (W : Weights) :
    Except PyErr Table :=
  if X.ncols ≠ d.attributes.length then .error .valueError
  else if Y.ncols ≠ d.class_vars.length then .error .valueError
  else if metas.ncols ≠ d.metas.length then .error .valueError
  else if ¬ (X.nrows = Y.nrows ∧ Y.nrows = metas.nrows ∧ metas.nrows = W.nrows) then
    .error .valueError
  else .ok ⟨d, X, Y, metas, W⟩

end Table

/-- Keep the elements of `xs` at the positions where the boolean mask is
true (numpy boolean-mask indexing along axis 0). -/
def maskFilter {α : Type} : List Bool → List α → List α
  | true :: m, x :: xs => x :: maskFilter m xs
  | false :: m, _ :: xs => maskFilter m xs
  | _, _ => []

/-- Normalize a (possibly negative) Python/numpy integer index against a
length: negative indices have the length added, anything still out of
`[0, n)` is an `IndexError`. -/
def normIdx (n : Nat) (i : Int) : Except PyErr Nat :=
  let j := if i < 0 then i + n else i
  if 0 ≤ j ∧ j < n then .ok j.toNat else .error .indexError

/-- A row selector, as accepted by `arr[row_indices]`:
`...`, a slice (modelled by its resolved, in-range index list — Python
slices clamp, so resolution cannot fail), an integer index array (numpy
advanced indexing), or a boolean mask. -/
inductive RowIdx where
  | all
  | islice (idxs : List Nat)
  | fancy (idxs : List Int)
  | mask (bs : List Bool)
deriving DecidableEq, Repr

/-- Resolve a row selector against `n` rows to the selected index list plus
whether the selection is advanced indexing (which copies) as opposed to
basic indexing (which produces a view). -/
def RowIdx.resolve (r : RowIdx) (n : Nat) : Except PyErr (List Nat × Bool) :=
  match r with
  | .all => .ok (List.range n, false)
  | .islice idxs => .ok (idxs, false)
  | .fancy l => do
    let js ← l.mapM (normIdx n)
    .ok (js, true)
  | .mask bs =>
    if bs.length = n then .ok (maskFilter bs (List.range n), true)
    else .error .indexError

namespace Arr

/-- `a[row_indices]`: select rows.  Basic indexing aliases the source's
storage (the result is a view); advanced indexing allocates (the result
owns its storage). -/
def select (a : Arr) (r : RowIdx) : Except PyErr Arr := do
  let (js, advanced) ← r.resolve a.nrows
  .ok ⟨js.map (fun i => a.data.getD i []), a.ncols, advanced⟩

end Arr

namespace Weights

/-- `w[row_indices]` on the weight container. -/
def select (w : Weights) (r : RowIdx) : Except PyErr Weights := do
  let (js, advanced) ← r.resolve w.nrows
  match w with
  | .vec _ d => pure (.vec advanced (js.map (fun i => d.getD i 0)))
  | .mat0 _ _ => pure (.mat0 advanced js.length)

end Weights

namespace Table

/-- `Table.new_from_table_rows`: row-index every container with the same
selector; the pure view/alias path.  An invalid selector raises on the
first container and no table is produced. -/
def new_from_table_rows (source : Table) (r : RowIdx) : Except PyErr Table := do
  let X ← source.X.select r
  let Y ← source.Y.select r
  let metas ← source.metas.select r
  let W ← source.W.select r
  .ok ⟨source.domain, X, Y, metas, W⟩

/-- One container's branch of the `except` handler of `Table.resize_all`:
an array that reached the new length is resized back to the old one. -/
def rollbackOne (a : Arr) (oldLen newLen : Nat) : Arr × Option PyErr :=
  if a.nrows = newLen then
    match a.resize oldLen with
    | .ok a' => (a', none)
    | .error e => (a, some e)
  else (a, none)

/-- The weight-container branch of the `except` handler of
`Table.resize_all`. -/
def rollbackW (w : Weights) (oldLen newLen : Nat) : Weights × Option PyErr :=
  if w.nrows = newLen then
    match w.resize oldLen with
    | .ok w' => (w', none)
    | .error e => (w, some e)
  else (w, none)

/-- The `except` handler of `Table.resize_all`: every container that
reached `newLen` is resized back to `oldLen` and the original exception
`e` is re-raised (a failure while rolling back propagates instead, as in
Python, aborting the remaining rollbacks). -/
def rollbackAll (t : Table) (oldLen newLen : Nat) (e : PyErr) :
    Table × Option PyErr :=
  match rollbackOne t.X oldLen newLen with
  | (X', some e2) => ({ t with X := X' }, some e2)
  | (X', none) =>
    match rollbackOne t.Y oldLen newLen with
    | (Y', some e2) => ({ t with X := X', Y := Y' }, some e2)
    | (Y', none) =>
      match rollbackOne t.metas oldLen newLen with
      | (m', some e2) => ({ t with X := X', Y := Y', metas := m' }, some e2)
      | (m', none) =>
        match rollbackW t.W oldLen newLen with
        | (W', some e2) => ({ t with X := X', Y := Y', metas := m', W := W' }, some e2)
        | (W', none) => ({ t with X := X', Y := Y', metas := m', W := W' }, some e)

/-- `Table.resize_all`: resize all four containers to `newLen`; on any
failure restore every container that was already resized and re-raise. -/
def resize_all (t : Table) (newLen : Nat) : Table × Option PyErr :=
  let oldLen := t.X.nrows
  if oldLen = newLen then (t, none)
  else
    match t.X.resize newLen with
    | .error e => rollbackAll t oldLen newLen e
    | .ok X' =>
      match t.Y.resize newLen with
      | .error e => rollbackAll { t with X := X' } oldLen newLen e
      | .ok Y' =>
        match t.metas.resize newLen with
        | .error e => rollbackAll { t with X := X', Y := Y' } oldLen newLen e
        | .ok m' =>
          match t.W.resize newLen with
          | .error e =>
            rollbackAll { t with X := X', Y := Y', metas := m' } oldLen newLen e
          | .ok W' => ({ t with X := X', Y := Y', metas := m', W := W' }, none)

/-- A deletion key for `__delitem__`: `...`, a single index, or a list of
indices. -/
inductive DelKey where
  | all
  | one (i : Int)
  | many (l : List Int)
deriving DecidableEq, Repr

/-- `np.delete(a, ks, axis=0)`: indices are normalized (out-of-range is an
`IndexError`), the rows at the (deduplicated) indices are removed, and a
fresh owning array is returned. -/
def npDelete (a : Arr) (ks : List Int) : Except PyErr Arr := do
  let js ← ks.mapM (normIdx a.nrows)
  .ok ⟨(a.data.enum.filterMap (fun p => if p.1 ∈ js then none else some p.2)),
       a.ncols, true⟩

/-- `np.delete` on the weight container. -/
def npDeleteW (w : Weights) (ks : List Int) : Except PyErr Weights := do
  let js ← ks.mapM (normIdx w.nrows)
  match w with
  | .vec _ d =>
    pure (.vec true (d.enum.filterMap (fun p => if p.1 ∈ js then none else some p.2)))
  | .mat0 _ n =>
    pure (.mat0 true (((List.range n).filter (fun i => ¬ i ∈ js)).length))

/-- `Table.__delitem__`: delete the addressed rows from every container in
lockstep.  Each `np.delete` builds a fresh array before the corresponding
attribute is reassigned, so a failure leaves the remaining containers
untouched. -/
def delitem (t : Table) (k : DelKey) : Table × Option PyErr :=
  let ks : List Int :=
    match k with
    | .all => (List.range t.len).map Int.ofNat
    | .one i => [i]
    | .many l => l
  match npDelete t.X ks with
  | .error e => (t, some e)
  | .ok X' =>
    match npDelete t.Y ks with
    | .error e => ({ t with X := X' }, some e)
    | .ok Y' =>
      match npDelete t.metas ks with
      | .error e => ({ t with X := X', Y := Y' }, some e)
      | .ok m' =>
        match npDeleteW t.W ks with
        | .error e => ({ t with X := X', Y := Y', metas := m' }, some e)
        | .ok W' => ({ t with X := X', Y := Y', metas := m', W := W' }, none)

/-- `Table.shuffle`: apply one advanced-indexing selection, with the
shuffled `np.arange(len)` supplied as the oracle `ind`, to all four
containers in sequence. -/
def shuffle (t : Table) (ind : List Nat) : Table × Option PyErr :=
  let r := RowIdx.fancy (ind.map Int.ofNat)
  match t.X.select r with
  | .error e => (t, some e)
  | .ok X' =>
    match t.Y.select r with
    | .error e => ({ t with X := X' }, some e)
    | .ok Y' =>
      match t.metas.select r with
      | .error e => ({ t with X := X', Y := Y' }, some e)
      | .ok m' =>
        match t.W.select r with
        | .error e => ({ t with X := X', Y := Y', metas := m' }, some e)
        | .ok W' => ({ t with X := X', Y := Y', metas := m', W := W' }, none)

end Table

namespace Arr

/-- Row assignment `a[k] = xs` with `k` already in range: numpy requires
the value's shape to match the row or to be broadcastable (a length-1
value is stretched across the row); any other length is a `ValueError`. -/
def setRow (a : Arr) (k : Nat) (xs : List Obj) : Except PyErr Arr :=
  if xs.length = a.ncols then .ok { a with data := a.data.set k xs }
  else if xs.length = 1 then
    .ok { a with data := a.data.set k (List.replicate a.ncols (xs.getD 0 (Obj.num 0))) }
  else .error .valueError

/-- Scalar row assignment `a[k] = v` / `a[k, :] = v` (broadcast). -/
def setRowConst (a : Arr) (k : Nat) (v : Obj) : Arr :=
  { a with data := a.data.set k (List.replicate a.ncols v) }

/-- Bulk tail assignment `a[old:] = b`: the region and the source must
agree in shape, otherwise `ValueError`. -/
def setTail (a : Arr) (old : Nat) (b : Arr) : Except PyErr Arr :=
  if a.nrows - old = b.nrows ∧ a.ncols = b.ncols then
    .ok { a with data := a.data.take old ++ b.data }
  else .error .valueError

end Arr

/-- A value passed as one "example" (row) to `__setitem__`/`extend`/
`insert`: either a single real number or a sequence of raw values.
(An `Instance` argument would go through the instance-conversion branch of
`convert_to_row`, which calls the external conversion machinery; that input
shape is outside this model.) -/
inductive Example where
  | real (q : ℚ)
  | seq (vals : List Obj)
deriving DecidableEq, Repr

namespace Table

/-- `Table.convert_to_row` for a non-`Instance` value: encode the row's
attribute values through each variable's `to_val` (each comprehension is
fully evaluated before its row assignment, so a conversion failure leaves
that container untouched, but containers already assigned stay modified),
then the class values, then set the whole metadata row to `Unknown`.
Passing a bare number raises `TypeError` (`zip` over a non-iterable). -/
def convert_to_row (t : Table) (ex : Example) (key : Int) : Table × Option PyErr :=
  match ex with
  | .real _ => (t, some .typeError)
  | .seq vals =>
    match (t.domain.attributes.zip vals).mapM (fun p => p.1.to_val p.2) with
    | .error e => (t, some e)
    | .ok xs =>
      match normIdx t.X.nrows key with
      | .error e => (t, some e)
      | .ok kx =>
        match t.X.setRow kx xs with
        | .error e => (t, some e)
        | .ok X' =>
          let t1 := { t with X := X' }
          match (t.domain.class_vars.zip
                   (vals.drop t.domain.attributes.length)).mapM
                  (fun p => p.1.to_val p.2) with
          | .error e => (t1, some e)
          | .ok ys =>
            match normIdx t1.Y.nrows key with
            | .error e => (t1, some e)
            | .ok ky =>
              match t1.Y.setRow ky ys with
              | .error e => (t1, some e)
              | .ok Y' =>
                let t2 := { t1 with Y := Y' }
                match normIdx t2.metas.nrows key with
                | .error e => (t2, some e)
                | .ok km =>
                  ({ t2 with metas := t2.metas.setRowConst km .nan }, none)

/-- The single-key path of `Table.__setitem__` (`self[key] = value` with an
integer key): a `Real` value is broadcast across the feature row
(`self._X[key, :] = value`); any other value goes through
`convert_to_row`. -/
def setitem_int (t : Table) (key : Int) (v : Example) : Table × Option PyErr :=
  match v with
  | .real q =>
    match normIdx t.X.nrows key with
    | .error e => (t, some e)
    | .ok k => ({ t with X := t.X.setRowConst k (.num q) }, none)
  | .seq _ => t.convert_to_row v key

end Table

/-- The populate loop of `Table.extend`
(`for i, example in enumerate(examples): self[old_length + i] = example`),
stopping at the first failure with the state reached so far. -/
def populateRows (old : Nat) : Table → Nat → List Example → Table × Option PyErr
  | t, _, [] => (t, none)
  | t, i, ex :: rest =>
    match t.setitem_int (Int.ofNat (old + i)) ex with
    | (t', none) => populateRows old t' (i + 1) rest
    | (t', some e) => (t', some e)

namespace Table

/-- `Table.extend` with a sequence of examples (the non-`Table` branch):
record the length, grow all containers, populate row by row; any populate
failure shrinks back to the recorded length and re-raises. -/
def extend (t : Table) (examples : List Example) : Table × Option PyErr :=
  let old := t.len
  match t.resize_all (old + examples.length) with
  | (t1, some e) => (t1, some e)
  | (t1, none) =>
    match populateRows old t1 0 examples with
    | (t2, none) => (t2, none)
    | (t2, some e) =>
      match t2.resize_all old with
      | (t3, none) => (t3, some e)
      | (t3, some e2) => (t3, some e2)

end Table

/-- The 1-d weight data (callers only use this under a
`shape[-1] != 0` guard, which rules out the zero-width container). -/
def Weights.vecData : Weights → List ℚ
  | .vec _ d => d
  | .mat0 _ _ => []

/-- Tail assignment `w[old:] = vals` on a 1-d weight vector. -/
def Weights.setTailVals (w : Weights) (old : Nat) (vals : List ℚ) :
    Except PyErr Weights :=
  match w with
  | .vec o d =>
    if d.length - old = vals.length then .ok (.vec o (d.take old ++ vals))
    else .error .valueError
  | .mat0 _ _ => .error .typeError

/-- The body of the `try` block of `Table.extend` for a source table under
the identical domain (the bulk-copy shortcut): copy each container into
the new tail; when the destination is weighted, copy the source weights or
default them to 1. -/
def extendShortcut (t : Table) (old : Nat) (s : Table) : Table × Option PyErr :=
  match t.X.setTail old s.X with
  | .error e => (t, some e)
  | .ok X' =>
    match t.Y.setTail old s.Y with
    | .error e => ({ t with X := X' }, some e)
    | .ok Y' =>
      match t.metas.setTail old s.metas with
      | .error e => ({ t with X := X', Y := Y' }, some e)
      | .ok m' =>
        let base := { t with X := X', Y := Y', metas := m' }
        if base.W.shapeLast ≠ 0 then
          if s.W.shapeLast ≠ 0 then
            match base.W.setTailVals old s.W.vecData with
            | .error e => (base, some e)
            | .ok W' => ({ base with W := W' }, none)
          else
            match base.W.setTailVals old
                    (List.replicate (base.W.nrows - old) 1) with
            | .error e => (base, some e)
            | .ok W' => ({ base with W := W' }, none)
        else (base, none)

namespace Table

/-- `Table.extend` with another table as `examples`, restricted to the
bulk-copy shortcut (`isinstance(examples, Table)` and identical domain);
extending with a table under a different domain dispatches to the
instance-conversion machinery, outside this model. -/
def extend_table (t : Table) (s : Table) : Table × Option PyErr :=
  let old := t.len
  match t.resize_all (old + s.len) with
  | (t1, some e) => (t1, some e)
  | (t1, none) =>
    match extendShortcut t1 old s with
    | (t2, none) => (t2, none)
    | (t2, some e) =>
      match t2.resize_all old with
      | (t3, none) => (t3, some e)
      | (t3, some e2) => (t3, some e2)

end Table

/-- `d[key+1:] = d[key:-1]`: shift the tail one position down, duplicating
row `key`; rows before `key+1` are untouched. -/
def shiftDownL {α : Type} (d : List α) (key : Nat) : List α :=
  d.take (key + 1) ++ (d.drop key).dropLast

/-- `d[key:-1] = d[key+1:]`: shift the tail one position up; the last row
keeps its value. -/
def shiftUpL {α : Type} (d : List α) (key : Nat) : List α :=
  d.take key ++ d.drop (key + 1) ++ d.drop (d.length - 1)

/-- The tail shift of `Table.insert` on the weight container. -/
def Weights.shiftDown : Weights → Nat → Weights
  | .vec o d, key => .vec o (shiftDownL d key)
  | .mat0 o n, _ => .mat0 o n

/-- The rollback shift of `Table.insert` on the weight container. -/
def Weights.shiftUp : Weights → Nat → Weights
  | .vec o d, key => .vec o (shiftUpL d key)
  | .mat0 o n, _ => .mat0 o n

/-- `w[k] = q` on a 1-d weight vector (used under a `shape[-1] != 0`
guard). -/
def Weights.setOne : Weights → Nat → ℚ → Weights
  | .vec o d, k, q => .vec o (d.set k q)
  | .mat0 o n, _, _ => .mat0 o n

namespace Table

/-- The four container shifts opening the gap in `Table.insert`. -/
def shiftDownFrom (t : Table) (key : Nat) : Table :=
  { t with X := { t.X with data := shiftDownL t.X.data key }
           Y := { t.Y with data := shiftDownL t.Y.data key }
           metas := { t.metas with data := shiftDownL t.metas.data key }
           W := t.W.shiftDown key }

/-- The four container shifts closing the gap in the failure handler of
`Table.insert`. -/
def shiftUpFrom (t : Table) (key : Nat) : Table :=
  { t with X := { t.X with data := shiftUpL t.X.data key }
           Y := { t.Y with data := shiftUpL t.Y.data key }
           metas := { t.metas with data := shiftUpL t.metas.data key }
           W := t.W.shiftUp key }

/-- The `try` block of `Table.insert`: write the new row into the gap and,
if the table is weighted, default its weight to 1. -/
def insertTry (t : Table) (k : Nat) (v : Example) : Table × Option PyErr :=
  match t.convert_to_row v (Int.ofNat k) with
  | (t', some e) => (t', some e)
  | (t', none) =>
    if t'.W.shapeLast ≠ 0 then ({ t' with W := t'.W.setOne k 1 }, none)
    else (t', none)

/-- `Table.insert`: normalize a negative index by adding the length, fail
with `IndexError` outside `[0, len]`, grow by one, shift the tail down,
write the new row; on a populate failure shift back, shrink, and
re-raise. -/
def insert (t : Table) (key : Int) (v : Example) : Table × Option PyErr :=
  let key := if key < 0 then key + t.len else key
  if key < 0 ∨ (t.len : Int) < key then (t, some .indexError)
  else
    match t.resize_all (t.len + 1) with
    | (t1, some e) => (t1, some e)
    | (t1, none) =>
      let k := key.toNat
      let t2 := if k < t1.len then t1.shiftDownFrom k else t1
      match insertTry t2 k v with
      | (t3, none) => (t3, none)
      | (t3, some e) =>
        let t4 := t3.shiftUpFrom k
        match t4.resize_all (t4.len - 1) with
        | (t5, none) => (t5, some e)
        | (t5, some e2) => (t5, some e2)

/-- `Table.append`: insert at the end. -/
def append (t : Table) (v : Example) : Table × Option PyErr := t.insert t.len v

/-- `Table.get_column_view`: a non-negative address below the feature
width reads a feature column, other non-negative addresses read a target
column, negative addresses read a metadata column; a column index outside
the physical container is an `IndexError`. -/
def get_column_view (t : Table) (index : Int) : Except PyErr (List Obj) :=
  if 0 ≤ index then
    if index < (t.X.ncols : Int) then .ok (t.X.col index.toNat)
    else if index - t.X.ncols < (t.Y.ncols : Int) then
      .ok (t.Y.col (index - t.X.ncols).toNat)
    else .error .indexError
  else
    if (-1 - index) < (t.metas.ncols : Int) then
      .ok (t.metas.col (-1 - index).toNat)
    else .error .indexError

end Table

namespace Table

/-- `Table.is_view`, with Python's short-circuiting `and`: the conditions
on `_X`, `_Y` and `_metas` are evaluated first and any falsy one returns
`False`; only when all three hold does evaluation reach the final
conjunct, which reads `self._weights` — an attribute the class never
defines (the weight container is stored as `_W`) — and therefore raises
`AttributeError`. -/
def is_view (t : Table) : Except PyErr Bool :=
  if (t.X.ncols = 0 ∨ t.X.owned = false) ∧
     (t.Y.ncols = 0 ∨ t.Y.owned = false) ∧
     (t.metas.ncols = 0 ∨ t.metas.owned = false) then
    .error .attributeError
  else .ok false

/-- `Table.is_copy`: a zero-width `_X` is exempt from the ownership test;
`_Y`, `_metas` and `_W` must own their storage unconditionally. -/
def is_copy (t : Table) : Bool :=
  (t.X.ncols = 0 || t.X.owned) && t.Y.owned && t.metas.owned && t.W.owned

/-- `Table.ensure_copy`: replace each container that aliases foreign
storage with an owning copy of the same values. -/
def ensure_copy (t : Table) : Table :=
  { t with X := { t.X with owned := true }
           Y := { t.Y with owned := true }
           metas := { t.metas with owned := true }
           W := match t.W with
                | .vec _ d => .vec true d
                | .mat0 _ n => .mat0 true n }

end Table

/-- The shape of a numpy indexing result: a 2-d array of rows, or the 1-d
array produced by advanced indexing with paired index arrays. -/
inductive Np where
  | mat (rows : List (List Obj))
  | vec1 (v : List Obj)
deriving DecidableEq, Repr

namespace Arr

/-- `a[row_indices, cols]` with a list of column indices.  Basic row
indexing (`...` or a slice) selects the cross product and yields a 2-d
array; an advanced row index (integer array or boolean mask) is *paired*
elementwise with the column array under broadcasting, yielding a 1-d
array, and mismatched lengths (with neither side of length one) fail to
broadcast. -/
def getitem2 (a : Arr) (r : RowIdx) (cols : List Nat) : Except PyErr Np := do
  let (js, advanced) ← r.resolve a.nrows
  if advanced then
    if js.length = cols.length then
      .ok (.vec1 ((js.zip cols).map (fun p => a.cell p.1 p.2)))
    else if js.length = 1 then
      .ok (.vec1 (cols.map (fun c => a.cell (js.getD 0 0) c)))
    else if cols.length = 1 then
      .ok (.vec1 (js.map (fun i => a.cell i (cols.getD 0 0))))
    else .error .indexError
  else
    .ok (.mat (js.map (fun i => cols.map (fun j => a.cell i j))))

/-- `a[row_indices, j]` with a scalar column index: one column at the
selected rows (the scalar broadcasts against any row selection). -/
def getColSel (a : Arr) (r : RowIdx) (j : Nat) : Except PyErr (List Obj) := do
  let (js, _) ← r.resolve a.nrows
  .ok (js.map (fun i => a.cell i j))

end Arr

namespace Table

/-- The element-by-element fallback branch of `Table._get_columns`: an
empty `(n_rows, len(src_cols))` array is filled one destination column at
a time, each source address dispatched by sign/range to its physical
container (`a[:, i] = ...` requires the gathered column to have exactly
`n_rows` entries). -/
def get_columns_fallback (t : Table) (r : RowIdx) (src_cols : List Int)
    (n_rows : Nat) : Except PyErr Np := do
  let n_src_attrs : Int := t.domain.attributes.length
  let colsData ← src_cols.mapM (fun c => do
    let col ←
      if c < 0 then t.metas.getColSel r (-1 - c).toNat
      else if c < n_src_attrs then t.X.getColSel r c.toNat
      else t.Y.getColSel r (c - n_src_attrs).toNat
    if col.length = n_rows then pure col else throw PyErr.valueError)
  .ok (.mat ((List.range n_rows).map
        (fun i => colsData.map (fun col => col.getD i (Obj.num 0)))))

/-- `Table._get_columns`: an empty address list yields a zero-width
result; a list lying entirely in one physical container (all feature
addresses, all negative addresses, or all target addresses) is gathered
by one bulk indexed read on that container; a mixed list falls back to
the element-by-element gather. -/
def get_columns (t : Table) (r : RowIdx) (src_cols : List Int) (n_rows : Nat) :
    Except PyErr Np :=
  if src_cols.length = 0 then .ok (.mat (List.replicate n_rows []))
  else
    let n_src_attrs : Int := t.domain.attributes.length
    if src_cols.all (fun x => decide (0 ≤ x ∧ x < n_src_attrs)) then
      t.X.getitem2 r (src_cols.map Int.toNat)
    else if src_cols.all (fun x => decide (x < 0)) then
      t.metas.getitem2 r (src_cols.map (fun x => (-1 - x).toNat))
    else if src_cols.all (fun x => decide (n_src_attrs ≤ x)) then
      t.Y.getitem2 r (src_cols.map (fun x => (x - n_src_attrs).toNat))
    else t.get_columns_fallback r src_cols n_rows

end Table

/-- The numeric payload of a cell (`0` in branches the guards make
unreachable). -/
def objNum : Obj → ℚ
  | .num q => q
  | _ => 0

def toQ : Obj → Option ℚ
  | .num q => some q
  | _ => none

/-- Does the column hold anything that is not a float? -/
def hasNonNum (col : List Obj) : Bool :=
  col.any (fun o => match o with
    | .num _ => false
    | .nan => false
    | _ => true)

def hasNan (col : List Obj) : Bool := col.any (· = Obj.nan)

/-- `np.min` over one column: fails on an empty column, propagates `nan`,
and is only defined here for numeric data. -/
def npMinCol (col : List Obj) : Except PyErr Obj :=
  match col with
  | [] => .error .valueError
  | _ =>
    if hasNonNum col then .error .typeError
    else if hasNan col then .ok .nan
    else
      match col.filterMap toQ with
      | [] => .ok .nan
      | q :: qs => .ok (.num (qs.foldl min q))

/-- `np.max` over one column. -/
def npMaxCol (col : List Obj) : Except PyErr Obj :=
  match col with
  | [] => .error .valueError
  | _ =>
    if hasNonNum col then .error .typeError
    else if hasNan col then .ok .nan
    else
      match col.filterMap toQ with
      | [] => .ok .nan
      | q :: qs => .ok (.num (qs.foldl max q))

/-- `a <= b` restricted to floats; any comparison involving `nan` is
false. -/
def numLeB : Obj → Obj → Bool
  | .num a, .num b => a ≤ b
  | _, _ => false

/-- Truncation toward zero, Python's `int()` on a float. -/
def ratTrunc (q : ℚ) : Int := q.num.tdiv q.den

/-- `np.unique` over a numeric column: sorted distinct values. -/
def npUniqueQ (col : List Obj) : List ℚ :=
  ((col.filterMap toQ).dedup).insertionSort (· ≤ ·)

/-- `"v%*i" % (places, i)`: `i` right-justified in `places` characters,
after a `v`. -/
def fmtValName (places : Nat) (i : Nat) : String :=
  let s := toString i
  "v" ++ String.mk (List.replicate (places - s.length) ' ') ++ s

/-- Class-variable inference of `Table.create_anonymous_domain` for target
column `i`: if the column's minimum is at least 0 and its maximum at most
20, and every distinct value is a whole number between 0 and 19, the
column becomes a discrete variable with ordinal value names; otherwise a
continuous one. -/
def inferClassVar (i : Nat) (col : List Obj) : Except PyErr Var := do
  let mn ← npMinCol col
  let mx ← npMaxCol col
  if numLeB (.num 0) mn && numLeB mx (.num 20) then
    let values := npUniqueQ col
    if values.all (fun x => x.den = 1 && decide (0 ≤ x) && decide (x ≤ 19)) then
      let mxI := (ratTrunc (objNum mx)).toNat
      let places := 1 + (if 10 ≤ mxI then 1 else 0)
      let vnames := (List.range (mxI + 1)).map (fun j => fmtValName places (j + 1))
      pure ⟨"Class " ++ toString (i + 1), .discrete vnames⟩
    else
      pure ⟨"Target " ++ toString (i + 1), .continuous⟩
  else
    pure ⟨"Target " ++ toString (i + 1), .continuous⟩

namespace Table

/-- `Table.create_anonymous_domain`: every feature column becomes a
continuous variable named positionally, target columns are inferred by
`inferClassVar`, metadata columns become string variables; the resulting
domain is marked anonymous. -/
def create_anonymous_domain (X : Arr) (Y : Option Arr) (metas : Option Arr) :
    Except PyErr Domain := do
  let attr_vars := (List.range X.ncols).map
    (fun a => Var.mk ("Feature " ++ toString (a + 1)) .continuous)
  let class_vars ←
    match Y with
    | none => pure []
    | some Ya => (List.range Ya.ncols).mapM (fun i => inferClassVar i (Ya.col i))
  let meta_vars :=
    match metas with
    | none => []
    | some ma => (List.range ma.ncols).map
        (fun m => Var.mk ("Meta " ++ toString m) .stringVar)
  pure ⟨attr_vars, class_vars, meta_vars, true⟩

end Table

/-- Rows of `bn.anynan(a, axis=1)`: does the row contain a missing
value? -/
def Arr.anynanRows (a : Arr) : List Bool := a.data.map (fun r => r.any (· = Obj.nan))

namespace Table

/-- `Table.filter_is_defined` (the unimplemented `check` column list is
ignored by the source): retain the rows with no missing value in the
feature and target containers, or the complement when negated. -/
def filter_is_defined (t : Table) (negate : Bool) : Except PyErr Table :=
  let retain := List.zipWith (fun a b => a || b) t.X.anynanRows t.Y.anynanRows
  let retain := if ¬negate then retain.map (!·) else retain
  t.new_from_table_rows (.mask retain)

/-- `Table.filter_has_class`: retain the rows with no missing value in the
target container, or the complement when negated. -/
def filter_has_class (t : Table) (negate : Bool) : Except PyErr Table :=
  let retain := t.Y.anynanRows
  let retain := if ¬negate then retain.map (!·) else retain
  t.new_from_table_rows (.mask retain)

end Table

/-- A Python slice bound under the era's float-index handling (floats were
truncated with `int()`): negative bounds wrap by the length, and the
result is clamped to `[0, n]`. -/
def pySliceBound (x : ℚ) (n : Nat) : Nat :=
  let k := ratTrunc x
  if k < 0 then (k + n).toNat else min k.toNat n

/-- `np.random.shuffle` modelled by an oracle permutation `perm` of
`range n`: entry `i` of the result is entry `perm i` of the input. -/
def applyPerm {α : Type} (perm : List Nat) (l : List α) (d : α) : List α :=
  perm.map (fun i => l.getD i d)

namespace Table

/-- The boolean retain vector of `Table.filter_random`: a probability
below 1 is scaled by the row count; the (possibly fractional) bound then
cuts `retain[:prob] = True` (or `retain[prob:] = True` when negated), and
the vector is shuffled. -/
def filter_random_mask (t : Table) (prob : ℚ) (negate : Bool)
    (perm : List Nat) : List Bool :=
  let n := t.len
  let p := if prob < 1 then prob * n else prob
  let b := pySliceBound p n
  let retain :=
    if negate then List.replicate b false ++ List.replicate (n - b) true
    else List.replicate b true ++ List.replicate (n - b) false
  applyPerm perm retain false

/-- `Table.filter_random`: build the retain vector and select those
rows. -/
def filter_random (t : Table) (prob : ℚ) (negate : Bool) (perm : List Nat) :
    Except PyErr Table :=
  t.new_from_table_rows (.mask (t.filter_random_mask prob negate perm))

end Table

/-- The comparison operators of `FilterContinuous.Operator` and
`FilterString.Operator` (the last three are string-only). -/
inductive FOper where
  | Equal | NotEqual | Less | LessEqual | Greater | GreaterEqual
  | Between | Outside | Contains | BeginsWith | EndsWith
deriving DecidableEq, Repr

/-- An atomic filter condition, mirroring `filter.FilterDiscrete`,
`filter.FilterStringList`, `filter.FilterContinuous` and
`filter.FilterString`.  Modelled from the spec: `Orange.data.filter` (not
part of the reviewed source) supplies these as plain data holders — a
column address, operator, operand(s) and case-sensitivity flag — evaluated
entirely by `Table.filter_values`. -/
inductive FCond where
  | discrete (position : Int) (values : List Obj)
  | stringList (position : Int) (values : List String) (case_sensitive : Bool)
  | continuous (position : Int) (oper : FOper) (fmin fmax : Obj)
  | stringCond (position : Int) (oper : FOper) (fmin fmax : String)
      (case_sensitive : Bool)
deriving DecidableEq, Repr

/-- The column address of a condition (`f.position`). -/
def FCond.position : FCond → Int
  | .discrete p _ => p
  | .stringList p _ _ => p
  | .continuous p _ _ _ => p
  | .stringCond p _ _ _ _ => p

/-- `filter.Values`: a list of conditions combined conjunctively or
disjunctively.  Modelled from the spec (a composite predicate-tree node). -/
structure FValues where
  conditions : List FCond
  conjunction : Bool
deriving DecidableEq, Repr

/-- The argument of `Table.filter_values`: a composite `filter.Values` or
a bare single condition. -/
inductive FilterArg where
  | values (v : FValues)
  | single (c : FCond)
deriving DecidableEq, Repr

/-- numpy bool-to-float promotion, for `s2 += (col == val)`. -/
def boolQ (b : Bool) : ℚ := if b then 1 else 0

/-- `np.char.lower(np.array(col, dtype=str))`: every cell rendered as text
and lowercased. -/
def lowerCol (col : List Obj) : List String :=
  col.map (fun o => (pyStr o).toLower)

/-- `fmin in e` on Python strings: some suffix of `e` starts with
`fmin` (vacuously true for an empty `fmin`, as in Python). -/
def substrB (fmin e : String) : Bool :=
  (List.range (e.toList.length + 1)).any
    (fun k => decide ((e.toList.drop k).take fmin.toList.length = fmin.toList))

/-- The `FilterContinuous` comparison over a column (`nan` compares false
under every ordered operator and `Equal`, true under `NotEqual`); the
string-only pattern operators raise `TypeError` here. -/
def contStep (col : List Obj) (oper : FOper) (fmin fmax : Obj) :
    Except PyErr (List Bool) :=
  match oper with
  | .Equal => .ok (col.map (fun e => objEq e fmin))
  | .NotEqual => .ok (col.map (fun e => ! objEq e fmin))
  | .Less => col.mapM (fun e => objLt e fmin)
  | .LessEqual => col.mapM (fun e => objLe e fmin)
  | .Greater => col.mapM (fun e => objGt e fmin)
  | .GreaterEqual => col.mapM (fun e => objGe e fmin)
  | .Between => do
    let a ← col.mapM (fun e => objGe e fmin)
    let b ← col.mapM (fun e => objLe e fmax)
    .ok (List.zipWith (· && ·) a b)
  | .Outside => do
    let a ← col.mapM (fun e => objLt e fmin)
    let b ← col.mapM (fun e => objGt e fmax)
    .ok (List.zipWith (· || ·) a b)
  | _ => .error .typeError

/-- The `FilterString` comparison in the case-sensitive path: the column
keeps its stored values, so comparing or pattern-matching a non-string
cell raises `TypeError`. -/
def strStepCS (col : List Obj) (oper : FOper) (fmin fmax : String) :
    Except PyErr (List Bool) :=
  match oper with
  | .Equal => .ok (col.map (fun e => objEq e (.str fmin)))
  | .NotEqual => .ok (col.map (fun e => ! objEq e (.str fmin)))
  | .Less => col.mapM (fun e => objLt e (.str fmin))
  | .LessEqual => col.mapM (fun e => objLe e (.str fmin))
  | .Greater => col.mapM (fun e => objGt e (.str fmin))
  | .GreaterEqual => col.mapM (fun e => objGe e (.str fmin))
  | .Between => do
    let a ← col.mapM (fun e => objGe e (.str fmin))
    let b ← col.mapM (fun e => objLe e (.str fmax))
    .ok (List.zipWith (· && ·) a b)
  | .Outside => do
    let a ← col.mapM (fun e => objLt e (.str fmin))
    let b ← col.mapM (fun e => objGt e (.str fmax))
    .ok (List.zipWith (· || ·) a b)
  | .Contains => col.mapM (fun e =>
      match e with
      | .str s => .ok (substrB fmin s)
      | _ => .error .typeError)
  | .BeginsWith => col.mapM (fun e =>
      match e with
      | .str s => .ok (s.startsWith fmin)
      | _ => .error .typeError)
  | .EndsWith => col.mapM (fun e =>
      match e with
      | .str s => .ok (s.endsWith fmin)
      | _ => .error .typeError)

/-- The `FilterString` comparison in the case-insensitive path: the column
was rendered to lowercase text, `fmin` is lowercased, and `fmax` is
lowercased in the only branches that use it, so it is passed lowercased
here. -/
def strStepCI (colL : List String) (oper : FOper) (fminL fmaxL : String) :
    List Bool :=
  match oper with
  | .Equal => colL.map (fun e => e = fminL)
  | .NotEqual => colL.map (fun e => e ≠ fminL)
  | .Less => colL.map (fun e => e < fminL)
  | .LessEqual => colL.map (fun e => e ≤ fminL)
  | .Greater => colL.map (fun e => fminL < e)
  | .GreaterEqual => colL.map (fun e => fminL ≤ e)
  | .Between => List.zipWith (· && ·)
      (colL.map (fun e => fminL ≤ e)) (colL.map (fun e => e ≤ fmaxL))
  | .Outside => List.zipWith (· || ·)
      (colL.map (fun e => e < fminL)) (colL.map (fun e => fmaxL < e))
  | .Contains => colL.map (fun e => substrB fminL e)
  | .BeginsWith => colL.map (fun e => e.startsWith fminL)
  | .EndsWith => colL.map (fun e => e.endsWith fminL)

namespace Table

/-- One condition's `to_val` coercion in the discrete branch: operand
values that are already `Real` are used as given, others go through the
column's variable. -/
def discLookup (t : Table) (pos : Int) (val : Obj) : Except PyErr Obj :=
  if val.isReal then .ok val else (t.domain.byIndex pos).to_val val

/-- One iteration of the condition loop of `Table.filter_values`: read the
condition's column and fold its result into the running selection with
elementwise AND (conjunction) or OR (disjunction), exactly as the source
does per condition class. -/
def filterStep (t : Table) (conjunction : Bool) (sel : List Bool) (f : FCond) :
    Except PyErr (List Bool) := do
  let col ← t.get_column_view f.position
  match f with
  | .discrete pos values =>
    if conjunction then do
      let s2 ← values.foldlM
        (fun s2 val => do
          let v ← t.discLookup pos val
          pure (List.zipWith (fun s c => s + boolQ (objEq c v)) s2 col))
        (List.replicate t.len (0 : ℚ))
      pure (List.zipWith (fun b s => b && decide (s ≠ 0)) sel s2)
    else
      values.foldlM
        (fun sel val => do
          let v ← t.discLookup pos val
          pure (List.zipWith (fun b c => b || objEq c v) sel col))
        sel
  | .stringList _ values case_sensitive =>
    let cmp : Obj → String → Bool :=
      if case_sensitive then fun e v => objEq e (.str v)
      else fun e v => (pyStr e).toLower = v
    let vals := if case_sensitive then values else values.map String.toLower
    if conjunction then
      match vals with
      | [] => .error .typeError
      | v0 :: rest =>
        let combined := rest.foldl
          (fun acc v => List.zipWith (· || ·) acc (col.map (fun e => cmp e v)))
          (col.map (fun e => cmp e v0))
        pure (List.zipWith (· && ·) sel combined)
    else
      pure (vals.foldl
        (fun acc v => List.zipWith (· || ·) acc (col.map (fun e => cmp e v)))
        sel)
  | .continuous _ oper fmin fmax => do
    let cb ← contStep col oper fmin fmax
    pure (if conjunction then List.zipWith (· && ·) sel cb
          else List.zipWith (· || ·) sel cb)
  | .stringCond _ oper fmin fmax case_sensitive => do
    let cb ←
      if case_sensitive then strStepCS col oper fmin fmax
      else pure (strStepCI (lowerCol col) oper fmin.toLower fmax.toLower)
    pure (if conjunction then List.zipWith (· && ·) sel cb
          else List.zipWith (· || ·) sel cb)

/-- `Table.filter_values`: a bare condition becomes a one-condition
conjunction; the running selection starts all-true (conjunction) or
all-false (disjunction), every condition is folded in, and the final
selection picks the rows of the result table. -/
def filter_values (t : Table) (filt : FilterArg) : Except PyErr Table := do
  let conditions :=
    match filt with
    | .values v => v.conditions
    | .single c => [c]
  let conjunction :=
    match filt with
    | .values v => v.conjunction
    | .single _ => true
  let sel ← conditions.foldlM (t.filterStep conjunction)
    (List.replicate t.len conjunction)
  t.new_from_table_rows (.mask sel)

end Table

/-- The tables obtainable through the public constructors and mutation
operations of `Table`: construction from a domain, from numpy arrays and
from another table's rows, and the post-states of `extend` (row sequence
and table source), `insert`, `__delitem__` and `shuffle` — the post-state
of a failed mutation included.  `shuffle` receives the shuffled
`np.arange(len(self))` as the oracle permutation. -/
inductive Reachable : Table → Prop where
  | from_domain (d : Domain) (n : Nat) (w : Bool) :
      Reachable (Table.new_from_domain d n w)
  | from_numpy (d : Domain) (X Y metas : Arr) (W : Weights) (t : Table)
      (h : Table.new_from_numpy d X Y metas W = .ok t) : Reachable t
  | from_table_rows (s : Table) (r : RowIdx) (t : Table) (hs : Reachable s)
      (h : Table.new_from_table_rows s r = .ok t) : Reachable t
  | extend (t : Table) (exs : List Example) (ht : Reachable t) :
      Reachable (t.extend exs).1
  | extend_table (t s : Table) (ht : Reachable t) (hs : Reachable s) :
      Reachable (t.extend_table s).1
  | insert (t : Table) (key : Int) (v : Example) (ht : Reachable t) :
      Reachable (t.insert key v).1
  | delitem (t : Table) (k : Table.DelKey) (ht : Reachable t) :
      Reachable (t.delitem k).1
  | shuffle (t : Table) (ind : List Nat) (ht : Reachable t)
      (hperm : ind.Perm (List.range t.len)) :
      Reachable (t.shuffle ind).1

/-- Stated from the claim's words, for comparison with the inference the
code performs: every value of the column is a whole number within
`[0, 19]` (a missing or non-numeric cell is not such a value). -/
def allWholeIn0to19 (col : List Obj) : Bool :=
  col.all (fun o => match o with
    | .num q => q.den = 1 && decide (0 ≤ q) && decide (q ≤ 19)
    | _ => false)

/-- The table `new_from_table_rows` builds for a boolean mask over a table
satisfying the row-count invariant: every container keeps the rows at the
mask's true positions, as an owning copy (boolean-mask indexing is
advanced). -/
def Table.maskSelect (t : Table) (m : List Bool) : Table :=
  { domain := t.domain
    X := ⟨(maskFilter m (List.range t.len)).map (fun i => t.X.data.getD i []),
          t.X.ncols, true⟩
    Y := ⟨(maskFilter m (List.range t.len)).map (fun i => t.Y.data.getD i []),
          t.Y.ncols, true⟩
    metas := ⟨(maskFilter m (List.range t.len)).map (fun i => t.metas.data.getD i []),
          t.metas.ncols, true⟩
    W := match t.W with
         | .vec _ d =>
           .vec true ((maskFilter m (List.range t.len)).map (fun i => d.getD i 0))
         | .mat0 _ _ => .mat0 true (maskFilter m (List.range t.len)).length }

/-! ### Concrete fixtures used by the theorems below -/








/-- The number of `true` entries of a boolean selection vector. -/
def countTrue (l : List Bool) : Nat := l.count true

/-- The rational `3/2` (= the float `1.5`), given in lowest terms so the
kernel can evaluate with it. -/
def q3half : ℚ := ⟨3, 2, by norm_num, by norm_num⟩

/-- The rational `-1/2` (= the float `-0.5`), given in lowest terms so the
kernel can evaluate with it. -/
def qneg12 : ℚ := ⟨-1, 2, by norm_num, by norm_num⟩

/-- A continuous feature variable `f`. -/
def fVar : Var := ⟨"f", .continuous⟩

/-- A two-valued discrete target variable `c`. -/
def cVar : Var := ⟨"c", .discrete ["a", "b"]⟩

/-- The schema of the spec's concrete filter scenario: one numeric
feature, one discrete target, no metas. -/
def exDom : Domain := ⟨[fVar], [cVar], [], false⟩

/-- The spec's concrete filter scenario: 4 rows, feature values
`[1, 2, 3, missing]`, target codes `[0, 1, 0, 1]`, unweighted. -/
def exTable4 : Table :=
  { domain := exDom
    X := ⟨[[.num 1], [.num 2], [.num 3], [.nan]], 1, true⟩
    Y := ⟨[[.num 0], [.num 1], [.num 0], [.num 1]], 1, true⟩
    metas := ⟨[[], [], [], []], 0, true⟩
    W := .mat0 true 4 }

/-- A 3-row table of the same schema (zero-filled). -/
def exTable3 : Table := Table.new_from_domain exDom 3 false

/-- A 2×2 owned feature matrix `[[1, 2], [3, 4]]` with no targets or
metas. -/
def exTable2x2 : Table :=
  { domain := ⟨[⟨"a", .continuous⟩, ⟨"b", .continuous⟩], [], [], false⟩
    X := ⟨[[.num 1, .num 2], [.num 3, .num 4]], 2, true⟩
    Y := ⟨[[], []], 0, true⟩
    metas := ⟨[[], []], 0, true⟩
    W := .mat0 true 2 }

/-- A 2-row feature array for the anonymous-domain scenario. -/
def exXa : Arr := ⟨[[.num 1], [.num 2]], 1, true⟩

/-- A 2-row target array with codes `[0, 1]`. -/
def exYa : Arr := ⟨[[.num 0], [.num 1]], 1, true⟩

/-- A 2-row zero-width metadata array. -/
def exMa : Arr := ⟨[[], []], 0, true⟩

/-- The domain `create_anonymous_domain` infers for the arrays above. -/
def exDomAnon : Domain :=
  ⟨[⟨"Feature 1", .continuous⟩], [⟨"Class 1", .discrete ["v1", "v2"]⟩], [], true⟩

/-- The filter `f > 1.5` over the example schema. -/
def exFiltGt : FilterArg := .single (.continuous 0 .Greater (.num q3half) (.num 0))

/-- The 2-row table that `filter_values` keeps from the 4-row scenario
table under `f > 1.5`. -/
def exTable2r : Table :=
  { domain := exDom
    X := ⟨[[.num 2], [.num 3]], 1, true⟩
    Y := ⟨[[.num 1], [.num 0]], 1, true⟩
    metas := ⟨[[], []], 0, true⟩
    W := .mat0 true 2 }

/-- The state after all four in-place resizes succeeded. -/
def Table.resizeAllRaw (t : Table) (m : Nat) : Table :=
  { t with X := t.X.resizeRaw m, Y := t.Y.resizeRaw m,
           metas := t.metas.resizeRaw m, W := t.W.resizeRaw m }

/-- `d2` differs from `d` at most in row `k`: same length, same prefix
before `k`, same suffix after `k`. -/
def RowMod {α : Type} (k : Nat) (d d2 : List α) : Prop :=
  d2.length = d.length ∧ d2.take k = d.take k ∧ d2.drop (k + 1) = d.drop (k + 1)

/-- The populate phase touches at most row `k` of the three matrices and
never the schema; the weight container is touched only by the
`w[k] = 1` defaulting of `insert`. -/
def TouchOnly (k : Nat) (t t2 : Table) : Prop :=
  t2.domain = t.domain ∧
  t2.X.ncols = t.X.ncols ∧ t2.X.owned = t.X.owned ∧ RowMod k t.X.data t2.X.data ∧
  t2.Y.ncols = t.Y.ncols ∧ t2.Y.owned = t.Y.owned ∧ RowMod k t.Y.data t2.Y.data ∧
  t2.metas.ncols = t.metas.ncols ∧ t2.metas.owned = t.metas.owned ∧
    RowMod k t.metas.data t2.metas.data ∧
  (t2.W = t.W ∨ t2.W = t.W.setOne k 1)

/-- Prefix preservation by a populate phase that only writes at rows `old`
or later: lengths, widths, ownership, schema and the first `old` rows of
each container are untouched, and the weight container entirely so. -/
def PopPres (old : Nat) (t t2 : Table) : Prop :=
  t2.domain = t.domain ∧
  t2.X.ncols = t.X.ncols ∧ t2.X.owned = t.X.owned ∧
    t2.X.data.length = t.X.data.length ∧ t2.X.data.take old = t.X.data.take old ∧
  t2.Y.ncols = t.Y.ncols ∧ t2.Y.owned = t.Y.owned ∧
    t2.Y.data.length = t.Y.data.length ∧ t2.Y.data.take old = t.Y.data.take old ∧
  t2.metas.ncols = t.metas.ncols ∧ t2.metas.owned = t.metas.owned ∧
    t2.metas.data.length = t.metas.data.length ∧
    t2.metas.data.take old = t.metas.data.take old ∧
  t2.W = t.W

/-- The weight analogue of prefix preservation: same variant, same
ownership flag, same row count, same first `old` entries. -/
def WPres (old : Nat) : Weights → Weights → Prop
  | .vec o d, .vec o2 d2 => o2 = o ∧ d2.length = d.length ∧ d2.take old = d.take old
  | .mat0 o n, .mat0 o2 n2 => o2 = o ∧ n2 = n
  | _, _ => False

/-- `PopPres` with the weight clause weakened to prefix preservation (the
bulk-copy shortcut of `extend` may rewrite the weight tail). -/
def PopPresW (old : Nat) (t t2 : Table) : Prop :=
  t2.domain = t.domain ∧
  t2.X.ncols = t.X.ncols ∧ t2.X.owned = t.X.owned ∧
    t2.X.data.length = t.X.data.length ∧ t2.X.data.take old = t.X.data.take old ∧
  t2.Y.ncols = t.Y.ncols ∧ t2.Y.owned = t.Y.owned ∧
    t2.Y.data.length = t.Y.data.length ∧ t2.Y.data.take old = t.Y.data.take old ∧
  t2.metas.ncols = t.metas.ncols ∧ t2.metas.owned = t.metas.owned ∧
    t2.metas.data.length = t.metas.data.length ∧
    t2.metas.data.take old = t.metas.data.take old ∧
  WPres old t.W t2.W

/-! ### List, array and weight-container lemmas -/




theorem take_set_of_le {α : Type} (l : List α) (k key : Nat) (x : α)
    (h : key ≤ k) : (l.set k x).take key = l.take key := by
  rw [List.set_take]
  exact List.set_eq_of_length_le (le_trans (by simp) h)

theorem drop_set_of_lt {α : Type} (l : List α) (k key : Nat) (x : α)
    (h : k < key) : (l.set k x).drop key = l.drop key := by
  rw [List.drop_set, if_pos h]

namespace Arr

theorem nrows_resizeRaw (a : Arr) (n : Nat) : (a.resizeRaw n).nrows = n := by
  simp only [Arr.resizeRaw, Arr.nrows, List.length_take, List.length_append,
    List.length_replicate]
  omega

@[simp] theorem ncols_resizeRaw (a : Arr) (n : Nat) :
    (a.resizeRaw n).ncols = a.ncols := rfl

@[simp] theorem owned_resizeRaw (a : Arr) (n : Nat) :
    (a.resizeRaw n).owned = a.owned := rfl

theorem resizeRaw_self (a : Arr) (n : Nat) (h : a.nrows = n) :
    a.resizeRaw n = a := by
  obtain ⟨d, nc, ow⟩ := a
  have h' : d.length = n := h
  subst h'
  simp [Arr.resizeRaw]

/-- Growing and then writing only at rows at or past the old length leaves
the old prefix intact, so resizing back recovers the original array. -/
theorem resizeRaw_restore (a : Arr) (m : Nat) (a2 : Arr)
    (hn : a.nrows ≤ m)
    (hlen : a2.data.length = m)
    (hpre : a2.data.take a.nrows = (a.resizeRaw m).data.take a.nrows)
    (hnc : a2.ncols = a.ncols) (how : a2.owned = a.owned) :
    a2.resizeRaw a.nrows = a := by
  have hd : a2.data.take a.nrows = a.data := by
    rw [hpre]
    simp only [Arr.resizeRaw]
    rw [List.take_take, min_eq_left hn]
    show (a.data ++ _).take a.data.length = a.data
    rw [List.take_append_of_le_length (le_refl a.data.length), List.take_length]
  have hz : a.nrows - a2.data.length = 0 := by
    have h1 : a.nrows ≤ m := hn
    omega
  obtain ⟨d2, nc2, ow2⟩ := a2
  obtain ⟨d, nc, ow⟩ := a
  simp only [Arr.nrows, Arr.ncols, Arr.owned] at hnc how hd hz ⊢
  subst hnc
  subst how
  simp only [Arr.resizeRaw, Arr.nrows]
  simp [hz, hd]

end Arr

namespace Weights

theorem nrows_resizeRaw_w (w : Weights) (n : Nat) : (w.resizeRaw n).nrows = n := by
  cases w with
  | vec o d =>
    simp only [Weights.resizeRaw, Weights.nrows, List.length_take,
      List.length_append, List.length_replicate]
    omega
  | mat0 o k => rfl

@[simp] theorem owned_resizeRaw_w (w : Weights) (n : Nat) :
    (w.resizeRaw n).owned = w.owned := by
  cases w <;> rfl

@[simp] theorem owned_shiftDown (w : Weights) (k : Nat) :
    (w.shiftDown k).owned = w.owned := by
  cases w <;> rfl

@[simp] theorem owned_shiftUp (w : Weights) (k : Nat) :
    (w.shiftUp k).owned = w.owned := by
  cases w <;> rfl

@[simp] theorem owned_setOne (w : Weights) (k : Nat) (q : ℚ) :
    (w.setOne k q).owned = w.owned := by
  cases w <;> rfl

theorem resizeRaw_self_w (w : Weights) (n : Nat) (h : w.nrows = n) :
    w.resizeRaw n = w := by
  cases w with
  | vec o d =>
    have h' : d.length = n := h
    subst h'
    simp [Weights.resizeRaw]
  | mat0 o k =>
    have h' : k = n := h
    subst h'
    rfl

/-- A 1-d weight vector written only at or past the old length, after
growing: resizing back recovers the original vector. -/
theorem resizeRaw_restore_vec (o : Bool) (d : List ℚ) (m : Nat) (d2 : List ℚ)
    (hn : d.length ≤ m)
    (hlen : d2.length = m)
    (hpre : d2.take d.length = ((Weights.vec o d).resizeRaw m).vecData.take d.length) :
    (Weights.vec o d2).resizeRaw d.length = .vec o d := by
  have hd : d2.take d.length = d := by
    rw [hpre]
    simp only [Weights.resizeRaw, Weights.vecData]
    rw [List.take_take, min_eq_left hn,
      List.take_append_of_le_length (le_refl d.length), List.take_length]
  have hz : d.length - d2.length = 0 := by omega
  simp [Weights.resizeRaw, Weights.nrows, hz, hd]

theorem resizeRaw_roundtrip_w (w : Weights) (m : Nat) (h : w.nrows ≤ m) :
    (w.resizeRaw m).resizeRaw w.nrows = w := by
  cases w with
  | vec o d =>
    have h' : d.length ≤ m := h
    have hlen : ((d ++ List.replicate (m - d.length) (0 : ℚ)).take m).length = m := by
      simp only [List.length_take, List.length_append, List.length_replicate]
      omega
    exact resizeRaw_restore_vec o d m
      ((d ++ List.replicate (m - d.length) 0).take m) h' hlen rfl
  | mat0 o k => rfl

end Weights

theorem Arr.resizeRaw_roundtrip (a : Arr) (m : Nat) (h : a.nrows ≤ m) :
    (a.resizeRaw m).resizeRaw a.nrows = a :=
  Arr.resizeRaw_restore a m (a.resizeRaw m) h (a.nrows_resizeRaw m) rfl rfl rfl

namespace Table


theorem rowsEqual_spec (t : Table) (h : t.rowsEqualb = true) :
    t.Y.nrows = t.X.nrows ∧ t.metas.nrows = t.X.nrows ∧ t.W.nrows = t.X.nrows := by
  simpa [Table.rowsEqualb, Bool.and_eq_true, decide_eq_true_eq, and_assoc] using h

theorem resize_all_self (t : Table) (m : Nat) (h : t.X.nrows = m) :
    t.resize_all m = (t, none) := by
  simp only [Table.resize_all]
  rw [if_pos h]

theorem resize_all_owned (t : Table) (m : Nat) (hne : t.X.nrows ≠ m)
    (hX : t.X.owned = true) (hY : t.Y.owned = true)
    (hM : t.metas.owned = true) (hW : t.W.owned = true) :
    t.resize_all m = (t.resizeAllRaw m, none) := by
  simp only [Table.resize_all, Arr.resize, Weights.resize, hX, hY, hM, hW,
    if_true, if_neg hne, Table.resizeAllRaw]

/-- Complete case analysis of `resize_all` on a table satisfying the
row-count invariant: the no-op case, the all-owned success case, and the
failure case, whose rollback restores the row count always and the whole
table when growing. -/
theorem resize_all_cases (t : Table) (m : Nat) (h : t.rowsEqualb = true) :
    (t.X.nrows = m ∧ t.resize_all m = (t, none))
  ∨ (t.X.nrows ≠ m ∧ t.X.owned = true ∧ t.Y.owned = true ∧
       t.metas.owned = true ∧ t.W.owned = true ∧
       t.resize_all m = (t.resizeAllRaw m, none))
  ∨ (∃ e t', t.resize_all m = (t', some e) ∧ t'.rowsEqualb = true ∧
       t'.len = t.len ∧ (t.len ≤ m → t' = t)) := by
  obtain ⟨hY, hM, hW⟩ := rowsEqual_spec t h
  by_cases hxm : t.X.nrows = m
  · exact Or.inl ⟨hxm, resize_all_self t m hxm⟩
  by_cases hXo : t.X.owned = true
  · by_cases hYo : t.Y.owned = true
    · by_cases hMo : t.metas.owned = true
      · by_cases hWo : t.W.owned = true
        · exact Or.inr (Or.inl ⟨hxm, hXo, hYo, hMo, hWo,
            resize_all_owned t m hxm hXo hYo hMo hWo⟩)
        · -- `_W` is a view: X, Y, metas were resized and are rolled back
          refine Or.inr (Or.inr ⟨.valueError,
            { t with X := (t.X.resizeRaw m).resizeRaw t.X.nrows,
                     Y := (t.Y.resizeRaw m).resizeRaw t.X.nrows,
                     metas := (t.metas.resizeRaw m).resizeRaw t.X.nrows }, ?_, ?_, ?_, ?_⟩)
          · simp only [Table.resize_all, Arr.resize, Weights.resize, hXo, hYo, hMo,
              if_true, if_neg hxm]
            rw [if_neg (by simp [hWo])]
            simp only [Table.rollbackAll, Table.rollbackOne, Table.rollbackW,
              Arr.nrows_resizeRaw, if_pos rfl, Arr.resize, Arr.owned_resizeRaw, hXo, hYo, hMo,
              if_true, hY, hM, if_neg hxm, hW]
          · simp only [Table.rowsEqualb, Arr.nrows_resizeRaw, hY, hM, hW]
            simp
          · simp only [Table.len, Arr.nrows_resizeRaw]
          · intro hle
            have hres : ∀ a : Arr, a.nrows = t.X.nrows →
                (a.resizeRaw m).resizeRaw t.X.nrows = a := by
              intro a ha
              have h2 := Arr.resizeRaw_roundtrip a m (by rw [ha]; exact hle)
              rwa [ha] at h2
            rw [hres t.X rfl, hres t.Y hY, hres t.metas hM]
      · -- `_metas` is a view: X, Y were resized and are rolled back
        refine Or.inr (Or.inr ⟨.valueError,
          { t with X := (t.X.resizeRaw m).resizeRaw t.X.nrows,
                   Y := (t.Y.resizeRaw m).resizeRaw t.X.nrows }, ?_, ?_, ?_, ?_⟩)
        · simp only [Table.resize_all, Arr.resize, hXo, hYo,
            if_true, if_neg hxm]
          rw [if_neg (by simp [hMo])]
          simp only [Table.rollbackAll, Table.rollbackOne, Table.rollbackW,
            Arr.nrows_resizeRaw, if_pos rfl, Arr.resize, Arr.owned_resizeRaw, hXo, hYo,
            if_true, hM, hW, if_neg hxm]
        · simp only [Table.rowsEqualb, Arr.nrows_resizeRaw, hY, hM, hW]
          simp
        · simp only [Table.len, Arr.nrows_resizeRaw]
        · intro hle
          have hres : ∀ a : Arr, a.nrows = t.X.nrows →
              (a.resizeRaw m).resizeRaw t.X.nrows = a := by
            intro a ha
            have h2 := Arr.resizeRaw_roundtrip a m (by rw [ha]; exact hle)
            rwa [ha] at h2
          rw [hres t.X rfl, hres t.Y hY]
    · -- `_Y` is a view: X was resized and is rolled back
      refine Or.inr (Or.inr ⟨.valueError,
        { t with X := (t.X.resizeRaw m).resizeRaw t.X.nrows }, ?_, ?_, ?_, ?_⟩)
      · simp only [Table.resize_all, Arr.resize, hXo,
          if_true, if_neg hxm]
        rw [if_neg (by simp [hYo])]
        simp only [Table.rollbackAll, Table.rollbackOne, Table.rollbackW,
          Arr.nrows_resizeRaw, if_pos rfl, Arr.resize, Arr.owned_resizeRaw, hXo,
          if_true, hY, hM, hW, if_neg hxm]
      · simp only [Table.rowsEqualb, Arr.nrows_resizeRaw, hY, hM, hW]
        simp
      · simp only [Table.len, Arr.nrows_resizeRaw]
      · intro hle
        rw [Arr.resizeRaw_roundtrip t.X m hle]
  · -- `_X` is a view: nothing was resized
    refine Or.inr (Or.inr ⟨.valueError, t, ?_, h, rfl, fun _ => rfl⟩)
    simp only [Table.resize_all, Arr.resize]
    rw [if_neg hxm, if_neg (by simp [hXo])]
    simp only [Table.rollbackAll, Table.rollbackOne, Table.rollbackW, if_neg hxm]
    rw [hY, hM, hW]
    simp only [if_neg hxm]

end Table

/-! ### Tracking which rows a populate step may touch -/


theorem RowMod.refl_row {α : Type} (k : Nat) (d : List α) : RowMod k d d :=
  ⟨rfl, rfl, rfl⟩

theorem RowMod.set {α : Type} (k : Nat) (d : List α) (x : α) :
    RowMod k d (d.set k x) :=
  ⟨List.length_set .., take_set_of_le d k k x (le_refl k),
   drop_set_of_lt d k (k + 1) x (Nat.lt_succ_self k)⟩

theorem RowMod.trans_row {α : Type} {k : Nat} {d d2 d3 : List α}
    (h1 : RowMod k d d2) (h2 : RowMod k d2 d3) : RowMod k d d3 :=
  ⟨h2.1.trans h1.1, h2.2.1.trans h1.2.1, h2.2.2.trans h1.2.2⟩

theorem RowMod.set_of (k : Nat) {α : Type} {d d2 : List α} (x : α)
    (h : RowMod k d d2) : RowMod k d (d2.set k x) :=
  h.trans_row (RowMod.set k d2 x)

theorem RowMod.take_of_le {α : Type} {k : Nat} {d d2 : List α} (m : Nat)
    (hm : m ≤ k) (h : RowMod k d d2) : d2.take m = d.take m := by
  have h1 : (d2.take k).take m = (d.take k).take m := by rw [h.2.1]
  rwa [List.take_take, List.take_take, min_eq_left hm] at h1

/-! ### The shift of `Table.insert` and its inverse -/

theorem shiftDownL_length {α : Type} (d : List α) (key : Nat)
    (h : key < d.length) : (shiftDownL d key).length = d.length := by
  simp only [shiftDownL, List.length_append, List.length_take,
    List.length_dropLast, List.length_drop]
  omega

theorem shiftUpL_length {α : Type} (d : List α) (key : Nat)
    (h : key < d.length) : (shiftUpL d key).length = d.length := by
  simp only [shiftUpL, List.length_append, List.length_take, List.length_drop]
  omega

theorem shiftDownL_take {α : Type} (d : List α) (pad : α) (key : Nat)
    (hk : key ≤ d.length) :
    (shiftDownL (d ++ [pad]) key).take key = d.take key := by
  simp only [shiftDownL]
  rw [List.take_append_of_le_length
    (by simp only [List.length_take, List.length_append]; omega)]
  rw [List.take_take, min_eq_left (Nat.le_succ key)]
  exact List.take_append_of_le_length hk

theorem shiftDownL_drop {α : Type} (d : List α) (pad : α) (key : Nat)
    (hk : key ≤ d.length) :
    (shiftDownL (d ++ [pad]) key).drop (key + 1) = d.drop key := by
  simp only [shiftDownL]
  have hlen : ((d ++ [pad]).take (key + 1)).length = key + 1 := by
    simp only [List.length_take, List.length_append, List.length_singleton]
    omega
  rw [List.drop_append_of_le_length (le_of_eq hlen.symm),
    List.drop_eq_nil_of_le (le_of_eq hlen), List.nil_append,
    List.drop_append_of_le_length hk, List.dropLast_concat]

/-- The heart of the `insert` rollback: the gap was opened by shifting the
grown array down from `key`, the populate touched only row `key`, and the
closing shift plus truncation recover the original rows. -/
theorem shift_restore {α : Type} (d : List α) (pad : α) (key : Nat)
    (d2 : List α) (hk : key ≤ d.length)
    (hmod : RowMod key (shiftDownL (d ++ [pad]) key) d2) :
    (shiftUpL d2 key).take d.length = d := by
  have hpre : d2.take key = d.take key :=
    hmod.2.1.trans (shiftDownL_take d pad key hk)
  have hsuf : d2.drop (key + 1) = d.drop key :=
    hmod.2.2.trans (shiftDownL_drop d pad key hk)
  have hlen : d2.length = d.length + 1 := by
    have h1 := hmod.1
    rw [shiftDownL_length (d ++ [pad]) key
      (by simp only [List.length_append, List.length_singleton]; omega)] at h1
    simpa using h1
  have hfront : d2.take key ++ d2.drop (key + 1) = d := by
    rw [hpre, hsuf, List.take_append_drop]
  have hfrontlen : (d2.take key ++ d2.drop (key + 1)).length = d.length := by
    rw [hfront]
  simp only [shiftUpL]
  rw [List.append_assoc] at *
  rw [← List.append_assoc]
  rw [List.take_append_of_le_length (le_of_eq hfrontlen.symm), ← hfrontlen,
    List.take_length, hfront]

/-! ### Effect lemmas for the populate phase -/

theorem normIdx_ofNat {n k j : Nat} (h : normIdx n (Int.ofNat k) = .ok j) :
    j = k ∧ k < n := by
  simp only [normIdx, Int.ofNat_eq_coe] at h
  rw [if_neg (show ¬ ((k : Int) < 0) by omega)] at h
  by_cases hc : (0 : Int) ≤ (k : Int) ∧ (k : Int) < (n : Int)
  · rw [if_pos hc] at h
    injection h with h2
    constructor
    · rw [← h2]
      simp
    · exact_mod_cast hc.2
  · rw [if_neg hc] at h
    exact Except.noConfusion h


theorem TouchOnly.refl_touch (k : Nat) (t : Table) : TouchOnly k t t :=
  ⟨rfl, rfl, rfl, RowMod.refl_row k _, rfl, rfl, RowMod.refl_row k _, rfl, rfl,
   RowMod.refl_row k _, Or.inl rfl⟩

theorem setRow_touch {a : Arr} {k : Nat} {xs : List Obj} {a2 : Arr}
    (h : a.setRow k xs = .ok a2) :
    a2.ncols = a.ncols ∧ a2.owned = a.owned ∧ RowMod k a.data a2.data := by
  simp only [Arr.setRow] at h
  split at h
  · injection h with h
    subst h
    exact ⟨rfl, rfl, RowMod.set k a.data xs⟩
  · split at h
    · injection h with h
      subst h
      exact ⟨rfl, rfl, RowMod.set k a.data _⟩
    · exact Except.noConfusion h

theorem convert_to_row_W (t : Table) (ex : Example) (key : Int) :
    (t.convert_to_row ex key).1.W = t.W := by
  cases ex with
  | real q => rfl
  | seq vals =>
    simp only [Table.convert_to_row]
    repeat' split
    all_goals rfl

theorem convert_to_row_touch (t : Table) (ex : Example) (k : Nat) :
    TouchOnly k t (t.convert_to_row ex (Int.ofNat k)).1 := by
  cases ex with
  | real q => exact TouchOnly.refl_touch k t
  | seq vals =>
    simp only [Table.convert_to_row]
    cases hxs : (t.domain.attributes.zip vals).mapM (fun p => p.1.to_val p.2) with
    | error e => exact TouchOnly.refl_touch k t
    | ok xs =>
      dsimp only
      cases hkx : normIdx t.X.nrows (Int.ofNat k) with
      | error e => exact TouchOnly.refl_touch k t
      | ok kx =>
        dsimp only
        obtain ⟨hkk, -⟩ := normIdx_ofNat hkx
        cases hsr : t.X.setRow kx xs with
        | error e => exact TouchOnly.refl_touch k t
        | ok X' =>
          dsimp only
          obtain ⟨hnc, how, hmod⟩ := setRow_touch hsr
          rw [hkk] at hmod
          cases hys : (t.domain.class_vars.zip
              (vals.drop t.domain.attributes.length)).mapM (fun p => p.1.to_val p.2) with
          | error e =>
            exact ⟨rfl, hnc, how, hmod, rfl, rfl, RowMod.refl_row _ _, rfl, rfl,
              RowMod.refl_row _ _, Or.inl rfl⟩
          | ok ys =>
            dsimp only
            cases hky : normIdx t.Y.nrows (Int.ofNat k) with
            | error e =>
              exact ⟨rfl, hnc, how, hmod, rfl, rfl, RowMod.refl_row _ _, rfl, rfl,
                RowMod.refl_row _ _, Or.inl rfl⟩
            | ok ky =>
              dsimp only
              obtain ⟨hkk2, -⟩ := normIdx_ofNat hky
              cases hsy : t.Y.setRow ky ys with
              | error e =>
                exact ⟨rfl, hnc, how, hmod, rfl, rfl, RowMod.refl_row _ _, rfl, rfl,
                  RowMod.refl_row _ _, Or.inl rfl⟩
              | ok Y' =>
                dsimp only
                obtain ⟨hnc2, how2, hmod2⟩ := setRow_touch hsy
                rw [hkk2] at hmod2
                cases hkm : normIdx t.metas.nrows (Int.ofNat k) with
                | error e =>
                  exact ⟨rfl, hnc, how, hmod, hnc2, how2, hmod2, rfl, rfl,
                    RowMod.refl_row _ _, Or.inl rfl⟩
                | ok km =>
                  dsimp only
                  obtain ⟨hkk3, -⟩ := normIdx_ofNat hkm
                  refine ⟨rfl, hnc, how, hmod, hnc2, how2, hmod2, rfl, rfl,
                    ?_, Or.inl rfl⟩
                  rw [← hkk3]
                  exact RowMod.set km t.metas.data _

theorem setitem_int_touch (t : Table) (k : Nat) (v : Example) :
    TouchOnly k t (t.setitem_int (Int.ofNat k) v).1 := by
  cases v with
  | real q =>
    simp only [Table.setitem_int]
    cases hkx : normIdx t.X.nrows (Int.ofNat k) with
    | error e => exact TouchOnly.refl_touch k t
    | ok kx =>
      obtain ⟨hkk, -⟩ := normIdx_ofNat hkx
      subst hkk
      exact ⟨rfl, rfl, rfl, RowMod.set kx t.X.data _, rfl, rfl, RowMod.refl_row _ _,
        rfl, rfl, RowMod.refl_row _ _, Or.inl rfl⟩
  | seq vals => exact convert_to_row_touch t (.seq vals) k

theorem setitem_int_W (t : Table) (key : Int) (v : Example) :
    (t.setitem_int key v).1.W = t.W := by
  cases v with
  | real q =>
    simp only [Table.setitem_int]
    cases normIdx t.X.nrows key with
    | error e => rfl
    | ok kx => rfl
  | seq vals => exact convert_to_row_W t (.seq vals) key

theorem insertTry_touch (t : Table) (k : Nat) (v : Example) :
    TouchOnly k t (Table.insertTry t k v).1 := by
  simp only [Table.insertTry]
  cases hc : t.convert_to_row v (Int.ofNat k) with
  | mk t' r =>
    have ht : TouchOnly k t t' := by
      have h0 := convert_to_row_touch t v k
      rwa [hc] at h0
    have hW : t'.W = t.W := by
      have h0 := convert_to_row_W t v (Int.ofNat k)
      rwa [hc] at h0
    cases r with
    | some e => exact ht
    | none =>
      dsimp only
      by_cases hw : t'.W.shapeLast ≠ 0
      · rw [if_pos hw]
        exact ⟨ht.1, ht.2.1, ht.2.2.1, ht.2.2.2.1, ht.2.2.2.2.1, ht.2.2.2.2.2.1,
          ht.2.2.2.2.2.2.1, ht.2.2.2.2.2.2.2.1, ht.2.2.2.2.2.2.2.2.1,
          ht.2.2.2.2.2.2.2.2.2.1, Or.inr (by rw [hW])⟩
      · rw [if_neg hw]
        exact ht

/-! ### Effect of the populate loop of `extend` -/


theorem PopPres.refl_pop (old : Nat) (t : Table) : PopPres old t t :=
  ⟨rfl, rfl, rfl, rfl, rfl, rfl, rfl, rfl, rfl, rfl, rfl, rfl, rfl, rfl⟩

theorem PopPres.trans_pop {old : Nat} {t t2 t3 : Table}
    (h1 : PopPres old t t2) (h2 : PopPres old t2 t3) : PopPres old t t3 :=
  ⟨h2.1.trans h1.1,
   h2.2.1.trans h1.2.1, h2.2.2.1.trans h1.2.2.1,
   h2.2.2.2.1.trans h1.2.2.2.1, h2.2.2.2.2.1.trans h1.2.2.2.2.1,
   h2.2.2.2.2.2.1.trans h1.2.2.2.2.2.1, h2.2.2.2.2.2.2.1.trans h1.2.2.2.2.2.2.1,
   h2.2.2.2.2.2.2.2.1.trans h1.2.2.2.2.2.2.2.1,
   h2.2.2.2.2.2.2.2.2.1.trans h1.2.2.2.2.2.2.2.2.1,
   h2.2.2.2.2.2.2.2.2.2.1.trans h1.2.2.2.2.2.2.2.2.2.1,
   h2.2.2.2.2.2.2.2.2.2.2.1.trans h1.2.2.2.2.2.2.2.2.2.2.1,
   h2.2.2.2.2.2.2.2.2.2.2.2.1.trans h1.2.2.2.2.2.2.2.2.2.2.2.1,
   h2.2.2.2.2.2.2.2.2.2.2.2.2.1.trans h1.2.2.2.2.2.2.2.2.2.2.2.2.1,
   h2.2.2.2.2.2.2.2.2.2.2.2.2.2.trans h1.2.2.2.2.2.2.2.2.2.2.2.2.2⟩

theorem TouchOnly.toPopPres {k : Nat} {t t2 : Table} (old : Nat)
    (hle : old ≤ k) (ht : TouchOnly k t t2) (hW : t2.W = t.W) :
    PopPres old t t2 :=
  ⟨ht.1, ht.2.1, ht.2.2.1, ht.2.2.2.1.1, ht.2.2.2.1.take_of_le old hle,
   ht.2.2.2.2.1, ht.2.2.2.2.2.1, ht.2.2.2.2.2.2.1.1,
   ht.2.2.2.2.2.2.1.take_of_le old hle,
   ht.2.2.2.2.2.2.2.1, ht.2.2.2.2.2.2.2.2.1, ht.2.2.2.2.2.2.2.2.2.1.1,
   ht.2.2.2.2.2.2.2.2.2.1.take_of_le old hle, hW⟩

theorem populateRows_pres (old : Nat) (exs : List Example) :
    ∀ (t : Table) (i : Nat), PopPres old t (populateRows old t i exs).1 := by
  induction exs with
  | nil => intro t i; exact PopPres.refl_pop old t
  | cons ex rest ih =>
    intro t i
    simp only [populateRows]
    cases hs : t.setitem_int (Int.ofNat (old + i)) ex with
    | mk t' r =>
      have hstep : PopPres old t t' := by
        have h1 := setitem_int_touch t (old + i) ex
        have h2 := setitem_int_W t (Int.ofNat (old + i)) ex
        rw [hs] at h1 h2
        exact h1.toPopPres old (Nat.le_add_right old i) h2
      cases r with
      | none => exact hstep.trans_pop (ih t' (i + 1))
      | some e => exact hstep

/-! ### Effect of the bulk-copy shortcut of `extend` -/

theorem setTail_touch {a : Arr} {old : Nat} {b a2 : Arr}
    (h : a.setTail old b = .ok a2) (hle : old ≤ a.nrows) :
    a2.ncols = a.ncols ∧ a2.owned = a.owned ∧
    a2.data.length = a.data.length ∧ a2.data.take old = a.data.take old := by
  simp only [Arr.setTail] at h
  split at h
  · rename_i hcond
    injection h with h
    subst h
    have h1 : a.data.length - old = b.data.length := hcond.1
    have hle' : old ≤ a.data.length := hle
    refine ⟨rfl, rfl, ?_, ?_⟩
    · simp only [List.length_append, List.length_take]
      omega
    · rw [List.take_append_of_le_length
        (by simp only [List.length_take]; omega)]
      rw [List.take_take, min_self]
  · exact Except.noConfusion h


theorem WPres.of_eq {old : Nat} {w w2 : Weights} (h : w2 = w) : WPres old w w2 := by
  cases w with
  | vec o d =>
    rw [h]
    exact ⟨rfl, rfl, rfl⟩
  | mat0 o n =>
    rw [h]
    exact ⟨rfl, rfl⟩

theorem setTailVals_wpres {w : Weights} {old : Nat} {vals : List ℚ} {w2 : Weights}
    (h : w.setTailVals old vals = .ok w2) (hle : old ≤ w.nrows) :
    WPres old w w2 := by
  cases w with
  | vec o d =>
    simp only [Weights.setTailVals] at h
    split at h
    · injection h with h
      subst h
      have hle' : old ≤ d.length := hle
      refine ⟨rfl, by simp only [List.length_append, List.length_take]; omega, ?_⟩
      rw [List.take_append_of_le_length
        (by simp only [List.length_take]; omega)]
      rw [List.take_take, min_self]
    · exact Except.noConfusion h
  | mat0 o n =>
    simp only [Weights.setTailVals] at h
    exact Except.noConfusion h


theorem PopPres.toW {old : Nat} {t t2 : Table} (h : PopPres old t t2) :
    PopPresW old t t2 :=
  ⟨h.1, h.2.1, h.2.2.1, h.2.2.2.1, h.2.2.2.2.1, h.2.2.2.2.2.1,
   h.2.2.2.2.2.2.1, h.2.2.2.2.2.2.2.1, h.2.2.2.2.2.2.2.2.1,
   h.2.2.2.2.2.2.2.2.2.1, h.2.2.2.2.2.2.2.2.2.2.1,
   h.2.2.2.2.2.2.2.2.2.2.2.1, h.2.2.2.2.2.2.2.2.2.2.2.2.1,
   WPres.of_eq h.2.2.2.2.2.2.2.2.2.2.2.2.2⟩

theorem extendShortcut_pres (t : Table) (old : Nat) (s : Table)
    (hX : old ≤ t.X.nrows) (hY : old ≤ t.Y.nrows) (hM : old ≤ t.metas.nrows)
    (hW : old ≤ t.W.nrows) :
    PopPresW old t (extendShortcut t old s).1 := by
  simp only [extendShortcut]
  cases h1 : t.X.setTail old s.X with
  | error e => exact (PopPres.refl_pop old t).toW
  | ok X' =>
    dsimp only
    obtain ⟨hnc1, how1, hl1, hp1⟩ := setTail_touch h1 hX
    cases h2 : t.Y.setTail old s.Y with
    | error e =>
      exact ⟨rfl, hnc1, how1, hl1, hp1, rfl, rfl, rfl, rfl, rfl, rfl, rfl, rfl,
        WPres.of_eq rfl⟩
    | ok Y' =>
      dsimp only
      obtain ⟨hnc2, how2, hl2, hp2⟩ := setTail_touch h2 hY
      cases h3 : t.metas.setTail old s.metas with
      | error e =>
        exact ⟨rfl, hnc1, how1, hl1, hp1, hnc2, how2, hl2, hp2, rfl, rfl, rfl, rfl,
          WPres.of_eq rfl⟩
      | ok m' =>
        dsimp only
        obtain ⟨hnc3, how3, hl3, hp3⟩ := setTail_touch h3 hM
        by_cases hw0 : t.W.shapeLast ≠ 0
        · rw [if_pos hw0]
          by_cases hw1 : s.W.shapeLast ≠ 0
          · rw [if_pos hw1]
            cases h4 : t.W.setTailVals old s.W.vecData with
            | error e =>
              exact ⟨rfl, hnc1, how1, hl1, hp1, hnc2, how2, hl2, hp2, hnc3, how3,
                hl3, hp3, WPres.of_eq rfl⟩
            | ok W' =>
              exact ⟨rfl, hnc1, how1, hl1, hp1, hnc2, how2, hl2, hp2, hnc3, how3,
                hl3, hp3, setTailVals_wpres h4 hW⟩
          · rw [if_neg hw1]
            cases h4 : t.W.setTailVals old (List.replicate (t.W.nrows - old) 1) with
            | error e =>
              exact ⟨rfl, hnc1, how1, hl1, hp1, hnc2, how2, hl2, hp2, hnc3, how3,
                hl3, hp3, WPres.of_eq rfl⟩
            | ok W' =>
              exact ⟨rfl, hnc1, how1, hl1, hp1, hnc2, how2, hl2, hp2, hnc3, how3,
                hl3, hp3, setTailVals_wpres h4 hW⟩
        · rw [if_neg hw0]
          exact ⟨rfl, hnc1, how1, hl1, hp1, hnc2, how2, hl2, hp2, hnc3, how3,
            hl3, hp3, WPres.of_eq rfl⟩

/-! ### The rollback of `extend` restores the table exactly -/

theorem resizeAllRaw_restore (t : Table) (m : Nat) (t2 : Table)
    (h : t.rowsEqualb = true) (hle : t.len ≤ m)
    (hp : PopPresW t.len (t.resizeAllRaw m) t2) :
    t2.resizeAllRaw t.len = t := by
  obtain ⟨hY, hM, hW⟩ := Table.rowsEqual_spec t h
  obtain ⟨hdom, hnc1, how1, hl1, hp1, hnc2, how2, hl2, hp2, hnc3, how3, hl3,
    hp3, hpw⟩ := hp
  have hXr : t2.X.resizeRaw t.len = t.X := by
    apply Arr.resizeRaw_restore t.X m t2.X hle
    · rw [hl1]
      exact t.X.nrows_resizeRaw m
    · exact hp1
    · exact hnc1
    · exact how1
  have hYr : t2.Y.resizeRaw t.len = t.Y := by
    rw [show t.len = t.Y.nrows from hY.symm]
    apply Arr.resizeRaw_restore t.Y m t2.Y (hY ▸ hle)
    · rw [hl2]
      exact t.Y.nrows_resizeRaw m
    · rw [show t.Y.nrows = t.len from hY]
      exact hp2
    · exact hnc2
    · exact how2
  have hMr : t2.metas.resizeRaw t.len = t.metas := by
    rw [show t.len = t.metas.nrows from hM.symm]
    apply Arr.resizeRaw_restore t.metas m t2.metas (hM ▸ hle)
    · rw [hl3]
      exact t.metas.nrows_resizeRaw m
    · rw [show t.metas.nrows = t.len from hM]
      exact hp3
    · exact hnc3
    · exact how3
  have hWr : t2.W.resizeRaw t.len = t.W := by
    have hpw' : WPres t.len (t.W.resizeRaw m) t2.W := hpw
    cases hw : t.W with
    | vec o d =>
      have hd : d.length = t.len := by
        have h1 : t.W.nrows = t.len := hW
        rw [hw] at h1
        exact h1
      rw [hw] at hpw'
      cases hw2 : t2.W with
      | vec o2 d2 =>
        rw [hw2] at hpw'
        simp only [Weights.resizeRaw, WPres] at hpw'
        obtain ⟨ho2, hlen2, htake2⟩ := hpw'
        subst ho2
        rw [← hd]
        apply Weights.resizeRaw_restore_vec o2 d m d2 (by rw [hd]; exact hle)
        · rw [hlen2]
          simp only [List.length_take, List.length_append, List.length_replicate]
          have : d.length ≤ m := by omega
          omega
        · rw [hd]
          simpa [Weights.resizeRaw, Weights.vecData] using htake2
      | mat0 o2 n2 =>
        rw [hw2] at hpw'
        simp only [Weights.resizeRaw, WPres] at hpw'
    | mat0 o n =>
      have hd : n = t.len := by
        have h1 : t.W.nrows = t.len := hW
        rw [hw] at h1
        exact h1
      rw [hw] at hpw'
      cases hw2 : t2.W with
      | vec o2 d2 =>
        rw [hw2] at hpw'
        simp only [Weights.resizeRaw, WPres] at hpw'
      | mat0 o2 n2 =>
        rw [hw2] at hpw'
        simp only [Weights.resizeRaw, WPres] at hpw'
        obtain ⟨ho2, -⟩ := hpw'
        subst ho2
        simp [Weights.resizeRaw, hd]
  calc t2.resizeAllRaw t.len
      = { domain := t2.domain, X := t2.X.resizeRaw t.len, Y := t2.Y.resizeRaw t.len,
          metas := t2.metas.resizeRaw t.len, W := t2.W.resizeRaw t.len } := rfl
    _ = t := by
        rw [hXr, hYr, hMr, hWr, hdom]
        rfl

theorem WPres.owned_eq {old : Nat} {w w2 : Weights} (h : WPres old w w2) :
    w2.owned = w.owned := by
  cases w with
  | vec o d =>
    cases w2 with
    | vec o2 d2 => exact h.1
    | mat0 o2 n2 => exact absurd h (by simp [WPres])
  | mat0 o n =>
    cases w2 with
    | vec o2 d2 => exact absurd h (by simp [WPres])
    | mat0 o2 n2 => exact h.1

theorem Arr.eq_of_parts {a b : Arr} (hd : a.data = b.data)
    (hc : a.ncols = b.ncols) (ho : a.owned = b.owned) : a = b := by
  cases a
  cases b
  simp_all

theorem Table.eq_of_parts_table {t t2 : Table} (hdom : t2.domain = t.domain)
    (hX : t2.X = t.X) (hY : t2.Y = t.Y) (hM : t2.metas = t.metas)
    (hW : t2.W = t.W) : t2 = t := by
  cases t
  cases t2
  simp_all

/-- Prefix preservation at the table's own full length forces equality:
nothing was written at all. -/
theorem popPresW_full (t t2 : Table) (h : t.rowsEqualb = true)
    (hp : PopPresW t.len t t2) : t2 = t := by
  obtain ⟨hYr, hMr, hWr⟩ := Table.rowsEqual_spec t h
  obtain ⟨hdom, hnc1, how1, hl1, hp1, hnc2, how2, hl2, hp2, hnc3, how3, hl3,
    hp3, hpw⟩ := hp
  have htake : ∀ (d d2 : List (List Obj)), d.length ≤ t.len →
      d2.length = d.length → d2.take t.len = d.take t.len → d2 = d := by
    intro d d2 hle hlen hpre
    have e1 : d2.take t.len = d2 := List.take_of_length_le (by omega)
    have e2 : d.take t.len = d := List.take_of_length_le hle
    rw [← e1, hpre, e2]
  apply Table.eq_of_parts_table hdom
  · exact Arr.eq_of_parts (htake _ _ (le_refl _) hl1 hp1) hnc1 how1
  · exact Arr.eq_of_parts (htake _ _ (le_of_eq hYr) hl2 hp2) hnc2 how2
  · exact Arr.eq_of_parts (htake _ _ (le_of_eq hMr) hl3 hp3) hnc3 how3
  · cases hw : t.W with
    | vec o d =>
      rw [hw] at hpw
      have hd : d.length = t.len := by
        have h1 : t.W.nrows = t.len := hWr
        rw [hw] at h1
        exact h1
      cases hw2 : t2.W with
      | vec o2 d2 =>
        rw [hw2] at hpw
        obtain ⟨ho2, hlen2, htake2⟩ := hpw
        subst ho2
        have e1 : d2.take t.len = d2 := List.take_of_length_le (by omega)
        have e2 : d.take t.len = d := List.take_of_length_le (le_of_eq hd)
        rw [← e1, htake2, e2]
      | mat0 o2 n2 =>
        rw [hw2] at hpw
        exact absurd hpw (by simp [WPres])
    | mat0 o n =>
      rw [hw] at hpw
      cases hw2 : t2.W with
      | vec o2 d2 =>
        rw [hw2] at hpw
        exact absurd hpw (by simp [WPres])
      | mat0 o2 n2 =>
        rw [hw2] at hpw
        obtain ⟨ho2, hn2⟩ := hpw
        rw [ho2, hn2]

namespace Table

theorem extend_restores (t : Table) (h : t.rowsEqualb = true) (exs : List Example)
    (e : PyErr) (hf : (t.extend exs).2 = some e) : (t.extend exs).1 = t := by
  rcases Table.resize_all_cases t (t.len + exs.length) h with
    ⟨hm, heq⟩ | ⟨hne, hXo, hYo, hMo, hWo, heq⟩ | ⟨e', t', heq, -, -, hres⟩
  · have hm' : t.len = t.len + exs.length := hm
    have hk : exs.length = 0 := by omega
    have hexs : exs = [] := List.length_eq_zero.mp hk
    subst hexs
    simp only [List.length_nil] at heq
    simp only [Table.extend, List.length_nil, heq, populateRows] at hf
    exact Option.noConfusion hf
  · have hpres := populateRows_pres t.len exs (t.resizeAllRaw (t.len + exs.length)) 0
    cases hp2 : populateRows t.len (t.resizeAllRaw (t.len + exs.length)) 0 exs with
    | mk t2 r =>
      rw [hp2] at hpres
      cases r with
      | none =>
        simp only [Table.extend, heq, hp2] at hf
        exact Option.noConfusion hf
      | some e0 =>
        have hlx : t2.X.data.length = t.len + exs.length := by
          rw [hpres.2.2.2.1]
          exact t.X.nrows_resizeRaw (t.len + exs.length)
        have hne2 : t2.X.nrows ≠ t.len := by
          have hb : t.len = t.X.nrows := rfl
          have hk : exs.length ≠ 0 := by
            intro h0
            exact hne (by omega)
          have h3 : t2.X.nrows = t.len + exs.length := hlx
          omega
        have hroll := Table.resize_all_owned t2 t.len hne2
          (by rw [hpres.2.2.1]; exact (Arr.owned_resizeRaw t.X _).trans hXo)
          (by rw [hpres.2.2.2.2.2.2.1]; exact (Arr.owned_resizeRaw t.Y _).trans hYo)
          (by rw [hpres.2.2.2.2.2.2.2.2.2.2.1]
              exact (Arr.owned_resizeRaw t.metas _).trans hMo)
          (by rw [hpres.2.2.2.2.2.2.2.2.2.2.2.2.2]
              exact (Weights.owned_resizeRaw_w t.W _).trans hWo)
        simp only [Table.extend, heq, hp2, hroll]
        exact resizeAllRaw_restore t (t.len + exs.length) t2 h
          (Nat.le_add_right _ _) hpres.toW
  · simp only [Table.extend, heq]
    exact hres (Nat.le_add_right _ _)

theorem extend_table_restores (t : Table) (h : t.rowsEqualb = true) (s : Table)
    (e : PyErr) (hf : (t.extend_table s).2 = some e) : (t.extend_table s).1 = t := by
  obtain ⟨hYr, hMr, hWr⟩ := Table.rowsEqual_spec t h
  rcases Table.resize_all_cases t (t.len + s.len) h with
    ⟨hm, heq⟩ | ⟨hne, hXo, hYo, hMo, hWo, heq⟩ | ⟨e', t', heq, -, -, hres⟩
  · -- no-op resize: every write of the shortcut lands inside the
    -- (empty) region past the old length, so the state never changes
    have hpres := extendShortcut_pres t t.len s (le_refl _)
      (le_of_eq hYr.symm) (le_of_eq hMr.symm) (le_of_eq hWr.symm)
    cases hp2 : extendShortcut t t.len s with
    | mk t2 r =>
      rw [hp2] at hpres
      cases r with
      | none =>
        simp only [Table.extend_table, heq, hp2] at hf
        exact Option.noConfusion hf
      | some e0 =>
        have ht2 : t2 = t := popPresW_full t t2 h hpres
        have hroll := Table.resize_all_self t2 t.len
          (by rw [ht2]; rfl)
        simp only [Table.extend_table, heq, hp2, hroll]
        exact ht2
  · have hpres := extendShortcut_pres (t.resizeAllRaw (t.len + s.len)) t.len s
      (by show t.len ≤ (t.X.resizeRaw (t.len + s.len)).nrows
          rw [Arr.nrows_resizeRaw]
          exact Nat.le_add_right _ _)
      (by show t.len ≤ (t.Y.resizeRaw (t.len + s.len)).nrows
          rw [Arr.nrows_resizeRaw]
          exact Nat.le_add_right _ _)
      (by show t.len ≤ (t.metas.resizeRaw (t.len + s.len)).nrows
          rw [Arr.nrows_resizeRaw]
          exact Nat.le_add_right _ _)
      (by show t.len ≤ (t.W.resizeRaw (t.len + s.len)).nrows
          rw [Weights.nrows_resizeRaw_w]
          exact Nat.le_add_right _ _)
    cases hp2 : extendShortcut (t.resizeAllRaw (t.len + s.len)) t.len s with
    | mk t2 r =>
      rw [hp2] at hpres
      cases r with
      | none =>
        simp only [Table.extend_table, heq, hp2] at hf
        exact Option.noConfusion hf
      | some e0 =>
        have hlx : t2.X.data.length = t.len + s.len := by
          rw [hpres.2.2.2.1]
          exact t.X.nrows_resizeRaw (t.len + s.len)
        have hne2 : t2.X.nrows ≠ t.len := by
          have hb : t.len = t.X.nrows := rfl
          have hk : s.len ≠ 0 := by
            intro h0
            exact hne (by omega)
          have h3 : t2.X.nrows = t.len + s.len := hlx
          omega
        have hroll := Table.resize_all_owned t2 t.len hne2
          (by rw [hpres.2.2.1]; exact (Arr.owned_resizeRaw t.X _).trans hXo)
          (by rw [hpres.2.2.2.2.2.2.1]; exact (Arr.owned_resizeRaw t.Y _).trans hYo)
          (by rw [hpres.2.2.2.2.2.2.2.2.2.2.1]
              exact (Arr.owned_resizeRaw t.metas _).trans hMo)
          (by rw [WPres.owned_eq hpres.2.2.2.2.2.2.2.2.2.2.2.2.2]
              exact (Weights.owned_resizeRaw_w t.W _).trans hWo)
        simp only [Table.extend_table, heq, hp2, hroll]
        exact resizeAllRaw_restore t (t.len + s.len) t2 h
          (Nat.le_add_right _ _) hpres
  · simp only [Table.extend_table, heq]
    exact hres (Nat.le_add_right _ _)

end Table

theorem Arr.resizeRaw_succ_data (a : Arr) (n : Nat) (h : a.nrows = n) :
    (a.resizeRaw (n + 1)).data = a.data ++ [List.replicate a.ncols (Obj.num 0)] := by
  have h' : a.data.length = n := h
  have h1 : n + 1 - a.data.length = 1 := by omega
  simp only [Arr.resizeRaw, h1, List.replicate_one]
  exact List.take_of_length_le (by simp [h'])

theorem Weights.resizeRaw_succ_vec (o : Bool) (d : List ℚ) (n : Nat)
    (h : d.length = n) :
    (Weights.vec o d).resizeRaw (n + 1) = .vec o (d ++ [0]) := by
  have h1 : n + 1 - d.length = 1 := by omega
  simp only [Weights.resizeRaw, h1, List.replicate_one]
  rw [List.take_of_length_le (by simp [h])]

namespace Table

theorem insert_restores (t : Table) (h : t.rowsEqualb = true) (key : Int)
    (v : Example) (e : PyErr) (hf : (t.insert key v).2 = some e) :
    (t.insert key v).1 = t := by
  obtain ⟨hYr, hMr, hWr⟩ := Table.rowsEqual_spec t h
  simp only [Table.insert] at hf ⊢
  by_cases hb : (if key < 0 then key + t.len else key) < 0 ∨
      (t.len : Int) < (if key < 0 then key + t.len else key)
  · rw [if_pos hb]
  · rw [if_neg hb] at hf ⊢
    rw [not_or, not_lt, not_lt] at hb
    obtain ⟨hb0, hb1⟩ := hb
    have hk : (if key < 0 then key + t.len else key).toNat ≤ t.len := by omega
    rcases Table.resize_all_cases t (t.len + 1) h with
      ⟨hm, heq⟩ | ⟨hne, hXo, hYo, hMo, hWo, heq⟩ | ⟨e', t', heq, -, -, hres⟩
    · exact absurd hm (by
        have hb2 : t.len = t.X.nrows := rfl
        omega)
    · rw [heq] at hf ⊢
      dsimp only at hf ⊢
      have ht1len : (t.resizeAllRaw (t.len + 1)).len = t.len + 1 :=
        t.X.nrows_resizeRaw (t.len + 1)
      rw [if_pos (by rw [ht1len]; omega)] at hf ⊢
      set k := (if key < 0 then key + t.len else key).toNat with hkdef
      set t2 := (t.resizeAllRaw (t.len + 1)).shiftDownFrom k with ht2def
      cases hmatch : Table.insertTry t2 k v with
      | mk t3 r =>
        cases r with
        | none =>
          rw [hmatch] at hf
          exact Option.noConfusion hf
        | some e0 =>
          rw [hmatch] at hf
          dsimp only at hf ⊢
          have htouch : TouchOnly k t2 t3 := by
            have h0 := insertTry_touch t2 k v
            rwa [hmatch] at h0
          -- the three matrices: data lengths and the shift-restore facts
          have hxlen2 : t2.X.data.length = t.len + 1 := by
            rw [ht2def]
            show (shiftDownL (t.resizeAllRaw (t.len + 1)).X.data k).length = _
            rw [shiftDownL_length _ _ (by
              show k < ((t.X.resizeRaw (t.len + 1))).data.length
              have h6 : ((t.X.resizeRaw (t.len + 1))).data.length = t.len + 1 :=
                t.X.nrows_resizeRaw (t.len + 1)
              omega)]
            exact t.X.nrows_resizeRaw (t.len + 1)
          have hxlen3 : t3.X.data.length = t.len + 1 := by
            rw [htouch.2.2.2.1.1, hxlen2]
          have ht4len : (t3.shiftUpFrom k).len = t.len + 1 := by
            show (shiftUpL t3.X.data k).length = t.len + 1
            rw [shiftUpL_length _ _ (by omega), hxlen3]
          rw [ht4len]
          have hroll := Table.resize_all_owned (t3.shiftUpFrom k) (t.len + 1 - 1)
            (by rw [show (t3.shiftUpFrom k).X.nrows = t.len + 1 from ht4len]; omega)
            (by show t3.X.owned = true
                rw [htouch.2.2.1]
                show (t.resizeAllRaw (t.len + 1)).X.owned = true
                exact (Arr.owned_resizeRaw t.X _).trans hXo)
            (by show t3.Y.owned = true
                rw [htouch.2.2.2.2.2.1]
                show (t.resizeAllRaw (t.len + 1)).Y.owned = true
                exact (Arr.owned_resizeRaw t.Y _).trans hYo)
            (by show t3.metas.owned = true
                rw [htouch.2.2.2.2.2.2.2.2.1]
                show (t.resizeAllRaw (t.len + 1)).metas.owned = true
                exact (Arr.owned_resizeRaw t.metas _).trans hMo)
            (by show (t3.W.shiftUp k).owned = true
                rw [Weights.owned_shiftUp]
                rcases htouch.2.2.2.2.2.2.2.2.2.2 with hw | hw
                · rw [hw]
                  show ((t.W.resizeRaw (t.len + 1)).shiftDown k).owned = true
                  rw [Weights.owned_shiftDown, Weights.owned_resizeRaw_w]
                  exact hWo
                · rw [hw]
                  show (((t.W.resizeRaw (t.len + 1)).shiftDown k).setOne k 1).owned = true
                  rw [Weights.owned_setOne, Weights.owned_shiftDown,
                    Weights.owned_resizeRaw_w]
                  exact hWo)
          rw [hroll]
          dsimp only
          -- it remains to show the rolled-back table is `t`
          apply Table.eq_of_parts_table
          · show t3.domain = t.domain
            rw [htouch.1]
            rfl
          · -- X container
            apply Arr.eq_of_parts
            · show ((t3.shiftUpFrom k).X.resizeRaw (t.len + 1 - 1)).data = t.X.data
              show ((shiftUpL t3.X.data k ++ List.replicate _ _).take (t.len + 1 - 1)) = t.X.data
              rw [show t.len + 1 - 1 = t.len from rfl]
              have hz : t.len - (t3.shiftUpFrom k).X.data.length = 0 := by
                show t.len - (shiftUpL t3.X.data k).length = 0
                rw [shiftUpL_length _ _ (by omega), hxlen3]
                omega
              rw [hz, List.replicate_zero, List.append_nil]
              have hmod' : RowMod k
                  (shiftDownL (t.X.data ++ [List.replicate t.X.ncols (Obj.num 0)]) k)
                  t3.X.data := by
                rw [← Arr.resizeRaw_succ_data t.X t.len rfl]
                have hmod := htouch.2.2.2.1
                rw [ht2def] at hmod
                exact hmod
              exact shift_restore t.X.data
                (List.replicate t.X.ncols (Obj.num 0)) k t3.X.data hk hmod'
            · show ((t3.shiftUpFrom k).X.resizeRaw _).ncols = t.X.ncols
              rw [Arr.ncols_resizeRaw]
              exact htouch.2.1
            · show ((t3.shiftUpFrom k).X.resizeRaw _).owned = t.X.owned
              rw [Arr.owned_resizeRaw]
              exact htouch.2.2.1
          · -- Y container
            apply Arr.eq_of_parts
            · show ((shiftUpL t3.Y.data k ++ List.replicate _ _).take (t.len + 1 - 1)) = t.Y.data
              rw [show t.len + 1 - 1 = t.len from rfl]
              have hylen2 : t2.Y.data.length = t.len + 1 := by
                rw [ht2def]
                show (shiftDownL (t.Y.resizeRaw (t.len + 1)).data k).length = _
                rw [shiftDownL_length _ _ (by
                  show k < (t.Y.resizeRaw (t.len + 1)).data.length
                  have h6 : (t.Y.resizeRaw (t.len + 1)).data.length = t.len + 1 :=
                    t.Y.nrows_resizeRaw (t.len + 1)
                  omega)]
                exact t.Y.nrows_resizeRaw (t.len + 1)
              have hylen3 : t3.Y.data.length = t.len + 1 := by
                rw [htouch.2.2.2.2.2.2.1.1, hylen2]
              have hz : t.len - (t3.shiftUpFrom k).Y.data.length = 0 := by
                show t.len - (shiftUpL t3.Y.data k).length = 0
                rw [shiftUpL_length _ _ (by omega), hylen3]
                omega
              rw [hz, List.replicate_zero, List.append_nil]
              have hdy : t.Y.data.length = t.len := hYr
              have hmod' : RowMod k
                  (shiftDownL (t.Y.data ++ [List.replicate t.Y.ncols (Obj.num 0)]) k)
                  t3.Y.data := by
                rw [← Arr.resizeRaw_succ_data t.Y t.len hYr]
                have hmod := htouch.2.2.2.2.2.2.1
                rw [ht2def] at hmod
                exact hmod
              have hrest := shift_restore t.Y.data
                (List.replicate t.Y.ncols (Obj.num 0)) k t3.Y.data (by omega) hmod'
              rw [hdy] at hrest
              exact hrest
            · show ((t3.shiftUpFrom k).Y.resizeRaw _).ncols = t.Y.ncols
              rw [Arr.ncols_resizeRaw]
              exact htouch.2.2.2.2.1
            · show ((t3.shiftUpFrom k).Y.resizeRaw _).owned = t.Y.owned
              rw [Arr.owned_resizeRaw]
              exact htouch.2.2.2.2.2.1
          · -- metas container
            apply Arr.eq_of_parts
            · show ((shiftUpL t3.metas.data k ++ List.replicate _ _).take (t.len + 1 - 1)) = t.metas.data
              rw [show t.len + 1 - 1 = t.len from rfl]
              have hmlen2 : t2.metas.data.length = t.len + 1 := by
                rw [ht2def]
                show (shiftDownL (t.metas.resizeRaw (t.len + 1)).data k).length = _
                rw [shiftDownL_length _ _ (by
                  show k < (t.metas.resizeRaw (t.len + 1)).data.length
                  have h6 : (t.metas.resizeRaw (t.len + 1)).data.length = t.len + 1 :=
                    t.metas.nrows_resizeRaw (t.len + 1)
                  omega)]
                exact t.metas.nrows_resizeRaw (t.len + 1)
              have hmlen3 : t3.metas.data.length = t.len + 1 := by
                rw [htouch.2.2.2.2.2.2.2.2.2.1.1, hmlen2]
              have hz : t.len - (t3.shiftUpFrom k).metas.data.length = 0 := by
                show t.len - (shiftUpL t3.metas.data k).length = 0
                rw [shiftUpL_length _ _ (by omega), hmlen3]
                omega
              rw [hz, List.replicate_zero, List.append_nil]
              have hdm : t.metas.data.length = t.len := hMr
              have hmod' : RowMod k
                  (shiftDownL (t.metas.data ++ [List.replicate t.metas.ncols (Obj.num 0)]) k)
                  t3.metas.data := by
                rw [← Arr.resizeRaw_succ_data t.metas t.len hMr]
                have hmod := htouch.2.2.2.2.2.2.2.2.2.1
                rw [ht2def] at hmod
                exact hmod
              have hrest := shift_restore t.metas.data
                (List.replicate t.metas.ncols (Obj.num 0)) k t3.metas.data (by omega) hmod'
              rw [hdm] at hrest
              exact hrest
            · show ((t3.shiftUpFrom k).metas.resizeRaw _).ncols = t.metas.ncols
              rw [Arr.ncols_resizeRaw]
              exact htouch.2.2.2.2.2.2.2.1
            · show ((t3.shiftUpFrom k).metas.resizeRaw _).owned = t.metas.owned
              rw [Arr.owned_resizeRaw]
              exact htouch.2.2.2.2.2.2.2.2.1
          · -- weight container
            show ((t3.shiftUpFrom k).W.resizeRaw (t.len + 1 - 1)) = t.W
            rw [show t.len + 1 - 1 = t.len from rfl]
            have hw3 : t3.W = t2.W ∨ t3.W = t2.W.setOne k 1 :=
              htouch.2.2.2.2.2.2.2.2.2.2
            cases hWcase : t.W with
            | vec o d =>
              have hd : d.length = t.len := by
                have h1 : t.W.nrows = t.len := hWr
                rw [hWcase] at h1
                exact h1
              have ht2w : t2.W = .vec o (shiftDownL (d ++ [0]) k) := by
                rw [ht2def]
                show (t.W.resizeRaw (t.len + 1)).shiftDown k = _
                rw [hWcase, Weights.resizeRaw_succ_vec o d t.len hd]
                rfl
              have hmodw : RowMod k (shiftDownL (d ++ [0]) k) (t3.W.vecData) ∧
                  ∃ o2, t3.W = .vec o2 (t3.W.vecData) ∧ o2 = o := by
                rcases hw3 with hw | hw
                · rw [hw, ht2w]
                  exact ⟨RowMod.refl_row _ _, o, rfl, rfl⟩
                · rw [hw, ht2w]
                  exact ⟨RowMod.set _ _ _, o, rfl, rfl⟩
              obtain ⟨hmodw, o2, hveq, ho2⟩ := hmodw
              rw [show (t3.shiftUpFrom k).W = t3.W.shiftUp k from rfl, hveq]
              subst ho2
              show Weights.resizeRaw (.vec o2 (shiftUpL (t3.W.vecData) k)) t.len = _
              have hlw3 : (t3.W.vecData).length = (shiftDownL (d ++ [0]) k).length :=
                hmodw.1
              have hlw3' : (t3.W.vecData).length = t.len + 1 := by
                rw [hlw3, shiftDownL_length _ _ (by
                  simp only [List.length_append, List.length_singleton]
                  omega)]
                simp only [List.length_append, List.length_singleton]
                omega
              have hz : t.len - (shiftUpL (t3.W.vecData) k).length = 0 := by
                rw [shiftUpL_length _ _ (by omega)]
                omega
              simp only [Weights.resizeRaw, hz, List.replicate_zero, List.append_nil]
              have hrest := shift_restore d (0 : ℚ) k (t3.W.vecData) (by omega) hmodw
              rw [hd] at hrest
              rw [hrest]
            | mat0 o n =>
              have hd : n = t.len := by
                have h1 : t.W.nrows = t.len := hWr
                rw [hWcase] at h1
                exact h1
              have ht2w : t2.W = .mat0 o (t.len + 1) := by
                rw [ht2def]
                show (t.W.resizeRaw (t.len + 1)).shiftDown k = _
                rw [hWcase]
                rfl
              have ht3w : t3.W = .mat0 o (t.len + 1) := by
                rcases hw3 with hw | hw
                · rw [hw, ht2w]
                · rw [hw, ht2w]
                  rfl
              rw [show (t3.shiftUpFrom k).W = t3.W.shiftUp k from rfl, ht3w]
              simp only [Weights.shiftUp, Weights.resizeRaw, hd]
    · rw [heq] at hf ⊢
      dsimp only at hf ⊢
      exact hres (Nat.le_succ t.len)

end Table

/-! ### Row-count preservation of every public constructor and mutator -/

namespace Table

theorem rowsEqualb_intro (t : Table) (hY : t.Y.nrows = t.X.nrows)
    (hM : t.metas.nrows = t.X.nrows) (hW : t.W.nrows = t.X.nrows) :
    t.rowsEqualb = true := by
  simp [Table.rowsEqualb, hY, hM, hW]

theorem resizeAllRaw_rowsEqualb (t : Table) (m : Nat) :
    (t.resizeAllRaw m).rowsEqualb = true := by
  apply rowsEqualb_intro
  · show (t.Y.resizeRaw m).nrows = (t.X.resizeRaw m).nrows
    rw [Arr.nrows_resizeRaw, Arr.nrows_resizeRaw]
  · show (t.metas.resizeRaw m).nrows = (t.X.resizeRaw m).nrows
    rw [Arr.nrows_resizeRaw, Arr.nrows_resizeRaw]
  · show (t.W.resizeRaw m).nrows = (t.X.resizeRaw m).nrows
    rw [Weights.nrows_resizeRaw_w, Arr.nrows_resizeRaw]

end Table

theorem WPres.nrows_eq {old : Nat} {w w2 : Weights} (h : WPres old w w2) :
    w2.nrows = w.nrows := by
  cases w with
  | vec o d =>
    cases w2 with
    | vec o2 d2 => exact h.2.1
    | mat0 o2 n2 => exact h.elim
  | mat0 o n =>
    cases w2 with
    | vec o2 d2 => exact h.elim
    | mat0 o2 n2 => exact h.2

theorem PopPresW.rowsEqualb_pres_pop {old : Nat} {t t2 : Table}
    (hp : PopPresW old t t2) (h : t.rowsEqualb = true) : t2.rowsEqualb = true := by
  obtain ⟨hY, hM, hW⟩ := Table.rowsEqual_spec t h
  apply Table.rowsEqualb_intro
  · show t2.Y.data.length = t2.X.data.length
    rw [hp.2.2.2.2.2.2.2.1, hp.2.2.2.1]
    exact hY
  · show t2.metas.data.length = t2.X.data.length
    rw [hp.2.2.2.2.2.2.2.2.2.2.2.1, hp.2.2.2.1]
    exact hM
  · show t2.W.nrows = t2.X.data.length
    rw [hp.2.2.2.2.2.2.2.2.2.2.2.2.2.nrows_eq, hp.2.2.2.1]
    exact hW

theorem Weights.nrows_setOne (w : Weights) (k : Nat) (q : ℚ) :
    (w.setOne k q).nrows = w.nrows := by
  cases w with
  | vec o d => exact List.length_set ..
  | mat0 o n => rfl

theorem TouchOnly.rowsEqualb_pres_touch {k : Nat} {t t2 : Table}
    (ht : TouchOnly k t t2) (h : t.rowsEqualb = true) : t2.rowsEqualb = true := by
  obtain ⟨hY, hM, hW⟩ := Table.rowsEqual_spec t h
  apply Table.rowsEqualb_intro
  · show t2.Y.data.length = t2.X.data.length
    rw [ht.2.2.2.2.2.2.1.1, ht.2.2.2.1.1]
    exact hY
  · show t2.metas.data.length = t2.X.data.length
    rw [ht.2.2.2.2.2.2.2.2.2.1.1, ht.2.2.2.1.1]
    exact hM
  · show t2.W.nrows = t2.X.data.length
    rw [ht.2.2.2.1.1]
    rcases ht.2.2.2.2.2.2.2.2.2.2 with hw | hw
    · rw [hw]
      exact hW
    · rw [hw, Weights.nrows_setOne]
      exact hW

theorem Weights.nrows_shiftDown (w : Weights) (k : Nat) (h : k < w.nrows) :
    (w.shiftDown k).nrows = w.nrows := by
  cases w with
  | vec o d => exact shiftDownL_length d k h
  | mat0 o n => rfl

theorem Table.shiftDownFrom_rowsEqualb (t : Table) (k : Nat)
    (h : t.rowsEqualb = true) (hk : k < t.len) :
    (t.shiftDownFrom k).rowsEqualb = true := by
  obtain ⟨hY, hM, hW⟩ := Table.rowsEqual_spec t h
  apply Table.rowsEqualb_intro
  · show (shiftDownL t.Y.data k).length = (shiftDownL t.X.data k).length
    rw [shiftDownL_length t.Y.data k (by exact lt_of_lt_of_eq hk hY.symm),
      shiftDownL_length t.X.data k hk]
    exact hY
  · show (shiftDownL t.metas.data k).length = (shiftDownL t.X.data k).length
    rw [shiftDownL_length t.metas.data k (by exact lt_of_lt_of_eq hk hM.symm),
      shiftDownL_length t.X.data k hk]
    exact hM
  · show (t.W.shiftDown k).nrows = (shiftDownL t.X.data k).length
    rw [Weights.nrows_shiftDown t.W k (by exact lt_of_lt_of_eq hk hW.symm),
      shiftDownL_length t.X.data k hk]
    exact hW

theorem Table.extend_rowsEqualb (t : Table) (h : t.rowsEqualb = true)
    (exs : List Example) : (t.extend exs).1.rowsEqualb = true := by
  cases hr : (t.extend exs).2 with
  | some e =>
    rw [Table.extend_restores t h exs e hr]
    exact h
  | none =>
    rcases Table.resize_all_cases t (t.len + exs.length) h with
      ⟨hm, heq⟩ | ⟨hne, hXo, hYo, hMo, hWo, heq⟩ | ⟨e', t', heq, -, -, -⟩
    · have hm' : t.len = t.len + exs.length := hm
      have hexs : exs = [] := List.length_eq_zero.mp (by omega)
      subst hexs
      simp only [List.length_nil] at heq
      simp only [Table.extend, List.length_nil, heq, populateRows]
      exact h
    · cases hp2 : populateRows t.len (t.resizeAllRaw (t.len + exs.length)) 0 exs with
      | mk t2 r =>
        cases r with
        | none =>
          simp only [Table.extend, heq, hp2]
          have hpres := populateRows_pres t.len exs
            (t.resizeAllRaw (t.len + exs.length)) 0
          rw [hp2] at hpres
          exact hpres.toW.rowsEqualb_pres_pop (t.resizeAllRaw_rowsEqualb _)
        | some e =>
          exfalso
          simp only [Table.extend, heq, hp2] at hr
          cases h3 : t2.resize_all t.len with
          | mk t3 r3 =>
            rw [h3] at hr
            cases r3 with
            | none =>
              dsimp only at hr
              exact Option.noConfusion hr
            | some e2 =>
              dsimp only at hr
              exact Option.noConfusion hr
    · exfalso
      simp only [Table.extend, heq] at hr
      exact Option.noConfusion hr

theorem Table.extend_table_rowsEqualb (t : Table) (h : t.rowsEqualb = true)
    (s : Table) : (t.extend_table s).1.rowsEqualb = true := by
  cases hr : (t.extend_table s).2 with
  | some e =>
    rw [Table.extend_table_restores t h s e hr]
    exact h
  | none =>
    obtain ⟨hYr, hMr, hWr⟩ := Table.rowsEqual_spec t h
    rcases Table.resize_all_cases t (t.len + s.len) h with
      ⟨hm, heq⟩ | ⟨hne, hXo, hYo, hMo, hWo, heq⟩ | ⟨e', t', heq, -, -, -⟩
    · cases hp2 : extendShortcut t t.len s with
      | mk t2 r =>
        cases r with
        | none =>
          simp only [Table.extend_table, heq, hp2]
          have hpres := extendShortcut_pres t t.len s (le_refl _)
            (le_of_eq hYr.symm) (le_of_eq hMr.symm) (le_of_eq hWr.symm)
          rw [hp2] at hpres
          exact hpres.rowsEqualb_pres_pop h
        | some e =>
          exfalso
          simp only [Table.extend_table, heq, hp2] at hr
          cases h3 : t2.resize_all t.len with
          | mk t3 r3 =>
            rw [h3] at hr
            cases r3 with
            | none =>
              dsimp only at hr
              exact Option.noConfusion hr
            | some e2 =>
              dsimp only at hr
              exact Option.noConfusion hr
    · cases hp2 : extendShortcut (t.resizeAllRaw (t.len + s.len)) t.len s with
      | mk t2 r =>
        cases r with
        | none =>
          simp only [Table.extend_table, heq, hp2]
          have hpres := extendShortcut_pres (t.resizeAllRaw (t.len + s.len)) t.len s
            (le_of_le_of_eq (Nat.le_add_right _ _) (t.X.nrows_resizeRaw _).symm)
            (le_of_le_of_eq (Nat.le_add_right _ _) (t.Y.nrows_resizeRaw _).symm)
            (le_of_le_of_eq (Nat.le_add_right _ _) (t.metas.nrows_resizeRaw _).symm)
            (le_of_le_of_eq (Nat.le_add_right _ _) (Weights.nrows_resizeRaw_w t.W _).symm)
          rw [hp2] at hpres
          exact hpres.rowsEqualb_pres_pop (t.resizeAllRaw_rowsEqualb _)
        | some e =>
          exfalso
          simp only [Table.extend_table, heq, hp2] at hr
          cases h3 : t2.resize_all t.len with
          | mk t3 r3 =>
            rw [h3] at hr
            cases r3 with
            | none =>
              dsimp only at hr
              exact Option.noConfusion hr
            | some e2 =>
              dsimp only at hr
              exact Option.noConfusion hr
    · exfalso
      simp only [Table.extend_table, heq] at hr
      exact Option.noConfusion hr

theorem Table.insert_rowsEqualb (t : Table) (h : t.rowsEqualb = true)
    (key : Int) (v : Example) : (t.insert key v).1.rowsEqualb = true := by
  cases hr : (t.insert key v).2 with
  | some e =>
    rw [Table.insert_restores t h key v e hr]
    exact h
  | none =>
    simp only [Table.insert] at hr ⊢
    by_cases hb : (if key < 0 then key + t.len else key) < 0 ∨
        (t.len : Int) < (if key < 0 then key + t.len else key)
    · rw [if_pos hb] at hr
      exact Option.noConfusion hr
    · rw [if_neg hb] at hr ⊢
      rw [not_or, not_lt, not_lt] at hb
      obtain ⟨hb0, hb1⟩ := hb
      rcases Table.resize_all_cases t (t.len + 1) h with
        ⟨hm, heq⟩ | ⟨hne, hXo, hYo, hMo, hWo, heq⟩ | ⟨e', t', heq, -, -, -⟩
      · exfalso
        have hb' : t.X.nrows = t.len := rfl
        omega
      · rw [heq] at hr ⊢
        dsimp only at hr ⊢
        set k := (if key < 0 then key + (t.len : Int) else key).toNat with hkdef
        have hlt : k < (t.resizeAllRaw (t.len + 1)).len := by
          have h1 : (t.resizeAllRaw (t.len + 1)).len = t.len + 1 :=
            t.X.nrows_resizeRaw _
          omega
        rw [if_pos hlt] at hr ⊢
        have h2 : ((t.resizeAllRaw (t.len + 1)).shiftDownFrom k).rowsEqualb = true :=
          Table.shiftDownFrom_rowsEqualb _ k (t.resizeAllRaw_rowsEqualb _) hlt
        cases hmatch : ((t.resizeAllRaw (t.len + 1)).shiftDownFrom k).insertTry k v with
        | mk t3 r =>
          cases r with
          | none =>
            dsimp only
            have htouch := insertTry_touch
              ((t.resizeAllRaw (t.len + 1)).shiftDownFrom k) k v
            rw [hmatch] at htouch
            exact htouch.rowsEqualb_pres_touch h2
          | some e0 =>
            exfalso
            rw [hmatch] at hr
            dsimp only at hr
            cases h3 : (t3.shiftUpFrom k).resize_all ((t3.shiftUpFrom k).len - 1) with
            | mk t5 r5 =>
              rw [h3] at hr
              cases r5 with
              | none => exact Option.noConfusion hr
              | some e2 => exact Option.noConfusion hr
      · exfalso
        rw [heq] at hr
        exact Option.noConfusion hr

/-! ### Row counts under `np.delete` and advanced-indexing selection -/

theorem enumFrom_filterMap_length {α : Type} (js : List Nat) :
    ∀ (l : List α) (n : Nat),
    ((List.enumFrom n l).filterMap
        (fun p => if p.1 ∈ js then none else some p.2)).length
      = ((List.range' n l.length).filter (fun i => ¬ i ∈ js)).length := by
  intro l
  induction l with
  | nil => intro n; rfl
  | cons a rest ih =>
    intro n
    by_cases hmem : n ∈ js
    · simp [List.enumFrom, List.filterMap_cons, List.range'_succ,
        List.filter_cons, hmem, ih (n + 1)]
    · simp [List.enumFrom, List.filterMap_cons, List.range'_succ,
        List.filter_cons, hmem, ih (n + 1)]

theorem enum_filterMap_length {α : Type} (js : List Nat) (l : List α) :
    (l.enum.filterMap (fun p => if p.1 ∈ js then none else some p.2)).length
      = ((List.range l.length).filter (fun i => ¬ i ∈ js)).length := by
  rw [List.range_eq_range']
  exact enumFrom_filterMap_length js l 0

namespace Table

theorem npDelete_err {a : Arr} {ks : List Int} {e : PyErr}
    (h : ks.mapM (normIdx a.nrows) = .error e) :
    npDelete a ks = .error e := by
  simp only [npDelete]
  rw [h]
  rfl

theorem npDelete_ok {a : Arr} {ks : List Int} {js : List Nat}
    (h : ks.mapM (normIdx a.nrows) = .ok js) :
    npDelete a ks = .ok ⟨a.data.enum.filterMap
      (fun p => if p.1 ∈ js then none else some p.2), a.ncols, true⟩ := by
  simp only [npDelete]
  rw [h]
  rfl

theorem npDeleteW_ok {w : Weights} {ks : List Int} {js : List Nat}
    (h : ks.mapM (normIdx w.nrows) = .ok js) :
    ∃ W', npDeleteW w ks = .ok W' ∧
      W'.nrows = ((List.range w.nrows).filter (fun i => ¬ i ∈ js)).length := by
  cases w with
  | vec o d =>
    refine ⟨Weights.vec true (d.enum.filterMap
      (fun p => if p.1 ∈ js then none else some p.2)), ?_, ?_⟩
    · simp only [npDeleteW]
      rw [h]
      rfl
    · show (d.enum.filterMap _).length = _
      exact enum_filterMap_length js d
  | mat0 o n =>
    refine ⟨Weights.mat0 true (((List.range n).filter (fun i => ¬ i ∈ js)).length),
      ?_, rfl⟩
    simp only [npDeleteW]
    rw [h]
    rfl

theorem delitem_rowsEqualb (t : Table) (h : t.rowsEqualb = true)
    (dk : Table.DelKey) : (t.delitem dk).1.rowsEqualb = true := by
  obtain ⟨hYr, hMr, hWr⟩ := Table.rowsEqual_spec t h
  have main : ∀ ks : List Int,
      (match npDelete t.X ks with
       | .error e => (t, some e)
       | .ok X' =>
         match npDelete t.Y ks with
         | .error e => ({ t with X := X' }, some e)
         | .ok Y' =>
           match npDelete t.metas ks with
           | .error e => ({ t with X := X', Y := Y' }, some e)
           | .ok m' =>
             match npDeleteW t.W ks with
             | .error e => ({ t with X := X', Y := Y', metas := m' }, some e)
             | .ok W' =>
               ({ t with X := X', Y := Y', metas := m', W := W' }, none)).1.rowsEqualb
        = true := by
    intro ks
    cases hjs : ks.mapM (normIdx t.X.nrows) with
    | error e =>
      rw [npDelete_err hjs]
      exact h
    | ok js =>
      have hjsY : ks.mapM (normIdx t.Y.nrows) = .ok js := by
        rw [show t.Y.nrows = t.X.nrows from hYr]
        exact hjs
      have hjsM : ks.mapM (normIdx t.metas.nrows) = .ok js := by
        rw [show t.metas.nrows = t.X.nrows from hMr]
        exact hjs
      have hjsW : ks.mapM (normIdx t.W.nrows) = .ok js := by
        rw [show t.W.nrows = t.X.nrows from hWr]
        exact hjs
      obtain ⟨W', hW', hWn⟩ := npDeleteW_ok hjsW
      rw [npDelete_ok hjs, npDelete_ok hjsY, npDelete_ok hjsM, hW']
      dsimp only
      apply Table.rowsEqualb_intro
      · show (t.Y.data.enum.filterMap _).length = (t.X.data.enum.filterMap _).length
        rw [enum_filterMap_length js t.Y.data, enum_filterMap_length js t.X.data,
          show t.Y.data.length = t.X.data.length from hYr]
      · show (t.metas.data.enum.filterMap _).length
            = (t.X.data.enum.filterMap _).length
        rw [enum_filterMap_length js t.metas.data, enum_filterMap_length js t.X.data,
          show t.metas.data.length = t.X.data.length from hMr]
      · show W'.nrows = (t.X.data.enum.filterMap _).length
        rw [hWn, enum_filterMap_length js t.X.data,
          show t.W.nrows = t.X.data.length from hWr]
  cases dk with
  | all => exact main _
  | one i => exact main _
  | many l => exact main _

end Table

theorem normIdx_ofNat_ok {n a : Nat} (ha : a < n) :
    normIdx n (Int.ofNat a) = .ok a := by
  simp only [normIdx, Int.ofNat_eq_coe]
  rw [if_neg (show ¬ ((a : Int) < 0) by omega)]
  rw [if_pos (show (0 : Int) ≤ (a : Int) ∧ (a : Int) < (n : Int) by
    exact ⟨by omega, by exact_mod_cast ha⟩)]
  simp

theorem mapM_normIdx_ofNat {n : Nat} : ∀ {l : List Nat}, (∀ i ∈ l, i < n) →
    (l.map Int.ofNat).mapM (normIdx n) = .ok l := by
  intro l
  induction l with
  | nil => intro _; rfl
  | cons a rest ih =>
    intro hall
    have ha : a < n := hall a (List.mem_cons_self a rest)
    have htail := ih (fun i hi => hall i (List.mem_cons_of_mem a hi))
    show List.mapM (normIdx n) (Int.ofNat a :: List.map Int.ofNat rest)
        = Except.ok (a :: rest)
    rw [List.mapM_cons, normIdx_ofNat_ok ha, htail]
    rfl

theorem Arr.select_ok {a : Arr} {r : RowIdx} {js : List Nat} {adv : Bool}
    (h : r.resolve a.nrows = .ok (js, adv)) :
    a.select r = .ok ⟨js.map (fun i => a.data.getD i []), a.ncols, adv⟩ := by
  simp only [Arr.select]
  rw [h]
  rfl

theorem Arr.select_err {a : Arr} {r : RowIdx} {e : PyErr}
    (h : r.resolve a.nrows = .error e) :
    a.select r = .error e := by
  simp only [Arr.select]
  rw [h]
  rfl

theorem Weights.select_nrows {w : Weights} {r : RowIdx} {js : List Nat} {adv : Bool}
    (h : r.resolve w.nrows = .ok (js, adv)) :
    ∃ W', w.select r = .ok W' ∧ W'.nrows = js.length := by
  cases w with
  | vec o d =>
    refine ⟨Weights.vec adv (js.map (fun i => d.getD i 0)), ?_, ?_⟩
    · simp only [Weights.select]
      rw [h]
      rfl
    · show (js.map _).length = _
      exact List.length_map _ _
  | mat0 o n =>
    refine ⟨Weights.mat0 adv js.length, ?_, rfl⟩
    simp only [Weights.select]
    rw [h]
    rfl

theorem Table.shuffle_rowsEqualb (t : Table) (h : t.rowsEqualb = true)
    (ind : List Nat) (hall : ∀ i ∈ ind, i < t.len) :
    (t.shuffle ind).1.rowsEqualb = true := by
  obtain ⟨hYr, hMr, hWr⟩ := Table.rowsEqual_spec t h
  have hall' : ∀ i ∈ ind, i < t.X.nrows := hall
  have hres : RowIdx.resolve (RowIdx.fancy (ind.map Int.ofNat)) t.X.nrows
      = .ok (ind, true) := by
    simp only [RowIdx.resolve]
    rw [mapM_normIdx_ofNat hall']
    rfl
  have hresY : RowIdx.resolve (RowIdx.fancy (ind.map Int.ofNat)) t.Y.nrows
      = .ok (ind, true) := by
    rw [show t.Y.nrows = t.X.nrows from hYr]
    exact hres
  have hresM : RowIdx.resolve (RowIdx.fancy (ind.map Int.ofNat)) t.metas.nrows
      = .ok (ind, true) := by
    rw [show t.metas.nrows = t.X.nrows from hMr]
    exact hres
  have hresW : RowIdx.resolve (RowIdx.fancy (ind.map Int.ofNat)) t.W.nrows
      = .ok (ind, true) := by
    rw [show t.W.nrows = t.X.nrows from hWr]
    exact hres
  obtain ⟨W', hW', hWn⟩ := Weights.select_nrows hresW
  simp only [Table.shuffle]
  rw [Arr.select_ok hres, Arr.select_ok hresY, Arr.select_ok hresM, hW']
  dsimp only
  apply Table.rowsEqualb_intro
  · show (ind.map _).length = (ind.map _).length
    rw [List.length_map, List.length_map]
  · show (ind.map _).length = (ind.map _).length
    rw [List.length_map, List.length_map]
  · show W'.nrows = (ind.map _).length
    rw [hWn, List.length_map]

theorem Table.new_from_table_rows_rowsEqualb (s : Table) (h : s.rowsEqualb = true)
    (r : RowIdx) (t : Table) (hok : Table.new_from_table_rows s r = .ok t) :
    t.rowsEqualb = true := by
  obtain ⟨hYr, hMr, hWr⟩ := Table.rowsEqual_spec s h
  cases hres : r.resolve s.X.nrows with
  | error e =>
    exfalso
    simp only [Table.new_from_table_rows] at hok
    rw [Arr.select_err hres] at hok
    exact Except.noConfusion hok
  | ok p =>
    obtain ⟨js, adv⟩ := p
    have hresY : r.resolve s.Y.nrows = .ok (js, adv) := by
      rw [show s.Y.nrows = s.X.nrows from hYr]
      exact hres
    have hresM : r.resolve s.metas.nrows = .ok (js, adv) := by
      rw [show s.metas.nrows = s.X.nrows from hMr]
      exact hres
    have hresW : r.resolve s.W.nrows = .ok (js, adv) := by
      rw [show s.W.nrows = s.X.nrows from hWr]
      exact hres
    obtain ⟨W', hW', hWn⟩ := Weights.select_nrows hresW
    simp only [Table.new_from_table_rows] at hok
    rw [Arr.select_ok hres, Arr.select_ok hresY, Arr.select_ok hresM, hW'] at hok
    injection hok with hok
    subst hok
    apply Table.rowsEqualb_intro
    · show (js.map _).length = (js.map _).length
      rw [List.length_map, List.length_map]
    · show (js.map _).length = (js.map _).length
      rw [List.length_map, List.length_map]
    · show W'.nrows = (js.map _).length
      rw [hWn, List.length_map]

theorem Table.new_from_domain_rowsEqualb (d : Domain) (n : Nat) (w : Bool) :
    (Table.new_from_domain d n w).rowsEqualb = true := by
  cases w <;>
    simp [Table.new_from_domain, Table.rowsEqualb, Arr.nrows, Weights.nrows]

theorem Table.new_from_numpy_rowsEqualb (d : Domain) (X Y metas : Arr)
    (W : Weights) (t : Table) (hok : Table.new_from_numpy d X Y metas W = .ok t) :
    t.rowsEqualb = true := by
  simp only [Table.new_from_numpy] at hok
  split at hok
  · exact Except.noConfusion hok
  · split at hok
    · exact Except.noConfusion hok
    · split at hok
      · exact Except.noConfusion hok
      · split at hok
        · exact Except.noConfusion hok
        · rename_i h1 h2 h3 h4
          obtain ⟨e1, e2, e3⟩ := not_not.mp h4
          injection hok with hok
          subst hok
          apply Table.rowsEqualb_intro
          · show Y.nrows = X.nrows
            omega
          · show metas.nrows = X.nrows
            omega
          · show W.nrows = X.nrows
            omega

/-! ### Monadic and list helpers shared by the gather and filter lemmas -/

theorem exceptBind_ok {ε α β : Type} (a : α) (f : α → Except ε β) :
    (Except.ok a >>= f) = f a := rfl

theorem exceptBind_err {ε α β : Type} (e : ε) (f : α → Except ε β) :
    ((Except.error e : Except ε α) >>= f) = .error e := rfl

theorem exceptPure_eq {ε α : Type} (a : α) : (pure a : Except ε α) = .ok a := rfl

theorem mapM_ok_of_forall {ε α β : Type} (g : α → Except ε β) (f : α → β) :
    ∀ (l : List α), (∀ c ∈ l, g c = .ok (f c)) → l.mapM g = .ok (l.map f) := by
  intro l
  induction l with
  | nil => intro _; rfl
  | cons c cs ih =>
    intro hall
    rw [List.mapM_cons, hall c (List.mem_cons_self c cs),
      ih (fun x hx => hall x (List.mem_cons_of_mem c hx))]
    rfl

theorem range_map_getD {α : Type} (d : α) (l : List α) :
    (List.range l.length).map (fun i => l.getD i d) = l := by
  apply List.ext_getElem
  · simp
  · intro i h1 h2
    simp only [List.getElem_map, List.getElem_range]
    rw [List.getD_eq_getElem _ _ h2]

/-! ### C4 helpers: the two gather paths on one physical container -/

theorem Arr.getitem2_basic {A : Arr} {r : RowIdx} {cols : List Nat} {js : List Nat}
    (hres : r.resolve A.nrows = .ok (js, false)) :
    A.getitem2 r cols = .ok (.mat (js.map (fun i => cols.map (fun j => A.cell i j)))) := by
  simp only [Arr.getitem2]
  rw [hres]
  rfl

theorem Arr.getColSel_basic {A : Arr} {r : RowIdx} {j : Nat} {js : List Nat} {adv : Bool}
    (hres : r.resolve A.nrows = .ok (js, adv)) :
    A.getColSel r j = .ok (js.map (fun i => A.cell i j)) := by
  simp only [Arr.getColSel]
  rw [hres]
  rfl

theorem Table.get_columns_fallback_eval (t : Table) (r : RowIdx)
    (src_cols : List Int) (A : Arr) (tau : Int → Nat) (js : List Nat)
    (hdisp : ∀ c ∈ src_cols,
      (if c < 0 then t.metas.getColSel r (-1 - c).toNat
       else if c < ((t.domain.attributes.length : Nat) : Int) then
         t.X.getColSel r c.toNat
       else t.Y.getColSel r (c - (t.domain.attributes.length : Nat)).toNat)
      = .ok (js.map (fun i => A.cell i (tau c)))) :
    t.get_columns_fallback r src_cols js.length
      = .ok (.mat (js.map (fun i => (src_cols.map tau).map (fun j => A.cell i j)))) := by
  simp only [Table.get_columns_fallback]
  rw [mapM_ok_of_forall _ (fun c => js.map (fun i => A.cell i (tau c))) src_cols
    (by
      intro c hc
      have hd := hdisp c hc
      by_cases h0 : c < 0
      · rw [if_pos h0] at hd
        rw [if_pos h0, hd, exceptBind_ok, if_pos (by simp)]
        rfl
      · rw [if_neg h0] at hd
        rw [if_neg h0]
        by_cases h1 : c < ((t.domain.attributes.length : Nat) : Int)
        · rw [if_pos h1] at hd
          rw [if_pos h1, hd, exceptBind_ok, if_pos (by simp)]
          rfl
        · rw [if_neg h1] at hd
          rw [if_neg h1, hd, exceptBind_ok, if_pos (by simp)]
          rfl)]
  rw [exceptBind_ok]
  have hmat : (List.range js.length).map
      (fun i => (src_cols.map (fun c => js.map (fun i2 => A.cell i2 (tau c)))).map
        (fun col => col.getD i (Obj.num 0)))
      = js.map (fun i => (src_cols.map tau).map (fun j => A.cell i j)) := by
    apply List.ext_getElem
    · simp
    · intro i h1 h2
      simp only [List.getElem_map, List.getElem_range, List.map_map]
      apply List.map_congr_left
      intro c hc
      show (js.map (fun i2 => A.cell i2 (tau c))).getD i (Obj.num 0) = _
      rw [List.getD_eq_getElem _ _ (by simpa using h2)]
      simp
  rw [hmat]

theorem Table.get_columns_single_container (t : Table) (r : RowIdx)
    (src_cols : List Int) (js : List Nat) (hne : src_cols ≠ [])
    (hone : src_cols.all
        (fun x => decide (0 ≤ x ∧ x < ((t.domain.attributes.length : Nat) : Int))) = true
      ∨ src_cols.all (fun x => decide (x < 0)) = true
      ∨ src_cols.all
          (fun x => decide (((t.domain.attributes.length : Nat) : Int) ≤ x)) = true)
    (hresX : r.resolve t.X.nrows = .ok (js, false))
    (hresY : r.resolve t.Y.nrows = .ok (js, false))
    (hresM : r.resolve t.metas.nrows = .ok (js, false)) :
    t.get_columns r src_cols js.length
      = t.get_columns_fallback r src_cols js.length := by
  obtain ⟨c0, hc0⟩ := List.exists_mem_of_ne_nil src_cols hne
  simp only [Table.get_columns]
  rw [if_neg (by
    intro h0
    exact hne (List.length_eq_zero.mp h0))]
  rcases hone with h1 | h2 | h3
  · rw [if_pos h1]
    simp only [List.all_eq_true, decide_eq_true_eq] at h1
    rw [Arr.getitem2_basic hresX,
      Table.get_columns_fallback_eval t r src_cols t.X Int.toNat js (by
        intro c hc
        obtain ⟨hc1, hc2⟩ := h1 c hc
        rw [if_neg (by omega), if_pos hc2]
        exact Arr.getColSel_basic hresX)]
  · have hn1 : ¬ (src_cols.all
        (fun x => decide (0 ≤ x ∧ x < ((t.domain.attributes.length : Nat) : Int))) = true) := by
      intro hall
      simp only [List.all_eq_true, decide_eq_true_eq] at hall h2
      have := hall c0 hc0
      have := h2 c0 hc0
      omega
    rw [if_neg hn1, if_pos h2]
    simp only [List.all_eq_true, decide_eq_true_eq] at h2
    rw [Arr.getitem2_basic hresM,
      Table.get_columns_fallback_eval t r src_cols t.metas
        (fun x => (-1 - x).toNat) js (by
        intro c hc
        rw [if_pos (h2 c hc)]
        exact Arr.getColSel_basic hresM)]
  · have hn1 : ¬ (src_cols.all
        (fun x => decide (0 ≤ x ∧ x < ((t.domain.attributes.length : Nat) : Int))) = true) := by
      intro hall
      simp only [List.all_eq_true, decide_eq_true_eq] at hall h3
      have := hall c0 hc0
      have := h3 c0 hc0
      omega
    have hn2 : ¬ (src_cols.all (fun x => decide (x < 0)) = true) := by
      intro hall
      simp only [List.all_eq_true, decide_eq_true_eq] at hall h3
      have := hall c0 hc0
      have := h3 c0 hc0
      omega
    rw [if_neg hn1, if_neg hn2, if_pos h3]
    simp only [List.all_eq_true, decide_eq_true_eq] at h3
    rw [Arr.getitem2_basic hresY,
      Table.get_columns_fallback_eval t r src_cols t.Y
        (fun x => (x - (t.domain.attributes.length : Nat)).toNat) js (by
        intro c hc
        have := h3 c hc
        rw [if_neg (by omega), if_neg (by omega)]
        exact Arr.getColSel_basic hresY)]

/-! ### C6 helpers: the retain vector of `filter_random` -/

theorem pySliceBound_le (x : ℚ) (n : Nat) : pySliceBound x n ≤ n := by
  simp only [pySliceBound]
  split
  · omega
  · exact min_le_right _ _

theorem Table.filter_random_mask_eq (t : Table) (prob : ℚ) (negate : Bool)
    (perm : List Nat) :
    t.filter_random_mask prob negate perm
      = applyPerm perm
          (if negate then
            List.replicate (pySliceBound (if prob < 1 then prob * (t.len : ℚ) else prob) t.len) false
              ++ List.replicate (t.len - pySliceBound (if prob < 1 then prob * (t.len : ℚ) else prob) t.len) true
          else
            List.replicate (pySliceBound (if prob < 1 then prob * (t.len : ℚ) else prob) t.len) true
              ++ List.replicate (t.len - pySliceBound (if prob < 1 then prob * (t.len : ℚ) else prob) t.len) false)
          false := rfl

theorem applyPerm_count (perm : List Nat) (l : List Bool)
    (hperm : perm.Perm (List.range l.length)) (a : Bool) :
    (applyPerm perm l false).count a = l.count a := by
  have h2 := hperm.map (fun i => l.getD i false)
  rw [range_map_getD] at h2
  exact h2.count_eq a

theorem contig_count_true (b m : Nat) :
    (List.replicate b true ++ List.replicate m false).count true = b := by
  simp [List.count_append, List.count_replicate]

theorem contig_negate (b m : Nat) :
    List.replicate b false ++ List.replicate m true
      = (List.replicate b true ++ List.replicate m false).map (! ·) := by
  simp [List.map_append, List.map_replicate]

theorem applyPerm_map_not (perm : List Nat) (l : List Bool)
    (hperm : ∀ i ∈ perm, i < l.length) :
    applyPerm perm (l.map (! ·)) false = (applyPerm perm l false).map (! ·) := by
  simp only [applyPerm, List.map_map]
  apply List.map_congr_left
  intro i hi
  have hl : i < l.length := hperm i hi
  show (l.map (! ·)).getD i false = ! (l.getD i false)
  rw [List.getD_eq_getElem _ _ (by simpa using hl), List.getD_eq_getElem _ _ hl]
  simp

/-! ### C7 helpers: elementwise inversion of the class-variable inference -/

theorem mapM_ok_cons {ε α β : Type} {g : α → Except ε β} {c : α} {cs : List α}
    {res : List β} (h : (c :: cs).mapM g = .ok res) :
    ∃ r rs, g c = .ok r ∧ cs.mapM g = .ok rs ∧ res = r :: rs := by
  rw [List.mapM_cons] at h
  cases h1 : g c with
  | error e =>
    rw [h1] at h
    exact Except.noConfusion h
  | ok r =>
    rw [h1] at h
    cases h2 : cs.mapM g with
    | error e =>
      rw [h2] at h
      exact Except.noConfusion h
    | ok rs =>
      rw [h2] at h
      refine ⟨r, rs, rfl, rfl, ?_⟩
      injection h with h
      exact h.symm

theorem mapM_ok_nil {ε α β : Type} {g : α → Except ε β} {res : List β}
    (h : ([] : List α).mapM g = .ok res) : res = [] := by
  have h' : (Except.ok ([] : List β) : Except ε (List β)) = .ok res := h
  injection h' with h'
  exact h'.symm

theorem mapM_ok_length {ε α β : Type} {g : α → Except ε β} :
    ∀ {l : List α} {res : List β}, l.mapM g = .ok res → res.length = l.length := by
  intro l
  induction l with
  | nil =>
    intro res h
    rw [mapM_ok_nil h]
    rfl
  | cons c cs ih =>
    intro res h
    obtain ⟨r, rs, -, h2, rfl⟩ := mapM_ok_cons h
    simp only [List.length_cons]
    rw [ih h2]

theorem mapM_ok_getD {ε α β : Type} {g : α → Except ε β} (da : α) (d0 : β) :
    ∀ {l : List α} {res : List β}, l.mapM g = .ok res →
      ∀ i, i < l.length → g (l.getD i da) = .ok (res.getD i d0) := by
  intro l
  induction l with
  | nil =>
    intro res _ i hi
    exact absurd hi (by simp)
  | cons c cs ih =>
    intro res h i hi
    obtain ⟨r, rs, h1, h2, rfl⟩ := mapM_ok_cons h
    cases i with
    | zero => exact h1
    | succ j =>
      have hj : j < cs.length := by
        simpa [Nat.succ_lt_succ_iff] using hi
      exact ih h2 j hj

theorem range_getD {n i : Nat} (hi : i < n) : (List.range n).getD i 0 = i := by
  rw [List.getD_eq_getElem _ _ (by simpa using hi), List.getElem_range]

theorem foldl_min_ge (c : ℚ) :
    ∀ (qs : List ℚ) (q : ℚ), c ≤ q → (∀ x ∈ qs, c ≤ x) → c ≤ qs.foldl min q := by
  intro qs
  induction qs with
  | nil =>
    intro q hq _
    exact hq
  | cons a rest ih =>
    intro q hq hall
    show c ≤ rest.foldl min (min q a)
    exact ih (min q a) (le_min hq (hall a (List.mem_cons_self _ _)))
      (fun x hx => hall x (List.mem_cons_of_mem _ hx))

theorem foldl_max_le (c : ℚ) :
    ∀ (qs : List ℚ) (q : ℚ), q ≤ c → (∀ x ∈ qs, x ≤ c) → qs.foldl max q ≤ c := by
  intro qs
  induction qs with
  | nil =>
    intro q hq _
    exact hq
  | cons a rest ih =>
    intro q hq hall
    show rest.foldl max (max q a) ≤ c
    exact ih (max q a) (max_le hq (hall a (List.mem_cons_self _ _)))
      (fun x hx => hall x (List.mem_cons_of_mem _ hx))

theorem toQ_eq_some {o : Obj} {q : ℚ} : toQ o = some q ↔ o = .num q := by
  cases o <;> simp [toQ]

theorem mem_npUniqueQ {x : ℚ} {col : List Obj} :
    x ∈ npUniqueQ col ↔ x ∈ col.filterMap toQ := by
  simp only [npUniqueQ]
  rw [(List.perm_insertionSort _ _).mem_iff, List.mem_dedup]

theorem all_num_of_clean {col : List Obj} (hnn : hasNonNum col = false)
    (hnan : hasNan col = false) : ∀ o ∈ col, ∃ q : ℚ, o = .num q := by
  intro o ho
  simp only [hasNonNum, List.any_eq_false] at hnn
  simp only [hasNan, List.any_eq_false, decide_eq_true_eq] at hnan
  have h1 := hnn o ho
  have h2 := hnan o ho
  cases o with
  | num q => exact ⟨q, rfl⟩
  | nan => exact absurd rfl h2
  | str v => exact absurd h1 (by simp)
  | pynone => exact absurd h1 (by simp)

theorem allWhole_iff_filterMap {col : List Obj}
    (hnum : ∀ o ∈ col, ∃ q : ℚ, o = .num q) :
    allWholeIn0to19 col = true ↔
      ∀ q ∈ col.filterMap toQ,
        (q.den = 1 && decide (0 ≤ q) && decide (q ≤ 19)) = true := by
  simp only [allWholeIn0to19, List.all_eq_true]
  constructor
  · intro h q hq
    obtain ⟨o, ho, hto⟩ := List.mem_filterMap.mp hq
    obtain ⟨q2, rfl⟩ := hnum o ho
    have hq2 : q2 = q := by
      have := toQ_eq_some.mpr (rfl : Obj.num q2 = .num q2)
      rw [this] at hto
      injection hto
    subst hq2
    exact h _ ho
  · intro h o ho
    obtain ⟨q, rfl⟩ := hnum o ho
    exact h q (List.mem_filterMap.mpr ⟨.num q, ho, toQ_eq_some.mpr rfl⟩)

theorem hasNan_allWhole_false {col : List Obj} (hnan : hasNan col = true) :
    allWholeIn0to19 col = false := by
  simp only [hasNan, List.any_eq_true, decide_eq_true_eq] at hnan
  obtain ⟨o, ho, rfl⟩ := hnan
  by_contra h
  rw [Bool.not_eq_false] at h
  have := (List.all_eq_true.mp h) _ ho
  exact Bool.noConfusion this

theorem inferClassVar_spec (i : Nat) (col : List Obj) (v : Var)
    (hok : inferClassVar i col = .ok v) :
    (v.isDiscrete = true ↔ allWholeIn0to19 col = true) ∧
    (v.isDiscrete = false → v.kind = VarKind.continuous) := by
  simp only [inferClassVar] at hok
  cases h1 : npMinCol col with
  | error e =>
    rw [h1] at hok
    exact Except.noConfusion hok
  | ok mn =>
    rw [h1, exceptBind_ok] at hok
    cases h2 : npMaxCol col with
    | error e =>
      rw [h2] at hok
      exact Except.noConfusion hok
    | ok mx =>
      rw [h2, exceptBind_ok] at hok
      cases col with
      | nil => exact Except.noConfusion h1
      | cons o0 rest =>
      simp only [npMinCol] at h1
      simp only [npMaxCol] at h2
      by_cases hnn : hasNonNum (o0 :: rest) = true
      · rw [if_pos hnn] at h1
        exact Except.noConfusion h1
      · rw [Bool.not_eq_true] at hnn
        rw [hnn] at h1 h2
        rw [if_neg (by decide)] at h1 h2
        by_cases hnan : hasNan (o0 :: rest) = true
        · rw [hnan, if_pos rfl] at h1 h2
          injection h1 with h1
          injection h2 with h2
          subst h1
          subst h2
          rw [if_neg (by decide)] at hok
          injection hok with hok
          subst hok
          rw [hasNan_allWhole_false hnan]
          exact ⟨by simp [Var.isDiscrete], fun _ => rfl⟩
        · rw [Bool.not_eq_true] at hnan
          rw [hnan] at h1 h2
          rw [if_neg (by decide)] at h1 h2
          have hnum := all_num_of_clean hnn hnan
          obtain ⟨q00, rfl⟩ := hnum o0 (List.mem_cons_self _ _)
          have hfm : (Obj.num q00 :: rest).filterMap toQ
              = q00 :: rest.filterMap toQ := by
            simp [List.filterMap_cons, toQ]
          rw [hfm] at h1 h2
          injection h1 with h1
          injection h2 with h2
          subst h1
          subst h2
          have hiff := allWhole_iff_filterMap hnum
          by_cases hg2 : (npUniqueQ (Obj.num q00 :: rest)).all
              (fun x => x.den = 1 && decide (0 ≤ x) && decide (x ≤ 19)) = true
          · have hAll : allWholeIn0to19 (Obj.num q00 :: rest) = true := by
              rw [hiff]
              intro q hq
              exact (List.all_eq_true.mp hg2) q (mem_npUniqueQ.mpr hq)
            have hbounds : ∀ q ∈ (Obj.num q00 :: rest).filterMap toQ,
                0 ≤ q ∧ q ≤ 19 := by
              intro q hq
              have := (hiff.mp hAll) q hq
              simp only [Bool.and_eq_true, decide_eq_true_eq] at this
              exact ⟨this.1.2, this.2⟩
            have hq00 : (0 : ℚ) ≤ q00 ∧ q00 ≤ 19 :=
              hbounds q00 (by rw [hfm]; exact List.mem_cons_self _ _)
            have hg1 : (numLeB (.num 0) (.num ((rest.filterMap toQ).foldl min q00))
                && numLeB (.num ((rest.filterMap toQ).foldl max q00)) (.num 20))
                = true := by
              simp only [numLeB, Bool.and_eq_true, decide_eq_true_eq]
              constructor
              · exact foldl_min_ge 0 _ q00 hq00.1
                  (fun x hx => (hbounds x (by rw [hfm]; exact List.mem_cons_of_mem _ hx)).1)
              · have h19 : (rest.filterMap toQ).foldl max q00 ≤ 19 :=
                  foldl_max_le 19 _ q00 hq00.2
                    (fun x hx => (hbounds x (by rw [hfm]; exact List.mem_cons_of_mem _ hx)).2)
                linarith
            rw [if_pos hg1, if_pos hg2] at hok
            injection hok with hok
            subst hok
            rw [hAll]
            exact ⟨by simp [Var.isDiscrete], by intro h3; exact absurd h3 (by simp [Var.isDiscrete])⟩
          · have hAll : allWholeIn0to19 (Obj.num q00 :: rest) = false := by
              by_contra hc
              rw [Bool.not_eq_false] at hc
              apply hg2
              rw [List.all_eq_true]
              intro x hx
              exact (hiff.mp hc) x (mem_npUniqueQ.mp hx)
            by_cases hg1 : (numLeB (.num 0) (.num ((rest.filterMap toQ).foldl min q00))
                && numLeB (.num ((rest.filterMap toQ).foldl max q00)) (.num 20)) = true
            · rw [if_pos hg1, if_neg hg2] at hok
              injection hok with hok
              subst hok
              rw [hAll]
              exact ⟨by simp [Var.isDiscrete], fun _ => rfl⟩
            · rw [if_neg hg1] at hok
              injection hok with hok
              subst hok
              rw [hAll]
              exact ⟨by simp [Var.isDiscrete], fun _ => rfl⟩

/-! ### C9 helpers: boolean-mask selection commutes with the filter steps -/

theorem mf_map {α β : Type} (f : α → β) :
    ∀ (m : List Bool) (l : List α), maskFilter m (l.map f) = (maskFilter m l).map f := by
  intro m
  induction m with
  | nil => intro l; rfl
  | cons b m' ih =>
    intro l
    cases l with
    | nil => cases b <;> rfl
    | cons x xs =>
      cases b with
      | true =>
        show f x :: maskFilter m' (xs.map f) = f x :: (maskFilter m' xs).map f
        rw [ih xs]
      | false =>
        show maskFilter m' (xs.map f) = (maskFilter m' xs).map f
        exact ih xs

theorem mf_zipWith {α β γ : Type} (f : α → β → γ) :
    ∀ (m : List Bool) (a : List α) (b : List β), a.length = b.length →
      maskFilter m (List.zipWith f a b)
        = List.zipWith f (maskFilter m a) (maskFilter m b) := by
  intro m
  induction m with
  | nil => intro a b _; rfl
  | cons bb m' ih =>
    intro a b hl
    cases a with
    | nil =>
      cases b with
      | nil => cases bb <;> rfl
      | cons y ys => exact absurd hl (by simp)
    | cons x xs =>
      cases b with
      | nil => exact absurd hl (by simp)
      | cons y ys =>
        have hl' : xs.length = ys.length := by simpa using hl
        cases bb with
        | true =>
          show f x y :: maskFilter m' (List.zipWith f xs ys)
              = f x y :: List.zipWith f (maskFilter m' xs) (maskFilter m' ys)
          rw [ih xs ys hl']
        | false =>
          show maskFilter m' (List.zipWith f xs ys)
              = List.zipWith f (maskFilter m' xs) (maskFilter m' ys)
          exact ih xs ys hl'

theorem mf_length :
    ∀ (m : List Bool) {α : Type} (l : List α), l.length = m.length →
      (maskFilter m l).length = m.count true := by
  intro m
  induction m with
  | nil =>
    intro α l h
    have h0 : l = [] := List.length_eq_zero.mp h
    subst h0
    rfl
  | cons b m' ih =>
    intro α l h
    cases l with
    | nil => exact absurd h (by simp)
    | cons x xs =>
      have h' : xs.length = m'.length := by simpa using h
      cases b with
      | true =>
        show (x :: maskFilter m' xs).length = (true :: m').count true
        simp only [List.length_cons, List.count_cons]
        rw [ih xs h']
        simp
      | false =>
        show (maskFilter m' xs).length = (false :: m').count true
        rw [ih xs h']
        simp [List.count_cons]

theorem mf_replicate {α : Type} (c : α) :
    ∀ (m : List Bool), maskFilter m (List.replicate m.length c)
      = List.replicate (m.count true) c := by
  intro m
  induction m with
  | nil => rfl
  | cons b m' ih =>
    cases b with
    | true =>
      show c :: maskFilter m' (List.replicate m'.length c) = _
      rw [ih]
      simp [List.count_cons, List.replicate_succ]
    | false =>
      show maskFilter m' (List.replicate m'.length c) = _
      rw [ih]
      simp [List.count_cons]

theorem mf_self :
    ∀ (m : List Bool), maskFilter m m = List.replicate (m.count true) true := by
  intro m
  induction m with
  | nil => rfl
  | cons b m' ih =>
    cases b with
    | true =>
      show true :: maskFilter m' m' = _
      rw [ih]
      simp [List.count_cons, List.replicate_succ]
    | false =>
      show maskFilter m' m' = _
      rw [ih]
      simp [List.count_cons]

theorem mf_all_true {α : Type} :
    ∀ (l : List α), maskFilter (List.replicate l.length true) l = l := by
  intro l
  induction l with
  | nil => rfl
  | cons x xs ih =>
    show x :: maskFilter (List.replicate xs.length true) xs = x :: xs
    rw [ih]

theorem mf_range_map {α : Type} (d : α) :
    ∀ (m : List Bool) (l : List α), l.length = m.length →
      (maskFilter m (List.range l.length)).map (fun i => l.getD i d)
        = maskFilter m l := by
  intro m
  induction m with
  | nil =>
    intro l h
    have h0 : l = [] := List.length_eq_zero.mp h
    subst h0
    rfl
  | cons b m' ih =>
    intro l hl
    cases l with
    | nil => exact absurd hl (by simp)
    | cons x xs =>
      have hl' : xs.length = m'.length := by simpa using hl
      rw [show (x :: xs).length = xs.length + 1 from rfl, List.range_succ_eq_map]
      have hcomp : ((fun i => (x :: xs).getD i d) ∘ Nat.succ)
          = (fun i => xs.getD i d) := by
        funext i
        rfl
      cases b with
      | true =>
        show (0 :: maskFilter m' ((List.range xs.length).map Nat.succ)).map
            (fun i => (x :: xs).getD i d) = x :: maskFilter m' xs
        rw [mf_map Nat.succ m' (List.range xs.length)]
        simp only [List.map_cons, List.map_map]
        rw [hcomp, ih xs hl']
        rfl
      | false =>
        show (maskFilter m' ((List.range xs.length).map Nat.succ)).map
            (fun i => (x :: xs).getD i d) = maskFilter m' xs
        rw [mf_map Nat.succ m' (List.range xs.length), List.map_map]
        rw [hcomp, ih xs hl']

theorem mf_mapM {ε α β : Type} {g : α → Except ε β} :
    ∀ (m : List Bool) {col : List α} {res : List β}, col.mapM g = .ok res →
      (maskFilter m col).mapM g = .ok (maskFilter m res) := by
  intro m
  induction m with
  | nil =>
    intro col res h
    rfl
  | cons b m' ih =>
    intro col res h
    cases col with
    | nil =>
      rw [mapM_ok_nil h]
      cases b <;> rfl
    | cons c cs =>
      obtain ⟨r, rs, h1, h2, rfl⟩ := mapM_ok_cons h
      cases b with
      | true =>
        show (c :: maskFilter m' cs).mapM g = .ok (r :: maskFilter m' rs)
        rw [List.mapM_cons, h1, ih h2]
        rfl
      | false =>
        show (maskFilter m' cs).mapM g = .ok (maskFilter m' rs)
        exact ih h2

theorem mask_col_eq {dta : List (List Obj)} {m : List Bool} {n : Nat}
    (hn : n = dta.length) (hm : m.length = dta.length) (j : Nat) :
    ((maskFilter m (List.range n)).map (fun i => dta.getD i [])).map
        (fun r => r.getD j (Obj.num 0))
      = maskFilter m (dta.map (fun r => r.getD j (Obj.num 0))) := by
  subst hn
  rw [mf_range_map ([] : List Obj) m dta hm.symm]
  exact (mf_map _ m dta).symm

theorem Weights.select_mask_vec {o : Bool} {d : List ℚ} {m : List Bool} {js : List Nat}
    (hres : RowIdx.resolve (.mask m) (Weights.vec o d).nrows = .ok (js, true)) :
    (Weights.vec o d).select (.mask m) = .ok (.vec true (js.map (fun i => d.getD i 0))) := by
  simp only [Weights.select]
  rw [hres]
  rfl

theorem Weights.select_mask_mat0 {o : Bool} {n : Nat} {m : List Bool} {js : List Nat}
    (hres : RowIdx.resolve (.mask m) (Weights.mat0 o n).nrows = .ok (js, true)) :
    (Weights.mat0 o n).select (.mask m) = .ok (.mat0 true js.length) := by
  simp only [Weights.select]
  rw [hres]
  rfl

namespace Table

theorem new_from_table_rows_mask (t : Table) (h : t.rowsEqualb = true)
    (m : List Bool) (hm : m.length = t.len) :
    t.new_from_table_rows (.mask m) = .ok (t.maskSelect m) := by
  obtain ⟨hYr, hMr, hWr⟩ := Table.rowsEqual_spec t h
  have hresX : RowIdx.resolve (.mask m) t.X.nrows
      = .ok (maskFilter m (List.range t.len), true) := by
    simp only [RowIdx.resolve]
    rw [if_pos (show m.length = t.X.nrows from hm)]
    rfl
  have hresY : RowIdx.resolve (.mask m) t.Y.nrows
      = .ok (maskFilter m (List.range t.len), true) := by
    rw [show t.Y.nrows = t.X.nrows from hYr]
    exact hresX
  have hresM : RowIdx.resolve (.mask m) t.metas.nrows
      = .ok (maskFilter m (List.range t.len), true) := by
    rw [show t.metas.nrows = t.X.nrows from hMr]
    exact hresX
  have hresW : RowIdx.resolve (.mask m) t.W.nrows
      = .ok (maskFilter m (List.range t.len), true) := by
    rw [show t.W.nrows = t.X.nrows from hWr]
    exact hresX
  simp only [Table.new_from_table_rows, Table.maskSelect]
  rw [Arr.select_ok hresX, exceptBind_ok, Arr.select_ok hresY, exceptBind_ok,
    Arr.select_ok hresM, exceptBind_ok]
  cases hW : t.W with
  | vec o d =>
    rw [hW] at hresW
    rw [Weights.select_mask_vec hresW, exceptBind_ok]
  | mat0 o n =>
    rw [hW] at hresW
    rw [Weights.select_mask_mat0 hresW, exceptBind_ok]

theorem maskSelect_len (t : Table) (m : List Bool) (hm : m.length = t.len) :
    (t.maskSelect m).len = m.count true := by
  show ((maskFilter m (List.range t.len)).map _).length = _
  rw [List.length_map]
  exact mf_length m (List.range t.len) (by simp [hm])

theorem maskSelect_rowsEqualb (t : Table) (m : List Bool) :
    (t.maskSelect m).rowsEqualb = true := by
  apply Table.rowsEqualb_intro
  · show ((maskFilter m (List.range t.len)).map _).length
        = ((maskFilter m (List.range t.len)).map _).length
    rw [List.length_map, List.length_map]
  · show ((maskFilter m (List.range t.len)).map _).length
        = ((maskFilter m (List.range t.len)).map _).length
    rw [List.length_map, List.length_map]
  · show (match t.W with
      | .vec _ d =>
        Weights.vec true ((maskFilter m (List.range t.len)).map (fun i => d.getD i 0))
      | .mat0 _ _ =>
        Weights.mat0 true (maskFilter m (List.range t.len)).length).nrows
      = ((maskFilter m (List.range t.len)).map (fun i => t.X.data.getD i [])).length
    cases t.W with
    | vec o d =>
      show ((maskFilter m (List.range t.len)).map _).length
          = ((maskFilter m (List.range t.len)).map _).length
      rw [List.length_map, List.length_map]
    | mat0 o n =>
      show (maskFilter m (List.range t.len)).length
          = ((maskFilter m (List.range t.len)).map _).length
      rw [List.length_map]

theorem get_column_view_length (t : Table) (h : t.rowsEqualb = true)
    (pos : Int) (col : List Obj) (hc : t.get_column_view pos = .ok col) :
    col.length = t.len := by
  obtain ⟨hYr, hMr, hWr⟩ := Table.rowsEqual_spec t h
  simp only [Table.get_column_view] at hc
  split at hc
  · split at hc
    · injection hc with hc
      subst hc
      show (t.X.data.map _).length = _
      rw [List.length_map]
      rfl
    · split at hc
      · injection hc with hc
        subst hc
        show (t.Y.data.map _).length = _
        rw [List.length_map]
        exact hYr
      · exact Except.noConfusion hc
  · split at hc
    · injection hc with hc
      subst hc
      show (t.metas.data.map _).length = _
      rw [List.length_map]
      exact hMr
    · exact Except.noConfusion hc

theorem maskSelect_col (t : Table) (h : t.rowsEqualb = true) (m : List Bool)
    (hm : m.length = t.len) (pos : Int) (col : List Obj)
    (hc : t.get_column_view pos = .ok col) :
    (t.maskSelect m).get_column_view pos = .ok (maskFilter m col) := by
  obtain ⟨hYr, hMr, hWr⟩ := Table.rowsEqual_spec t h
  simp only [Table.get_column_view] at hc ⊢
  rw [show (t.maskSelect m).X.ncols = t.X.ncols from rfl,
    show (t.maskSelect m).Y.ncols = t.Y.ncols from rfl,
    show (t.maskSelect m).metas.ncols = t.metas.ncols from rfl]
  split at hc
  · split at hc
    · rename_i h0 h1
      rw [if_pos h0, if_pos h1]
      injection hc with hc
      subst hc
      exact congrArg Except.ok (mask_col_eq rfl hm pos.toNat)
    · rename_i h0 h1
      split at hc
      · rename_i h2
        rw [if_pos h0, if_neg h1, if_pos h2]
        injection hc with hc
        subst hc
        exact congrArg Except.ok
          (mask_col_eq hYr.symm (hm.trans hYr.symm) (pos - t.X.ncols).toNat)
      · exact Except.noConfusion hc
  · rename_i h0
    split at hc
    · rename_i h2
      rw [if_neg h0, if_pos h2]
      injection hc with hc
      subst hc
      exact congrArg Except.ok
        (mask_col_eq hMr.symm (hm.trans hMr.symm) (-1 - pos).toNat)
    · exact Except.noConfusion hc

end Table

theorem contStep_length {col : List Obj} {oper : FOper} {fmin fmax : Obj}
    {cb : List Bool} (h : contStep col oper fmin fmax = .ok cb) :
    cb.length = col.length := by
  cases oper <;> simp only [contStep] at h
  case Equal =>
    injection h with h
    subst h
    exact List.length_map ..
  case NotEqual =>
    injection h with h
    subst h
    exact List.length_map ..
  case Less => exact mapM_ok_length h
  case LessEqual => exact mapM_ok_length h
  case Greater => exact mapM_ok_length h
  case GreaterEqual => exact mapM_ok_length h
  case Between =>
    cases h1 : col.mapM (fun e => objGe e fmin) with
    | error e =>
      rw [h1] at h
      exact Except.noConfusion h
    | ok aa =>
      rw [h1, exceptBind_ok] at h
      cases h2 : col.mapM (fun e => objLe e fmax) with
      | error e =>
        rw [h2] at h
        exact Except.noConfusion h
      | ok bb =>
        rw [h2, exceptBind_ok] at h
        injection h with h
        subst h
        rw [List.length_zipWith, mapM_ok_length h1, mapM_ok_length h2]
        simp
  case Outside =>
    cases h1 : col.mapM (fun e => objLt e fmin) with
    | error e =>
      rw [h1] at h
      exact Except.noConfusion h
    | ok aa =>
      rw [h1, exceptBind_ok] at h
      cases h2 : col.mapM (fun e => objGt e fmax) with
      | error e =>
        rw [h2] at h
        exact Except.noConfusion h
      | ok bb =>
        rw [h2, exceptBind_ok] at h
        injection h with h
        subst h
        rw [List.length_zipWith, mapM_ok_length h1, mapM_ok_length h2]
        simp
  case Contains => exact Except.noConfusion h
  case BeginsWith => exact Except.noConfusion h
  case EndsWith => exact Except.noConfusion h

theorem contStep_mask (m : List Bool) {col : List Obj} {oper : FOper}
    {fmin fmax : Obj} {cb : List Bool}
    (h : contStep col oper fmin fmax = .ok cb) :
    contStep (maskFilter m col) oper fmin fmax = .ok (maskFilter m cb) := by
  cases oper <;> simp only [contStep] at h ⊢
  case Equal =>
    injection h with h
    subst h
    rw [mf_map]
  case NotEqual =>
    injection h with h
    subst h
    rw [mf_map]
  case Less => exact mf_mapM m h
  case LessEqual => exact mf_mapM m h
  case Greater => exact mf_mapM m h
  case GreaterEqual => exact mf_mapM m h
  case Between =>
    cases h1 : col.mapM (fun e => objGe e fmin) with
    | error e =>
      rw [h1] at h
      exact Except.noConfusion h
    | ok aa =>
      rw [h1, exceptBind_ok] at h
      cases h2 : col.mapM (fun e => objLe e fmax) with
      | error e =>
        rw [h2] at h
        exact Except.noConfusion h
      | ok bb =>
        rw [h2, exceptBind_ok] at h
        injection h with h
        subst h
        rw [mf_mapM m h1, exceptBind_ok, mf_mapM m h2, exceptBind_ok,
          mf_zipWith _ m aa bb ((mapM_ok_length h1).trans (mapM_ok_length h2).symm)]
  case Outside =>
    cases h1 : col.mapM (fun e => objLt e fmin) with
    | error e =>
      rw [h1] at h
      exact Except.noConfusion h
    | ok aa =>
      rw [h1, exceptBind_ok] at h
      cases h2 : col.mapM (fun e => objGt e fmax) with
      | error e =>
        rw [h2] at h
        exact Except.noConfusion h
      | ok bb =>
        rw [h2, exceptBind_ok] at h
        injection h with h
        subst h
        rw [mf_mapM m h1, exceptBind_ok, mf_mapM m h2, exceptBind_ok,
          mf_zipWith _ m aa bb ((mapM_ok_length h1).trans (mapM_ok_length h2).symm)]
  case Contains => exact Except.noConfusion h
  case BeginsWith => exact Except.noConfusion h
  case EndsWith => exact Except.noConfusion h

theorem strStepCS_length {col : List Obj} {oper : FOper} {fmin fmax : String}
    {cb : List Bool} (h : strStepCS col oper fmin fmax = .ok cb) :
    cb.length = col.length := by
  cases oper <;> simp only [strStepCS] at h
  case Equal =>
    injection h with h
    subst h
    exact List.length_map ..
  case NotEqual =>
    injection h with h
    subst h
    exact List.length_map ..
  case Less => exact mapM_ok_length h
  case LessEqual => exact mapM_ok_length h
  case Greater => exact mapM_ok_length h
  case GreaterEqual => exact mapM_ok_length h
  case Between =>
    cases h1 : col.mapM (fun e => objGe e (.str fmin)) with
    | error e =>
      rw [h1] at h
      exact Except.noConfusion h
    | ok aa =>
      rw [h1, exceptBind_ok] at h
      cases h2 : col.mapM (fun e => objLe e (.str fmax)) with
      | error e =>
        rw [h2] at h
        exact Except.noConfusion h
      | ok bb =>
        rw [h2, exceptBind_ok] at h
        injection h with h
        subst h
        rw [List.length_zipWith, mapM_ok_length h1, mapM_ok_length h2]
        simp
  case Outside =>
    cases h1 : col.mapM (fun e => objLt e (.str fmin)) with
    | error e =>
      rw [h1] at h
      exact Except.noConfusion h
    | ok aa =>
      rw [h1, exceptBind_ok] at h
      cases h2 : col.mapM (fun e => objGt e (.str fmax)) with
      | error e =>
        rw [h2] at h
        exact Except.noConfusion h
      | ok bb =>
        rw [h2, exceptBind_ok] at h
        injection h with h
        subst h
        rw [List.length_zipWith, mapM_ok_length h1, mapM_ok_length h2]
        simp
  case Contains => exact mapM_ok_length h
  case BeginsWith => exact mapM_ok_length h
  case EndsWith => exact mapM_ok_length h

theorem strStepCS_mask (m : List Bool) {col : List Obj} {oper : FOper}
    {fmin fmax : String} {cb : List Bool}
    (h : strStepCS col oper fmin fmax = .ok cb) :
    strStepCS (maskFilter m col) oper fmin fmax = .ok (maskFilter m cb) := by
  cases oper <;> simp only [strStepCS] at h ⊢
  case Equal =>
    injection h with h
    subst h
    rw [mf_map]
  case NotEqual =>
    injection h with h
    subst h
    rw [mf_map]
  case Less => exact mf_mapM m h
  case LessEqual => exact mf_mapM m h
  case Greater => exact mf_mapM m h
  case GreaterEqual => exact mf_mapM m h
  case Between =>
    cases h1 : col.mapM (fun e => objGe e (.str fmin)) with
    | error e =>
      rw [h1] at h
      exact Except.noConfusion h
    | ok aa =>
      rw [h1, exceptBind_ok] at h
      cases h2 : col.mapM (fun e => objLe e (.str fmax)) with
      | error e =>
        rw [h2] at h
        exact Except.noConfusion h
      | ok bb =>
        rw [h2, exceptBind_ok] at h
        injection h with h
        subst h
        rw [mf_mapM m h1, exceptBind_ok, mf_mapM m h2, exceptBind_ok,
          mf_zipWith _ m aa bb ((mapM_ok_length h1).trans (mapM_ok_length h2).symm)]
  case Outside =>
    cases h1 : col.mapM (fun e => objLt e (.str fmin)) with
    | error e =>
      rw [h1] at h
      exact Except.noConfusion h
    | ok aa =>
      rw [h1, exceptBind_ok] at h
      cases h2 : col.mapM (fun e => objGt e (.str fmax)) with
      | error e =>
        rw [h2] at h
        exact Except.noConfusion h
      | ok bb =>
        rw [h2, exceptBind_ok] at h
        injection h with h
        subst h
        rw [mf_mapM m h1, exceptBind_ok, mf_mapM m h2, exceptBind_ok,
          mf_zipWith _ m aa bb ((mapM_ok_length h1).trans (mapM_ok_length h2).symm)]
  case Contains => exact mf_mapM m h
  case BeginsWith => exact mf_mapM m h
  case EndsWith => exact mf_mapM m h

theorem strStepCI_length (colL : List String) (oper : FOper) (fmin fmax : String) :
    (strStepCI colL oper fmin fmax).length = colL.length := by
  cases oper <;> simp [strStepCI, List.length_zipWith]

theorem strStepCI_mask (m : List Bool) (colL : List String) (oper : FOper)
    (fmin fmax : String) :
    strStepCI (maskFilter m colL) oper fmin fmax
      = maskFilter m (strStepCI colL oper fmin fmax) := by
  cases oper <;> simp only [strStepCI]
  case Equal => rw [mf_map]
  case NotEqual => rw [mf_map]
  case Less => rw [mf_map]
  case LessEqual => rw [mf_map]
  case Greater => rw [mf_map]
  case GreaterEqual => rw [mf_map]
  case Between =>
    rw [mf_zipWith _ m _ _ (by simp), mf_map, mf_map]
  case Outside =>
    rw [mf_zipWith _ m _ _ (by simp), mf_map, mf_map]
  case Contains => rw [mf_map]
  case BeginsWith => rw [mf_map]
  case EndsWith => rw [mf_map]

theorem discFoldAnd_mask (t t2 : Table) (pos : Int) (m : List Bool)
    (hdl : ∀ val, t2.discLookup pos val = t.discLookup pos val)
    (col : List Obj) :
    ∀ (values : List Obj) (s2 s2f : List ℚ), s2.length = col.length →
      values.foldlM (fun s2 val => do
          let v ← t.discLookup pos val
          pure (List.zipWith (fun s c => s + boolQ (objEq c v)) s2 col)) s2
        = .ok s2f →
      values.foldlM (fun s2 val => do
          let v ← t2.discLookup pos val
          pure (List.zipWith (fun s c => s + boolQ (objEq c v)) s2 (maskFilter m col)))
          (maskFilter m s2) = .ok (maskFilter m s2f)
        ∧ s2f.length = col.length := by
  intro values
  induction values with
  | nil =>
    intro s2 s2f hlen h
    rw [List.foldlM_nil] at h
    injection h with h
    subst h
    exact ⟨by rw [List.foldlM_nil]; rfl, hlen⟩
  | cons val vs ih =>
    intro s2 s2f hlen h
    rw [List.foldlM_cons] at h
    cases hv : t.discLookup pos val with
    | error e =>
      rw [hv] at h
      exact Except.noConfusion h
    | ok v =>
      rw [hv, exceptBind_ok, exceptPure_eq, exceptBind_ok] at h
      have hzlen : (List.zipWith (fun s c => s + boolQ (objEq c v)) s2 col).length
          = col.length := by
        rw [List.length_zipWith, hlen]
        simp
      obtain ⟨hfold, hflen⟩ := ih _ s2f hzlen h
      refine ⟨?_, hflen⟩
      rw [List.foldlM_cons, hdl val, hv, exceptBind_ok, exceptPure_eq, exceptBind_ok]
      rw [mf_zipWith _ m s2 col hlen] at hfold
      exact hfold

theorem discFoldOr_mask (t t2 : Table) (pos : Int) (m : List Bool)
    (hdl : ∀ val, t2.discLookup pos val = t.discLookup pos val)
    (col : List Obj) :
    ∀ (values : List Obj) (sel self : List Bool), sel.length = col.length →
      values.foldlM (fun sel val => do
          let v ← t.discLookup pos val
          pure (List.zipWith (fun b c => b || objEq c v) sel col)) sel
        = .ok self →
      values.foldlM (fun sel val => do
          let v ← t2.discLookup pos val
          pure (List.zipWith (fun b c => b || objEq c v) sel (maskFilter m col)))
          (maskFilter m sel) = .ok (maskFilter m self)
        ∧ self.length = col.length := by
  intro values
  induction values with
  | nil =>
    intro sel self hlen h
    rw [List.foldlM_nil] at h
    injection h with h
    subst h
    exact ⟨by rw [List.foldlM_nil]; rfl, hlen⟩
  | cons val vs ih =>
    intro sel self hlen h
    rw [List.foldlM_cons] at h
    cases hv : t.discLookup pos val with
    | error e =>
      rw [hv] at h
      exact Except.noConfusion h
    | ok v =>
      rw [hv, exceptBind_ok, exceptPure_eq, exceptBind_ok] at h
      have hzlen : (List.zipWith (fun b c => b || objEq c v) sel col).length
          = col.length := by
        rw [List.length_zipWith, hlen]
        simp
      obtain ⟨hfold, hflen⟩ := ih _ self hzlen h
      refine ⟨?_, hflen⟩
      rw [List.foldlM_cons, hdl val, hv, exceptBind_ok, exceptPure_eq, exceptBind_ok]
      rw [mf_zipWith _ m sel col hlen] at hfold
      exact hfold

theorem strFold_mask (cmp : Obj → String → Bool) (col : List Obj) (m : List Bool) :
    ∀ (vs : List String) (acc : List Bool), acc.length = col.length →
      maskFilter m (vs.foldl
          (fun acc v => List.zipWith (· || ·) acc (col.map (fun e => cmp e v))) acc)
        = vs.foldl
            (fun acc v => List.zipWith (· || ·) acc
              ((maskFilter m col).map (fun e => cmp e v)))
            (maskFilter m acc)
      ∧ (vs.foldl
          (fun acc v => List.zipWith (· || ·) acc (col.map (fun e => cmp e v)))
          acc).length = col.length := by
  intro vs
  induction vs with
  | nil =>
    intro acc hlen
    exact ⟨rfl, hlen⟩
  | cons v vs ih =>
    intro acc hlen
    rw [List.foldl_cons, List.foldl_cons]
    have hstep : maskFilter m (List.zipWith (· || ·) acc (col.map (fun e => cmp e v)))
        = List.zipWith (· || ·) (maskFilter m acc)
            ((maskFilter m col).map (fun e => cmp e v)) := by
      rw [mf_zipWith _ m acc _ (by rw [hlen]; simp), mf_map]
    have hstlen : (List.zipWith (· || ·) acc (col.map (fun e => cmp e v))).length
        = col.length := by
      rw [List.length_zipWith, hlen]
      simp
    obtain ⟨h1, h2⟩ := ih _ hstlen
    exact ⟨by rw [h1, hstep], h2⟩

theorem stringListAnd_mask (m : List Bool) (cmp : Obj → String → Bool)
    (col : List Obj) (sel sel2 : List Bool) (vals : List String)
    (hlen : sel.length = col.length)
    (hstep : (match vals with
      | [] => (.error .typeError : Except PyErr (List Bool))
      | v0 :: rest =>
        pure (List.zipWith (· && ·) sel
          (rest.foldl (fun acc v => List.zipWith (· || ·) acc
            (col.map (fun e => cmp e v))) (col.map (fun e => cmp e v0)))))
      = .ok sel2) :
    (match vals with
      | [] => (.error .typeError : Except PyErr (List Bool))
      | v0 :: rest =>
        pure (List.zipWith (· && ·) (maskFilter m sel)
          (rest.foldl (fun acc v => List.zipWith (· || ·) acc
            ((maskFilter m col).map (fun e => cmp e v)))
            ((maskFilter m col).map (fun e => cmp e v0)))))
      = .ok (maskFilter m sel2)
    ∧ sel2.length = sel.length := by
  cases vals with
  | nil => exact Except.noConfusion hstep
  | cons v0 rest =>
    injection hstep with hstep
    subst hstep
    obtain ⟨h1, h2⟩ := strFold_mask cmp col m rest (col.map (fun e => cmp e v0))
      (by simp)
    constructor
    · show (pure (List.zipWith (· && ·) (maskFilter m sel) _) : Except PyErr _) = _
      rw [mf_zipWith _ m sel _ (by rw [hlen, h2]), h1, mf_map]
      rfl
    · rw [List.length_zipWith, h2, hlen]
      simp

theorem stringListOr_mask (m : List Bool) (cmp : Obj → String → Bool)
    (col : List Obj) (sel self : List Bool) (vals : List String)
    (hlen : sel.length = col.length)
    (hstep : (pure (vals.foldl (fun acc v => List.zipWith (· || ·) acc
        (col.map (fun e => cmp e v))) sel) : Except PyErr (List Bool)) = .ok self) :
    (pure (vals.foldl (fun acc v => List.zipWith (· || ·) acc
        ((maskFilter m col).map (fun e => cmp e v))) (maskFilter m sel))
      : Except PyErr (List Bool)) = .ok (maskFilter m self)
    ∧ self.length = sel.length := by
  injection hstep with hstep
  subst hstep
  obtain ⟨h1, h2⟩ := strFold_mask cmp col m vals sel hlen
  exact ⟨by rw [← h1]; rfl, by rw [h2, hlen]⟩

theorem Table.filterStep_mask (t t2 : Table) (m : List Bool) (conj : Bool)
    (hdom : t2.domain = t.domain)
    (hlen2 : t2.len = m.count true)
    (hm : m.length = t.len)
    (hcol : ∀ pos col, t.get_column_view pos = .ok col →
        t2.get_column_view pos = .ok (maskFilter m col))
    (hclen : ∀ pos col, t.get_column_view pos = .ok col → col.length = t.len)
    (f : FCond) (sel sel2 : List Bool) (hsel : sel.length = t.len)
    (hstep : t.filterStep conj sel f = .ok sel2) :
    t2.filterStep conj (maskFilter m sel) f = .ok (maskFilter m sel2)
      ∧ sel2.length = t.len := by
  have hdl : ∀ pos val, t2.discLookup pos val = t.discLookup pos val := by
    intro pos val
    simp [Table.discLookup, hdom]
  simp only [Table.filterStep] at hstep ⊢
  cases hc : t.get_column_view f.position with
  | error e =>
    rw [hc] at hstep
    exact Except.noConfusion hstep
  | ok col =>
    rw [hc, exceptBind_ok] at hstep
    rw [hcol _ _ hc, exceptBind_ok]
    have hcl : col.length = t.len := hclen _ _ hc
    cases f with
    | discrete pos values =>
      dsimp only at hstep ⊢
      cases conj with
      | true =>
        rw [if_pos rfl] at hstep ⊢
        cases hf : values.foldlM (fun s2 val => do
            let v ← t.discLookup pos val
            pure (List.zipWith (fun s c => s + boolQ (objEq c v)) s2 col))
            (List.replicate t.len (0 : ℚ)) with
        | error e =>
          rw [hf] at hstep
          exact Except.noConfusion hstep
        | ok s2f =>
          rw [hf, exceptBind_ok] at hstep
          injection hstep with hstep
          subst hstep
          obtain ⟨hfold, hflen⟩ := discFoldAnd_mask t t2 pos m (hdl pos) col values
            (List.replicate t.len (0 : ℚ)) s2f (by simp [hcl]) hf
          constructor
          · have hrep : (List.replicate t2.len (0 : ℚ))
                = maskFilter m (List.replicate t.len (0 : ℚ)) := by
              rw [hlen2, ← hm, mf_replicate]
            rw [hrep, hfold, exceptBind_ok,
              mf_zipWith _ m sel s2f (by rw [hsel, hflen, hcl])]
            rfl
          · rw [List.length_zipWith, hsel, hflen, hcl]
            simp
      | false =>
        rw [if_neg (by decide)] at hstep ⊢
        obtain ⟨hfold, hflen⟩ := discFoldOr_mask t t2 pos m (hdl pos) col values sel
          sel2 (hsel.trans hcl.symm) hstep
        exact ⟨hfold, hflen.trans hcl⟩
    | stringList pos values cs =>
      dsimp only at hstep ⊢
      cases conj with
      | true =>
        rw [if_pos rfl] at hstep ⊢
        have hres := stringListAnd_mask m
          (if cs = true then fun e v => objEq e (.str v)
           else fun e v => decide ((pyStr e).toLower = v))
          col sel sel2
          (if cs = true then values else values.map String.toLower)
          (hsel.trans hcl.symm) hstep
        exact ⟨hres.1, hres.2.trans hsel⟩
      | false =>
        rw [if_neg (by decide)] at hstep ⊢
        have hres := stringListOr_mask m
          (if cs = true then fun e v => objEq e (.str v)
           else fun e v => decide ((pyStr e).toLower = v))
          col sel sel2
          (if cs = true then values else values.map String.toLower)
          (hsel.trans hcl.symm) hstep
        exact ⟨hres.1, hres.2.trans hsel⟩
    | continuous pos oper fmin fmax =>
      dsimp only at hstep ⊢
      cases hcb : contStep col oper fmin fmax with
      | error e =>
        rw [hcb] at hstep
        exact Except.noConfusion hstep
      | ok cb =>
        rw [hcb, exceptBind_ok] at hstep
        have hcbl := contStep_length hcb
        rw [contStep_mask m hcb, exceptBind_ok]
        cases conj with
        | true =>
          rw [if_pos rfl] at hstep
          injection hstep with hstep
          subst hstep
          constructor
          · rw [if_pos rfl, mf_zipWith _ m sel cb (by rw [hsel, hcbl, hcl])]
            rfl
          · rw [List.length_zipWith, hsel, hcbl, hcl]
            simp
        | false =>
          rw [if_neg (by decide)] at hstep
          injection hstep with hstep
          subst hstep
          constructor
          · rw [if_neg (by decide), mf_zipWith _ m sel cb (by rw [hsel, hcbl, hcl])]
            rfl
          · rw [List.length_zipWith, hsel, hcbl, hcl]
            simp
    | stringCond pos oper fmin fmax cs =>
      dsimp only at hstep ⊢
      cases cs with
      | true =>
        rw [if_pos rfl] at hstep ⊢
        cases hcb : strStepCS col oper fmin fmax with
        | error e =>
          rw [hcb] at hstep
          exact Except.noConfusion hstep
        | ok cb =>
          rw [hcb, exceptBind_ok] at hstep
          have hcbl := strStepCS_length hcb
          rw [strStepCS_mask m hcb, exceptBind_ok]
          cases conj with
          | true =>
            rw [if_pos rfl] at hstep
            injection hstep with hstep
            subst hstep
            constructor
            · rw [if_pos rfl, mf_zipWith _ m sel cb (by rw [hsel, hcbl, hcl])]
              rfl
            · rw [List.length_zipWith, hsel, hcbl, hcl]
              simp
          | false =>
            rw [if_neg (by decide)] at hstep
            injection hstep with hstep
            subst hstep
            constructor
            · rw [if_neg (by decide), mf_zipWith _ m sel cb (by rw [hsel, hcbl, hcl])]
              rfl
            · rw [List.length_zipWith, hsel, hcbl, hcl]
              simp
      | false =>
        rw [if_neg (by decide)] at hstep ⊢
        rw [exceptPure_eq, exceptBind_ok] at hstep ⊢
        have hlow : lowerCol (maskFilter m col) = maskFilter m (lowerCol col) :=
          (mf_map _ m col).symm
        rw [hlow, strStepCI_mask m (lowerCol col) oper fmin.toLower fmax.toLower]
        have hcbl : (strStepCI (lowerCol col) oper fmin.toLower fmax.toLower).length
            = col.length := by
          rw [strStepCI_length]
          simp [lowerCol]
        cases conj with
        | true =>
          rw [if_pos rfl] at hstep
          injection hstep with hstep
          subst hstep
          constructor
          · rw [if_pos rfl, mf_zipWith _ m sel _ (by rw [hsel, hcbl, hcl])]
            rfl
          · rw [List.length_zipWith, hsel, hcbl, hcl]
            simp
        | false =>
          rw [if_neg (by decide)] at hstep
          injection hstep with hstep
          subst hstep
          constructor
          · rw [if_neg (by decide), mf_zipWith _ m sel _ (by rw [hsel, hcbl, hcl])]
            rfl
          · rw [List.length_zipWith, hsel, hcbl, hcl]
            simp

theorem filterSel_mask (t t2 : Table) (m : List Bool) (conj : Bool)
    (hdom : t2.domain = t.domain)
    (hlen2 : t2.len = m.count true)
    (hm : m.length = t.len)
    (hcol : ∀ pos col, t.get_column_view pos = .ok col →
        t2.get_column_view pos = .ok (maskFilter m col))
    (hclen : ∀ pos col, t.get_column_view pos = .ok col → col.length = t.len) :
    ∀ (conds : List FCond) (sel self : List Bool), sel.length = t.len →
      conds.foldlM (t.filterStep conj) sel = .ok self →
      conds.foldlM (t2.filterStep conj) (maskFilter m sel) = .ok (maskFilter m self)
        ∧ self.length = t.len := by
  intro conds
  induction conds with
  | nil =>
    intro sel self hlen h
    rw [List.foldlM_nil] at h
    injection h with h
    subst h
    exact ⟨by rw [List.foldlM_nil]; rfl, hlen⟩
  | cons f fs ih =>
    intro sel self hlen h
    rw [List.foldlM_cons] at h
    cases h1 : t.filterStep conj sel f with
    | error e =>
      rw [h1] at h
      exact Except.noConfusion h
    | ok sel1 =>
      rw [h1, exceptBind_ok] at h
      obtain ⟨hstep, hlen1⟩ := Table.filterStep_mask t t2 m conj hdom hlen2 hm
        hcol hclen f sel sel1 hlen h1
      obtain ⟨hrest, hlenf⟩ := ih sel1 self hlen1 h
      refine ⟨?_, hlenf⟩
      rw [List.foldlM_cons, hstep, exceptBind_ok]
      exact hrest

theorem Table.maskSelect_W_shape (t : Table) (m : List Bool) :
    (∃ d, (t.maskSelect m).W = .vec true d) ∨
    (∃ n, (t.maskSelect m).W = .mat0 true n) := by
  cases hW0 : t.W with
  | vec o d =>
    left
    refine ⟨(maskFilter m (List.range t.len)).map (fun i => d.getD i 0), ?_⟩
    simp only [Table.maskSelect]
    rw [hW0]
  | mat0 o n =>
    right
    refine ⟨(maskFilter m (List.range t.len)).length, ?_⟩
    simp only [Table.maskSelect]
    rw [hW0]

theorem Table.maskSelect_all_true (t2 : Table)
    (hXo : t2.X.owned = true) (hYo : t2.Y.owned = true)
    (hMo : t2.metas.owned = true) (hr : t2.rowsEqualb = true)
    (hW : (∃ d, t2.W = .vec true d) ∨ (∃ n, t2.W = .mat0 true n)) :
    t2.maskSelect (List.replicate t2.len true) = t2 := by
  obtain ⟨hYr, hMr, hWr⟩ := Table.rowsEqual_spec t2 hr
  have hjs : maskFilter (List.replicate t2.len true) (List.range t2.len)
      = List.range t2.len := by
    have h0 := mf_all_true (List.range t2.len)
    rwa [List.length_range] at h0
  have hX : (List.range t2.len).map (fun i => t2.X.data.getD i []) = t2.X.data :=
    range_map_getD [] t2.X.data
  have hY : (List.range t2.len).map (fun i => t2.Y.data.getD i []) = t2.Y.data := by
    rw [show t2.len = t2.Y.data.length from hYr.symm]
    exact range_map_getD [] t2.Y.data
  have hM : (List.range t2.len).map (fun i => t2.metas.data.getD i [])
      = t2.metas.data := by
    rw [show t2.len = t2.metas.data.length from hMr.symm]
    exact range_map_getD [] t2.metas.data
  apply Table.eq_of_parts_table
  · rfl
  · exact Arr.eq_of_parts (by rw [show (t2.maskSelect (List.replicate t2.len true)).X.data
          = (maskFilter (List.replicate t2.len true) (List.range t2.len)).map
              (fun i => t2.X.data.getD i []) from rfl, hjs, hX])
      rfl hXo.symm
  · exact Arr.eq_of_parts (by rw [show (t2.maskSelect (List.replicate t2.len true)).Y.data
          = (maskFilter (List.replicate t2.len true) (List.range t2.len)).map
              (fun i => t2.Y.data.getD i []) from rfl, hjs, hY])
      rfl hYo.symm
  · exact Arr.eq_of_parts (by rw [show (t2.maskSelect (List.replicate t2.len true)).metas.data
          = (maskFilter (List.replicate t2.len true) (List.range t2.len)).map
              (fun i => t2.metas.data.getD i []) from rfl, hjs, hM])
      rfl hMo.symm
  · rcases hW with ⟨d, hWd⟩ | ⟨n, hWn⟩
    · have hdl : d.length = t2.len := by
        have h0 : t2.W.nrows = t2.len := hWr
        rw [hWd] at h0
        exact h0
      show (match t2.W with
        | .vec _ dd =>
          Weights.vec true ((maskFilter (List.replicate t2.len true)
            (List.range t2.len)).map (fun i => dd.getD i 0))
        | .mat0 _ _ =>
          Weights.mat0 true (maskFilter (List.replicate t2.len true)
            (List.range t2.len)).length) = t2.W
      rw [hWd]
      show Weights.vec true ((maskFilter (List.replicate t2.len true)
          (List.range t2.len)).map (fun i => d.getD i 0)) = Weights.vec true d
      have hd2 : (List.range t2.len).map (fun i => d.getD i 0) = d := by
        rw [show t2.len = d.length from hdl.symm]
        exact range_map_getD 0 d
      rw [hjs, hd2]
    · have hnl : n = t2.len := by
        have h0 : t2.W.nrows = t2.len := hWr
        rw [hWn] at h0
        exact h0
      show (match t2.W with
        | .vec _ dd =>
          Weights.vec true ((maskFilter (List.replicate t2.len true)
            (List.range t2.len)).map (fun i => dd.getD i 0))
        | .mat0 _ _ =>
          Weights.mat0 true (maskFilter (List.replicate t2.len true)
            (List.range t2.len)).length) = t2.W
      rw [hWn]
      show Weights.mat0 true (maskFilter (List.replicate t2.len true)
          (List.range t2.len)).length = Weights.mat0 true n
      rw [hjs, List.length_range, hnl]

theorem Table.filter_idem_core (t : Table) (h : t.rowsEqualb = true)
    (conds : List FCond) (conj : Bool) (t' : Table)
    (hok : (do
        let sel ← conds.foldlM (t.filterStep conj) (List.replicate t.len conj)
        t.new_from_table_rows (.mask sel)) = .ok t') :
    (do
        let sel ← conds.foldlM (t'.filterStep conj) (List.replicate t'.len conj)
        t'.new_from_table_rows (.mask sel)) = .ok t' := by
  cases hsel : conds.foldlM (t.filterStep conj) (List.replicate t.len conj) with
  | error e =>
    rw [hsel] at hok
    exact Except.noConfusion hok
  | ok mfin =>
    rw [hsel, exceptBind_ok] at hok
    by_cases hml : mfin.length = t.len
    · rw [Table.new_from_table_rows_mask t h mfin hml] at hok
      injection hok with hok
      subst hok
      have hlen2 : (t.maskSelect mfin).len = mfin.count true :=
        Table.maskSelect_len t mfin hml
      obtain ⟨hfold2, hmlenf⟩ := filterSel_mask t (t.maskSelect mfin) mfin conj rfl
        hlen2 hml
        (fun pos col hc => Table.maskSelect_col t h mfin hml pos col hc)
        (fun pos col hc => Table.get_column_view_length t h pos col hc)
        conds (List.replicate t.len conj) mfin (by simp) hsel
      have hstart : (List.replicate (t.maskSelect mfin).len conj)
          = maskFilter mfin (List.replicate t.len conj) := by
        rw [hlen2, ← hml, mf_replicate]
      rw [hstart, hfold2, exceptBind_ok, mf_self]
      have hmask2 : (List.replicate (mfin.count true) true).length
          = (t.maskSelect mfin).len := by
        rw [List.length_replicate, hlen2]
      have hfinal := Table.new_from_table_rows_mask (t.maskSelect mfin)
        (Table.maskSelect_rowsEqualb t mfin) (List.replicate (mfin.count true) true)
        hmask2
      rw [hfinal]
      have hid : (t.maskSelect mfin).maskSelect (List.replicate (mfin.count true) true)
          = t.maskSelect mfin := by
        have h0 := Table.maskSelect_all_true (t.maskSelect mfin) rfl rfl rfl
          (Table.maskSelect_rowsEqualb t mfin) (Table.maskSelect_W_shape t mfin)
        rwa [hlen2] at h0
      rw [hid]
    · exfalso
      have hres : RowIdx.resolve (.mask mfin) t.X.nrows = .error .indexError := by
        simp only [RowIdx.resolve]
        rw [if_neg (show ¬ (mfin.length = t.X.nrows) from hml)]
      simp only [Table.new_from_table_rows] at hok
      rw [Arr.select_err hres] at hok
      exact Except.noConfusion hok

/-! ### C3 -/

/-- C3.  The claim says `is_view()` and `is_copy()` both return a boolean
and never fail, `is_view()` being true exactly on full views.  In the
source `is_view` reads `self._weights`, an attribute the class never
defines (the container is `_W`), so the moment the three other view
conditions hold — i.e. exactly on the tables the claim says yield `true` —
the call raises `AttributeError` instead; it can never return `true`.
First conjunct: no table makes `is_view` return `true` (it returns `false`
or raises).  Second conjunct: on a concrete full view (a row slice of an
owned 1-feature table) it raises `AttributeError`. -/
theorem C3_is_view_raises_attribute_error :
    (∀ t : Table, t.is_view = .ok false ∨ t.is_view = .error .attributeError) ∧
    (Table.new_from_table_rows exTable4 (.islice [0])).bind Table.is_view =
      .error .attributeError := by
  constructor
  · intro t
    unfold Table.is_view
    split
    · right; rfl
    · left; rfl
  · decide

/-! ### C4 -/

/-- C4, counterexample.  The claim asserts the bulk indexed read equals
the element-by-element gather for *every* row selection.  For the integer
index array `[0, 1]` over the 2×2 feature matrix `[[1, 2], [3, 4]]` with
source columns `[0, 1]`, the bulk path `X[row_indices, src_cols]` pairs
the index arrays and returns the 1-d array `[1, 4]`, while the
element-by-element gather returns the 2×2 matrix `[[1, 2], [3, 4]]`; the
two results differ. -/
theorem C4_counterexample_fancy_pairing :
    exTable2x2.get_columns (.fancy [0, 1]) [0, 1] 2 =
      .ok (.vec1 [.num 1, .num 4]) ∧
    exTable2x2.get_columns_fallback (.fancy [0, 1]) [0, 1] 2 =
      .ok (.mat [[.num 1, .num 2], [.num 3, .num 4]]) ∧
    Np.vec1 [Obj.num 1, Obj.num 4] ≠
      Np.mat [[Obj.num 1, Obj.num 2], [Obj.num 3, Obj.num 4]] := by
  refine ⟨by decide, by decide, by decide⟩

/-- C4, amended: for a *basic* row selection — a resolved slice whose
index list has `n_rows` entries, or `...` with `n_rows` the table length —
and a non-empty single-container source list (all feature addresses, all
negative, or all at least `n_attrs`), the bulk indexed read of
`_get_columns` and the element-by-element fallback agree. -/
theorem C4_bulk_fallback_equiv (t : Table) (h : t.rowsEqualb = true)
    (src_cols : List Int) (idxs : List Nat) (hne : src_cols ≠ [])
    (hone : src_cols.all
        (fun x => decide (0 ≤ x ∧ x < ((t.domain.attributes.length : Nat) : Int))) = true
      ∨ src_cols.all (fun x => decide (x < 0)) = true
      ∨ src_cols.all
          (fun x => decide (((t.domain.attributes.length : Nat) : Int) ≤ x)) = true) :
    (t.get_columns (.islice idxs) src_cols idxs.length
        = t.get_columns_fallback (.islice idxs) src_cols idxs.length)
    ∧ (t.get_columns .all src_cols t.len
        = t.get_columns_fallback .all src_cols t.len) := by
  obtain ⟨hYr, hMr, hWr⟩ := Table.rowsEqual_spec t h
  constructor
  · exact Table.get_columns_single_container t (.islice idxs) src_cols idxs hne hone
      rfl rfl rfl
  · have hresX : RowIdx.resolve .all t.X.nrows = .ok (List.range t.len, false) := rfl
    have hresY : RowIdx.resolve .all t.Y.nrows = .ok (List.range t.len, false) := by
      rw [show t.Y.nrows = t.X.nrows from hYr]
      rfl
    have hresM : RowIdx.resolve .all t.metas.nrows = .ok (List.range t.len, false) := by
      rw [show t.metas.nrows = t.X.nrows from hMr]
      rfl
    have hcore := Table.get_columns_single_container t .all src_cols
      (List.range t.len) hne hone hresX hresY hresM
    rwa [List.length_range] at hcore

/-- C4, amended, witness: on the 2×2 table, the slice `[0, 1]` with
feature columns `[0, 1]` gathers the same matrix along both paths. -/
theorem C4_bulk_fallback_equiv_witness :
    exTable2x2.get_columns (.islice [0, 1]) [0, 1] 2
      = exTable2x2.get_columns_fallback (.islice [0, 1]) [0, 1] 2 :=
  (C4_bulk_fallback_equiv exTable2x2 (by decide) [0, 1] [0, 1] (by decide)
    (Or.inl (by decide))).1

/-! ### C5 -/

/-- C5.  On the 4-row table with feature values `[1, 2, 3, missing]` and
target codes `[0, 1, 0, 1]`: `filter_has_class()` returns all 4 rows (the
result equals the table itself), `filter_is_defined()` returns exactly
rows 0, 1, 2, and `filter_values` with the condition `f > 1.5` returns
exactly rows 1 and 2 — row 3 is excluded because `nan > 1.5` evaluates
false. -/
theorem C5_concrete_filter_scenario :
    exTable4.filter_has_class false = .ok exTable4 ∧
    exTable4.filter_is_defined false =
      .ok { domain := exDom
            X := ⟨[[.num 1], [.num 2], [.num 3]], 1, true⟩
            Y := ⟨[[.num 0], [.num 1], [.num 0]], 1, true⟩
            metas := ⟨[[], [], []], 0, true⟩
            W := .mat0 true 3 } ∧
    exTable4.filter_values (.single (.continuous 0 .Greater (.num q3half) (.num 0))) =
      .ok { domain := exDom
            X := ⟨[[.num 2], [.num 3]], 1, true⟩
            Y := ⟨[[.num 1], [.num 0]], 1, true⟩
            metas := ⟨[[], []], 0, true⟩
            W := .mat0 true 2 } := by
  refine ⟨by decide, by decide, by decide⟩

/-! ### C6 -/

/-- C6, counterexample.  The claim says the selection vector contains
exactly `p` true entries when `p ≥ 1` (absolute count) and exactly `p · N`
when `p < 1` (fraction), for *every* argument `p`.  With `p = 3/2` over 4
rows the code slices `retain[:1.5]`, producing exactly 1 true entry, not
`3/2`; with `p = -1/2` over 4 rows it slices `retain[:-2]`, which wraps
and produces 2 true entries, not the `-1/2 · 4 = -2` of the fractional
reading.  (The identity permutation stands in for the shuffle; the count
is permutation-invariant.) -/
theorem C6_counterexample_fractional_count :
    countTrue (exTable4.filter_random_mask q3half false [0, 1, 2, 3]) = 1 ∧
    ¬ ((1 : ℚ) = q3half) ∧
    countTrue (exTable4.filter_random_mask qneg12 false [0, 1, 2, 3]) = 2 ∧
    ¬ ((2 : ℚ) = qneg12 * 4) := by
  have hmul : qneg12 * (4 : ℚ) = -2 := by
    unfold qneg12
    rw [Rat.mk'_eq_divInt, Rat.divInt_eq_div]
    norm_num
  refine ⟨by decide, by decide, ?_, ?_⟩
  · have hlen : (exTable4.len : ℚ) = 4 := by decide
    simp only [Table.filter_random_mask]
    rw [if_pos (show qneg12 < 1 by decide), hlen, hmul]
    decide
  · rw [hmul]
    decide

/-- C6, amended: `filter_random` does select a deterministic-size subset,
but the size is `pySliceBound` of the (possibly fractional, possibly
negative) cut `prob·N` (when `prob < 1`) or `prob` (when `prob ≥ 1`): the
selection vector holds exactly that many `true` entries for every
permutation the shuffle may produce, and `negate` yields exactly the
elementwise complement. -/
theorem C6_filter_random_det (t : Table) (prob : ℚ) (perm : List Nat)
    (hperm : perm.Perm (List.range t.len)) :
    countTrue (t.filter_random_mask prob false perm)
      = pySliceBound (if prob < 1 then prob * (t.len : ℚ) else prob) t.len ∧
    t.filter_random_mask prob true perm
      = (t.filter_random_mask prob false perm).map (! ·) := by
  have hble := pySliceBound_le (if prob < 1 then prob * (t.len : ℚ) else prob) t.len
  have hl : (List.replicate
        (pySliceBound (if prob < 1 then prob * (t.len : ℚ) else prob) t.len) true
      ++ List.replicate
        (t.len - pySliceBound (if prob < 1 then prob * (t.len : ℚ) else prob) t.len)
        false).length = t.len := by
    simp only [List.length_append, List.length_replicate]
    omega
  constructor
  · show (t.filter_random_mask prob false perm).count true = _
    rw [Table.filter_random_mask_eq, if_neg (by decide : ¬ (false = true))]
    rw [applyPerm_count perm _ (by rw [hl]; exact hperm) true]
    exact contig_count_true _ _
  · rw [Table.filter_random_mask_eq t prob true perm,
      Table.filter_random_mask_eq t prob false perm,
      if_pos (rfl : (true : Bool) = true), if_neg (by decide : ¬ (false = true))]
    rw [contig_negate]
    exact applyPerm_map_not perm _ (fun i hi => by
      rw [hl]
      exact List.mem_range.mp (hperm.mem_iff.mp hi))

/-- C6, amended, witness: on the 4-row table with `prob = 2` and the
permutation `[2, 0, 3, 1]`, the vector holds exactly 2 `true` entries and
negation complements it. -/
theorem C6_filter_random_det_witness :
    countTrue (exTable4.filter_random_mask 2 false [2, 0, 3, 1])
      = pySliceBound (if (2 : ℚ) < 1 then 2 * (exTable4.len : ℚ) else 2) exTable4.len ∧
    exTable4.filter_random_mask 2 true [2, 0, 3, 1]
      = (exTable4.filter_random_mask 2 false [2, 0, 3, 1]).map (! ·) :=
  C6_filter_random_det exTable4 2 [2, 0, 3, 1] (by decide)

/-! ### C7 -/

/-- C7.  A domain inferred for raw arrays with no schema: every feature
column becomes a continuous (numeric) variable named positionally, and a
target column is inferred discrete exactly when all of its values are
whole numbers within `[0, 19]` — otherwise it is continuous. -/
theorem C7_anonymous_domain_inference (X Ya metas : Arr) (d : Domain) (i : Nat)
    (hok : Table.create_anonymous_domain X (some Ya) (some metas) = .ok d)
    (hi : i < Ya.ncols) :
    d.attributes = (List.range X.ncols).map
      (fun a => Var.mk ("Feature " ++ toString (a + 1)) .continuous) ∧
    ((d.class_vars.getD i defaultVar).isDiscrete = true
      ↔ allWholeIn0to19 (Ya.col i) = true) ∧
    ((d.class_vars.getD i defaultVar).isDiscrete = false →
      (d.class_vars.getD i defaultVar).kind = VarKind.continuous) := by
  simp only [Table.create_anonymous_domain] at hok
  cases hm : (List.range Ya.ncols).mapM (fun j => inferClassVar j (Ya.col j)) with
  | error e =>
    rw [hm] at hok
    exact Except.noConfusion hok
  | ok cvs =>
    rw [hm, exceptBind_ok] at hok
    injection hok with hok
    subst hok
    have hall := mapM_ok_getD 0 defaultVar hm i (by simpa using hi)
    rw [range_getD hi] at hall
    obtain ⟨hiff, hcont⟩ := inferClassVar_spec i (Ya.col i) _ hall
    exact ⟨rfl, hiff, hcont⟩

/-- C7, witness: on the 2-row arrays with target codes `[0, 1]`, the
inferred domain has one positional continuous feature and a discrete
class variable, and the column is indeed all whole numbers in `[0, 19]`. -/
theorem C7_anonymous_domain_inference_witness :
    exDomAnon.attributes = (List.range exXa.ncols).map
      (fun a => Var.mk ("Feature " ++ toString (a + 1)) .continuous) ∧
    ((exDomAnon.class_vars.getD 0 defaultVar).isDiscrete = true
      ↔ allWholeIn0to19 (exYa.col 0) = true) ∧
    ((exDomAnon.class_vars.getD 0 defaultVar).isDiscrete = false →
      (exDomAnon.class_vars.getD 0 defaultVar).kind = VarKind.continuous) :=
  C7_anonymous_domain_inference exXa exYa exMa exDomAnon 0 (by decide) (by decide)

/-! ### C8 -/

/-- C8, counterexample.  The claim says `insert` fails for every row index
outside `[0, N)`.  On the 4-row table, `insert(4, row)` — index `N`,
outside `[0, N)` — succeeds and appends, yielding a 5-row table. -/
theorem C8_counterexample_insert_at_len :
    (exTable4.insert 4 (.seq [.num 5, .num 1])).2 = none ∧
    (exTable4.insert 4 (.seq [.num 5, .num 1])).1.len = 5 := by
  refine ⟨by decide, by decide⟩

/-- C8, amended: `insert` fails with `IndexError` — performing no mutation
at all — exactly when the index, after adding `N` to a negative one, lies
outside `[0, N]` (the length itself is a legal insertion point, the
append). -/
theorem C8_insert_bounds (t : Table) (key : Int) (v : Example)
    (h : (if key < 0 then key + t.len else key) < 0 ∨
         (t.len : Int) < (if key < 0 then key + t.len else key)) :
    t.insert key v = (t, some .indexError) := by
  simp only [Table.insert]
  rw [if_pos h]

/-- C8, witness: on the 4-row table, `insert(5, ...)` and `insert(-5, ...)`
both satisfy the bounds hypothesis and leave the table untouched with an
`IndexError`. -/
theorem C8_insert_bounds_witness :
    exTable4.insert 5 (.seq [.num 5, .num 1]) = (exTable4, some .indexError) :=
  C8_insert_bounds exTable4 5 (.seq [.num 5, .num 1]) (by decide)

/-! ### C9 -/

/-- C9.  Filter idempotence: whenever `filter_values` succeeds on a table
satisfying the row-count invariant, running the same predicate tree on the
result returns that result unchanged — the identical row set. -/
theorem C9_filter_idempotent (t : Table) (h : t.rowsEqualb = true)
    (filt : FilterArg) (t' : Table)
    (hok : t.filter_values filt = .ok t') :
    t'.filter_values filt = .ok t' := by
  cases filt with
  | values v => exact Table.filter_idem_core t h v.conditions v.conjunction t' hok
  | single c => exact Table.filter_idem_core t h [c] true t' hok

/-- C9, witness: filtering the 4-row table by `f > 1.5` yields the 2-row
table, and filtering that table again by the same predicate returns it
unchanged. -/
theorem C9_filter_idempotent_witness :
    exTable2r.filter_values exFiltGt = .ok exTable2r :=
  C9_filter_idempotent exTable4 (by decide) exFiltGt exTable2r (by decide)

/-! ### C10 -/

/-- C10.  `self[i] = v` with an integer row index and a real value
broadcasts `v` across the whole feature row `i` — every feature cell of
that row becomes `v` — and leaves the target, metadata and weight
containers (and the schema) untouched; no single column is addressed. -/
theorem C10_setitem_row_real_broadcast (t : Table) (i : Nat) (q : ℚ)
    (h : i < t.len) :
    (t.setitem_int (i : Int) (.real q)).2 = none ∧
    (t.setitem_int (i : Int) (.real q)).1.X.data =
      t.X.data.set i (List.replicate t.X.ncols (.num q)) ∧
    (t.setitem_int (i : Int) (.real q)).1.Y = t.Y ∧
    (t.setitem_int (i : Int) (.real q)).1.metas = t.metas ∧
    (t.setitem_int (i : Int) (.real q)).1.W = t.W ∧
    (t.setitem_int (i : Int) (.real q)).1.domain = t.domain := by
  have h' : i < t.X.nrows := h
  have hn : normIdx t.X.nrows (i : Int) = .ok i := by
    simp only [normIdx]
    rw [if_neg (show ¬ ((i : Int) < 0) by omega)]
    rw [if_pos (show (0 : Int) ≤ (i : Int) ∧ (i : Int) < (t.X.nrows : Int) by
      exact ⟨by omega, by exact_mod_cast h'⟩)]
    simp
  simp [Table.setitem_int, hn, Arr.setRowConst]

/-- C10, witness: writing `9` at row 2 of the 4-row scenario table. -/
theorem C10_setitem_row_real_broadcast_witness :
    (exTable4.setitem_int ((2 : Nat) : Int) (.real 9)).2 = none ∧
    (exTable4.setitem_int ((2 : Nat) : Int) (.real 9)).1.X.data =
      exTable4.X.data.set 2 (List.replicate exTable4.X.ncols (.num 9)) ∧
    (exTable4.setitem_int ((2 : Nat) : Int) (.real 9)).1.Y = exTable4.Y ∧
    (exTable4.setitem_int ((2 : Nat) : Int) (.real 9)).1.metas = exTable4.metas ∧
    (exTable4.setitem_int ((2 : Nat) : Int) (.real 9)).1.W = exTable4.W ∧
    (exTable4.setitem_int ((2 : Nat) : Int) (.real 9)).1.domain = exTable4.domain :=
  C10_setitem_row_real_broadcast exTable4 2 9 (by decide)

/-! ### C1 -/

/-- C1.  Row-count invariant: every table reachable through the public
constructors (from a domain, from numpy arrays, from another table's rows)
and the mutation operations (`extend` with rows or a table, `insert`,
`__delitem__`, `shuffle`) has the same number of rows in all four
containers `X`, `Y`, `metas` and `W` — the post-state of a failed
mutation included. -/
theorem C1_row_count_invariant (t : Table) (h : Reachable t) :
    t.rowsEqualb = true := by
  induction h with
  | from_domain d n w => exact Table.new_from_domain_rowsEqualb d n w
  | from_numpy d X Y metas W t hok =>
    exact Table.new_from_numpy_rowsEqualb d X Y metas W t hok
  | from_table_rows s r t hs hok ih =>
    exact Table.new_from_table_rows_rowsEqualb s ih r t hok
  | extend t exs ht ih => exact Table.extend_rowsEqualb t ih exs
  | extend_table t s ht hs ih ihs => exact Table.extend_table_rowsEqualb t ih s
  | insert t key v ht ih => exact Table.insert_rowsEqualb t ih key v
  | delitem t k ht ih => exact Table.delitem_rowsEqualb t ih k
  | shuffle t ind ht hperm ih =>
    exact Table.shuffle_rowsEqualb t ih ind
      (fun i hi => List.mem_range.mp (hperm.mem_iff.mp hi))

/-- C1, witness: a table built from the example domain and pushed through
a failing `extend` still satisfies the row-count invariant. -/
theorem C1_row_count_invariant_witness :
    ((Table.new_from_domain exDom 4 false).extend
        [Example.seq [Obj.str "zzz", Obj.num 0]]).1.rowsEqualb = true :=
  C1_row_count_invariant
    ((Table.new_from_domain exDom 4 false).extend
        [Example.seq [Obj.str "zzz", Obj.num 0]]).1
    (Reachable.extend (Table.new_from_domain exDom 4 false)
      [Example.seq [Obj.str "zzz", Obj.num 0]]
      (Reachable.from_domain exDom 4 false))

/-! ### C2 -/

/-- C2.  Failure atomicity of `extend` and `insert`: whenever `extend`
(with a row sequence or with an equal-domain source table) or `insert`
re-raises an error — in particular when a value of one of the supplied
rows cannot be converted while populating — the table returned by the
failed call is exactly the table before the call: same row count and same
contents of all four containers. -/
theorem C2_extend_insert_rollback (t : Table) (h : t.rowsEqualb = true)
    (exs : List Example) (s : Table) (key : Int) (v : Example)
    (e1 e2 e3 : PyErr) :
    ((t.extend exs).2 = some e1 → (t.extend exs).1 = t) ∧
    ((t.extend_table s).2 = some e2 → (t.extend_table s).1 = t) ∧
    ((t.insert key v).2 = some e3 → (t.insert key v).1 = t) :=
  ⟨fun hf => Table.extend_restores t h exs e1 hf,
   fun hf => Table.extend_table_restores t h s e2 hf,
   fun hf => Table.insert_restores t h key v e3 hf⟩

/-- C2, witness: extending the 4-row table with one row whose feature
value is the unencodable string `"zzz"` re-raises `ValueError` and leaves
the table exactly as it was; likewise inserting that row at position 1. -/
theorem C2_extend_insert_rollback_witness :
    (exTable4.extend [Example.seq [Obj.str "zzz", Obj.num 0]]).2 =
      some PyErr.valueError ∧
    (exTable4.extend [Example.seq [Obj.str "zzz", Obj.num 0]]).1 = exTable4 ∧
    (exTable4.insert 1 (Example.seq [Obj.str "zzz", Obj.num 0])).2 =
      some PyErr.valueError ∧
    (exTable4.insert 1 (Example.seq [Obj.str "zzz", Obj.num 0])).1 = exTable4 :=
  ⟨by decide,
   (C2_extend_insert_rollback exTable4 (by decide)
     [Example.seq [Obj.str "zzz", Obj.num 0]] exTable3 1
     (Example.seq [Obj.str "zzz", Obj.num 0])
     PyErr.valueError PyErr.valueError PyErr.valueError).1 (by decide),
   by decide,
   (C2_extend_insert_rollback exTable4 (by decide)
     [Example.seq [Obj.str "zzz", Obj.num 0]] exTable3 1
     (Example.seq [Obj.str "zzz", Obj.num 0])
     PyErr.valueError PyErr.valueError PyErr.valueError).2.2 (by decide)⟩

end Orange
